import Mathlib

/-!
# Process simulator: a shallow embedding of `process-simulator.c`

The C program replays trace files (CPU / SYSCALL / END_IO / FORK / EXEC events),
keeps a linked list of process control blocks, a fixed table of memory
partitions and a 16-bit clock, and appends timestamped lines to an execution
log. This file embeds the simulation engine (`run_fork`, `run_exec`,
`save_system_status`, `load_trace` name resolution, `process_trace`, `init_pcb`,
`main`) as pure state-passing functions and proves properties about them.

Conventions of the embedding.

* `uint16_t` values are `Nat`; every store into one is reduced modulo `2^16`
  (`toU16`). C `int` locals are `Int`; the values involved stay far below
  `2^31`, so `int` arithmetic is exact.
* Pointers to `PCB` are addresses `Nat` into the list `Sim.pcbs`; address `0`
  is `pcb_head` of `main`, `malloc` returns the next unused address, `NULL` is
  `none`. The fields `parent` and `next` are kept as pointers.
* `rand()` is the stream `Env.rand`; the `k`-th call returns `Env.rand k`.
* Files are lists: the execution log, `logs/system_status.txt` and standard
  output only grow. Opening an output file always succeeds.
* `char[20]` buffers are `String`; names are assumed to fit their buffers.
* Parsing of trace lines is outside the model: `Env.files` maps a path to the
  events `load_trace` parses from that file (`none`: the file cannot be opened).
  The arrays of `MAX_EVENTS` events and the vector table are not bounded: a trace
  is a list of any length and `Env.vector_table` is a total function.
* The recursion `run_exec → process_trace → run_exec` is bounded by a fuel
  argument; running out of fuel is reported as `Halt.fuel`.
-/

namespace ProcessSimulator

/-! ## Data model (`process-simulator.h`) -/

/-- The constant `MAX_PARTITIONS` of `process-simulator.h`. -/
def MAX_PARTITIONS : Nat := 6

/-- The struct `TraceEvent`: one parsed line of a trace file. -/
structure TraceEvent where
  type : String
  duration : Nat
  program_name : String
  vector : Int
deriving DecidableEq, Repr

/-- The struct `MemoryPartition`; `code` is "free" or the name of the occupant. -/
structure MemoryPartition where
  partition_number : Nat
  size : Nat
  code : String
deriving DecidableEq, Repr

/-- The struct `PCB`; `parent` and `next` are addresses into the PCB store. -/
structure PCB where
  pid : Nat
  cpu_time : Nat
  io_time : Nat
  remaining_cpu_time : Nat
  partition_number : Nat
  program_name : String
  program_size : Nat
  parent : Option Nat
  next : Option Nat
deriving DecidableEq, Repr

/-- The struct `ExternalFile`: one entry of the external program registry. -/
structure ExternalFile where
  program_name : String
  size : Nat
deriving DecidableEq, Repr

/-- The text of an execution-log line after its two numeric columns, one
constructor per `fprintf` format string of `run_exec` and `process_trace`. -/
inductive Step where
  | cpu_execution
  | switch_to_kernel_mode
  | context_saved
  | find_vector (vector : Int) (position : Int)
  | load_address (address : Int)
  | syscall_run_isr
  | transfer_data
  | transfer_data_to_display
  | check_for_errors
  | iret
  | check_priority
  | check_if_masked
  | end_io_step
  | fork_copy_pcb
  | scheduler_called
  | exec_load (program_name : String) (program_size : Int)
  | found_partition (partition_number : Nat) (program_size : Int)
  | partition_marked (partition_number : Nat)
  | updating_pcb
deriving DecidableEq, Repr

/-- One line of the execution log: `<timestamp>, <duration>, <text>`. -/
structure LogLine where
  time : Nat
  duration : Int
  step : Step
deriving DecidableEq, Repr

/-- One table row written by `save_system_status`. -/
structure StatusRow where
  pid : Nat
  program_name : String
  partition_number : Nat
  program_size : Nat
deriving DecidableEq, Repr

/-- One snapshot appended to `logs/system_status.txt`. -/
structure Snapshot where
  save_time : Nat
  rows : List StatusRow
deriving DecidableEq, Repr

/-- The messages the engine prints on standard output. -/
inductive Message where
  | program_not_found (program_name : String)
  | no_suitable_partition (program_name : String)
  | cannot_open_file (shown_name : String)
deriving DecidableEq, Repr

/-- The mutable state of a run. `elapsed` is a ghost counter: it is the exact
(unwrapped) sum of all increments applied to the clock and is never read by
the engine. -/
structure Sim where
  current_time : Nat
  pcbs : List PCB
  partitions : List MemoryPartition
  file : List LogLine
  status_file : List Snapshot
  stdout : List Message
  rand_calls : Nat
  elapsed : Int
deriving DecidableEq, Repr

/-- The read-only inputs of a run. -/
structure Env where
  vector_table : Int → Int
  external_files : List ExternalFile
  files : String → Option (List TraceEvent)
  rand : Nat → Nat

/-- Why a run stopped without returning to its caller. -/
inductive Halt where
  | fault
  | exit
  | fuel
deriving DecidableEq, Repr

/-- Result of an operation: it returned (`done`, with the state and the value
of the caller's `current_process` variable), or the run stopped (`halted`):
`fault` is a `NULL`/dangling dereference or an endless pointer walk, `exit` is
`exit(1)`, `fuel` is the recursion bound of the model. -/
inductive Outcome where
  | done (s : Sim) (current_process : Option Nat)
  | halted (s : Sim) (why : Halt)
deriving DecidableEq, Repr

/-- The state carried by an outcome. -/
def Outcome.sim : Outcome → Sim
  | .done s _ => s
  | .halted s _ => s

/-! ## State primitives -/

/-- Conversion of an `int` to `uint16_t`. -/
def toU16 (x : Int) : Nat := (x % 65536).toNat

/-- The statement `fprintf(file, "%d, %d, ...", *current_time, d, ...)`. -/
def log (s : Sim) (d : Int) (step : Step) : Sim :=
  { s with file := s.file ++ [⟨s.current_time, d, step⟩] }

/-- The statement `*current_time += d` on the `uint16_t` clock. -/
def advance (s : Sim) (d : Int) : Sim :=
  { s with current_time := toU16 ((s.current_time : Int) + d), elapsed := s.elapsed + d }

/-- A log line followed by the clock increment of the same duration. -/
def emit (s : Sim) (d : Int) (step : Step) : Sim := advance (log s d step) d

/-- A `printf` of an error message. -/
def say (s : Sim) (m : Message) : Sim := { s with stdout := s.stdout ++ [m] }

/-- A store through a `PCB` pointer or a `malloc`: the PCB store becomes `pcbs`. -/
def with_pcbs (s : Sim) (pcbs : List PCB) : Sim := { s with pcbs := pcbs }

/-- The statement `strcpy(candidate_partition->code, program_name)` on the
partition `cp` at index `cand`. -/
def mark_occupied (s : Sim) (cand : Nat) (cp : MemoryPartition) (program_name : String) : Sim :=
  { s with partitions := s.partitions.set cand { cp with code := program_name } }

/-- One snapshot appended to the status file. -/
def write_snapshot (s : Sim) (snap : Snapshot) : Sim :=
  { s with status_file := s.status_file ++ [snap] }

/-- The value the next call of `rand()` returns. -/
def rand_value (env : Env) (s : Sim) : Int := (env.rand s.rand_calls : Int)

/-- The state after one call of `rand()`. -/
def rand_next (s : Sim) : Sim := { s with rand_calls := s.rand_calls + 1 }

/-- The C operator `%` on `int` (truncated remainder). -/
def c_mod (x y : Int) : Int := Int.tmod x y

/-- Follows the pointer field `link` from address `a` until a record whose link
is `NULL`; `none` when the walk leaves the store or exceeds `fuel` steps. -/
def walk_to_end (link : PCB → Option Nat) (pcbs : List PCB) : Nat → Nat → Option Nat
  | 0, _ => none
  | fuel + 1, a =>
    match pcbs[a]? with
    | none => none
    | some p =>
      match link p with
      | none => some a
      | some b => walk_to_end link pcbs fuel b

/-- The loop `while (p->parent != NULL) p = p->parent;` of `run_exec` and
`process_trace`: the head of the PCB table. -/
def find_pcb_table (pcbs : List PCB) (a : Nat) : Option Nat :=
  walk_to_end PCB.parent pcbs (pcbs.length + 1) a

/-- The loop `while (last->next != NULL) last = last->next;` of `run_fork`. -/
def find_last_process (pcbs : List PCB) (a : Nat) : Option Nat :=
  walk_to_end PCB.next pcbs (pcbs.length + 1) a

/-! ## `run_fork` -/

/-- The function `run_fork`: copies the current PCB into a freshly allocated
one, gives it `pid + 1`, links `parent` to the current PCB, hangs it after the
last PCB reached from the current one through `next`, and makes it current.
The result is the new PCB store and the new value of `*current_process`;
`none` when the current pointer cannot be dereferenced or the walk to the last
PCB does not end. -/
def run_fork (pcbs : List PCB) (current_process : Option Nat) : Option (List PCB × Nat) :=
  match current_process with
  | none => none
  | some cur =>
    match pcbs[cur]? with
    | none => none
    | some cp =>
      let new_address := pcbs.length
      let new_process : PCB :=
        { cp with pid := toU16 ((cp.pid : Int) + 1), parent := some cur, next := none }
      match find_last_process pcbs cur with
      | none => none
      | some last =>
        match pcbs[last]? with
        | none => none
        | some lp =>
          some (pcbs.set last { lp with next := some new_address } ++ [new_process], new_address)

/-! ## `run_exec`: registry lookup, best fit, duration split -/

/-- The lookup loop of `run_exec` (lines 53-65): `program_size` starts at `-1`
and takes the size of the first registry entry whose name equals the request. -/
def find_program_size : List ExternalFile → String → Int
  | [], _ => -1
  | f :: rest, program_name =>
    if f.program_name = program_name then (f.size : Int)
    else find_program_size rest program_name

/-- One iteration of the best-fit loop of `run_exec` (lines 83-89) at index
`i`; the candidate pointer is the index of the partition it points to. An index
outside the table leaves the candidate as it is. -/
def best_fit_step (memory_partitions : List MemoryPartition) (program_size : Int)
    (candidate : Option Nat) (i : Nat) : Option Nat :=
  match memory_partitions[i]? with
  | none => candidate
  | some p =>
    if p.code = "free" ∧ program_size ≤ (p.size : Int) then
      match candidate with
      | none => some i
      | some c =>
        match memory_partitions[c]? with
        | none => candidate
        | some cp => if p.size < cp.size then some i else candidate
    else candidate

/-- The best-fit loop of `run_exec` (lines 80-90) over indices
`0 .. MAX_PARTITIONS - 1`, starting from `candidate_partition = NULL`. -/
def find_partition (memory_partitions : List MemoryPartition) (program_size : Int) : Option Nat :=
  (List.range MAX_PARTITIONS).foldl (best_fit_step memory_partitions program_size) none

/-- The four-way split of `run_exec` (lines 104-107); `a`, `b`, `c`, `d` are
`uint16_t`, the three `rand()` results are `r1`, `r2`, `r3`. -/
def exec_split (duration r1 r2 r3 : Int) : Int × Int × Int × Int :=
  let a : Int := toU16 (c_mod r1 (duration + 1))
  let b : Int := toU16 (c_mod r2 (duration - a + 1))
  let c : Int := toU16 (c_mod r3 (duration - a - b + 1))
  let d : Int := toU16 (duration - a - b - c)
  (a, b, c, d)

/-- The three-way split of the SYSCALL branch of `process_trace` (lines 402-405). -/
def syscall_split (duration r1 r2 : Int) : Int × Int × Int :=
  let a := c_mod r1 (duration + 1)
  let b := c_mod r2 (duration - a + 1)
  let c := duration - a - b
  (a, b, c)

/-- The two-way split of the FORK branch of `process_trace` (lines 460-462). -/
def fork_split (duration r1 : Int) : Int × Int :=
  let a := c_mod r1 (duration + 1)
  let b := duration - a
  (a, b)

/-! ## `save_system_status` -/

/-- The row `save_system_status` prints for one PCB. -/
def status_row (p : PCB) : StatusRow :=
  ⟨p.pid, p.program_name, p.partition_number, p.program_size⟩

/-- The loop of `save_system_status` (lines 189-195): rows of the PCBs reached
through `next`, starting from the pointer given. -/
def status_rows (pcbs : List PCB) : Nat → Option Nat → Option (List StatusRow)
  | _, none => some []
  | 0, some _ => none
  | fuel + 1, some a =>
    match pcbs[a]? with
    | none => none
    | some p =>
      match status_rows pcbs fuel p.next with
      | none => none
      | some rows => some (status_row p :: rows)

/-- The function `save_system_status`: appends to the status file the time and
one row per PCB after the head `pcb_table`. -/
def save_system_status (s : Sim) (time : Nat) (pcb_table : Nat) : Option Sim :=
  match s.pcbs[pcb_table]? with
  | none => none
  | some head =>
    match status_rows s.pcbs s.pcbs.length head.next with
    | none => none
    | some rows => some (write_snapshot s ⟨time, rows⟩)

/-- Sequencing: continue with `k` when the operation returned. -/
def Outcome.and_then (o : Outcome) (k : Sim → Option Nat → Outcome) : Outcome :=
  match o with
  | .done s cur => k s cur
  | .halted s why => .halted s why

/-- The statements `save_system_status(*current_time, pcb_table); *current_time += 1;`
that close the SYSCALL, END_IO and FORK branches and the logging part of `run_exec`. -/
def snapshot_then_tick (s : Sim) (pcb_table : Nat) (current_process : Option Nat) : Outcome :=
  match save_system_status s s.current_time pcb_table with
  | none => .halted s .fault
  | some s1 => .done (advance s1 1) current_process

/-! ## `load_trace`: which file is read -/

/-- The position of the first occurrence of `needle` in the text, counted from
`i` (C `strstr`). -/
def strstr_from (needle : List Char) : List Char → Nat → Option Nat
  | [], i => if needle = [] then some i else none
  | c :: cs, i => if needle.isPrefixOf (c :: cs) then some i else strstr_from needle cs (i + 1)

/-- The flag `trap` of `load_trace` (line 251): the first occurrence of ".txt"
in the name starts four characters before its end. -/
def trap (filename : String) : Bool :=
  decide ((strstr_from (".txt" : String).data filename.data 0).map Int.ofNat
    = some ((filename.data.length : Int) - 4))

/-- The path of the file whose lines `load_trace` reads (lines 264-274): the
handle opened at line 259 is overwritten before it is used. -/
def trace_path (filename : String) : String :=
  if filename.data.take 7 = ("program" : String).data then
    String.append (String.append "additionalFiles/" filename) ".txt"
  else filename

/-- The function `load_trace` up to parsing: the events of the file read, or
the message printed before `exit(1)` when it cannot be opened (line 279). -/
def load_trace (env : Env) (filename : String) : Except Message (List TraceEvent) :=
  match env.files (trace_path filename) with
  | some events => .ok events
  | none =>
    .error (.cannot_open_file (if trap filename then filename else String.append filename ".txt"))

/-! ## `run_exec` -/

/-- Lines 100-120 of `run_exec`: the three `rand()` calls, the six log lines
and the clock increments of a non-initial exec; `cp` is the candidate partition. -/
def exec_log_steps (env : Env) (program_name : String) (duration : Nat) (program_size : Int)
    (cp : MemoryPartition) (s : Sim) : Sim :=
  let r1 := rand_value env s
  let s := rand_next s
  let r2 := rand_value env s
  let s := rand_next s
  let r3 := rand_value env s
  let s := rand_next s
  let split := exec_split (duration : Int) r1 r2 r3
  let s := emit s split.1 (.exec_load program_name program_size)
  let s := emit s split.2.1 (.found_partition cp.partition_number program_size)
  let s := emit s split.2.2.1 (.partition_marked cp.partition_number)
  let s := emit s split.2.2.2 .updating_pcb
  let s := emit s 1 .scheduler_called
  log s 1 .iret

/-- Lines 98-153 of `run_exec`, entered with the candidate partition at index
`cand`: log steps (unless initial), marking of the partition, update of the
current PCB, snapshot (unless initial), loading and processing of the nested
trace through `nested`, and the return of control to the parent. -/
def run_exec_load (nested : List TraceEvent → Option Nat → Sim → Outcome) (env : Env)
    (program_name : String) (duration : Nat) (cur : Nat) (pcb : PCB) (is_init : Bool)
    (program_size : Int) (cand : Nat) (s : Sim) : Outcome :=
  match s.partitions[cand]? with
  | none => .halted s .fault
  | some cp =>
    let s1 := if is_init then s else exec_log_steps env program_name duration program_size cp s
    let s2 := mark_occupied s1 cand cp program_name
    let updated : PCB :=
      { pcb with partition_number := cp.partition_number,
                 program_name := if is_init then "init" else program_name,
                 program_size := toU16 program_size }
    let s3 := with_pcbs s2 (s2.pcbs.set cur updated)
    match find_pcb_table s3.pcbs cur with
    | none => .halted s3 .fault
    | some pcb_table =>
      (if is_init then Outcome.done s3 (some cur)
        else snapshot_then_tick s3 pcb_table (some cur)).and_then fun s4 _ =>
      match load_trace env program_name with
      | .error m => .halted (say s4 m) .exit
      | .ok trace_events =>
        (nested trace_events (some cur) s4).and_then fun s5 _ =>
        match s5.pcbs[cur]? with
        | none => .halted s5 .fault
        | some p => .done s5 p.parent

/-- Lines 78-96 of `run_exec`: best-fit search; without a candidate the error
is printed and the function returns. -/
def run_exec_allocate (nested : List TraceEvent → Option Nat → Sim → Outcome) (env : Env)
    (program_name : String) (duration : Nat) (cur : Nat) (pcb : PCB) (is_init : Bool)
    (program_size : Int) (s : Sim) : Outcome :=
  match find_partition s.partitions program_size with
  | none => .done (say s (.no_suitable_partition program_name)) (some cur)
  | some cand =>
    run_exec_load nested env program_name duration cur pcb is_init program_size cand s

/-- The function `run_exec`, with the call of `process_trace` at line 149
passed as `nested`. The result carries the value left in `*current_process`. -/
def run_exec_with (nested : List TraceEvent → Option Nat → Sim → Outcome) (env : Env)
    (program_name : String) (duration : Nat) (current_process : Option Nat) (s : Sim) : Outcome :=
  match current_process with
  | none => .halted s .fault
  | some cur =>
    match s.pcbs[cur]? with
    | none => .halted s .fault
    | some pcb =>
      let is_init : Bool := decide (pcb.pid = 11)
      if is_init then
        run_exec_allocate nested env program_name duration cur pcb is_init 1 s
      else
        let program_size := find_program_size env.external_files program_name
        if program_size = -1 then
          .done (say s (.program_not_found program_name)) (some cur)
        else
          run_exec_allocate nested env program_name duration cur pcb is_init program_size s

/-! ## `process_trace` -/

/-- The CPU branch (lines 396-397). -/
def cpu_event (ev : TraceEvent) (s : Sim) : Sim :=
  emit s (ev.duration : Int) .cpu_execution

/-- The SYSCALL branch up to its IRET line (lines 402-431). -/
def syscall_steps (env : Env) (ev : TraceEvent) (which_syscall : Bool) (s : Sim) : Sim :=
  let r1 := rand_value env s
  let s := rand_next s
  let r2 := rand_value env s
  let s := rand_next s
  let split := syscall_split (ev.duration : Int) r1 r2
  let s := emit s 1 .switch_to_kernel_mode
  let context_time := c_mod (rand_value env s) 3 + 1
  let s := rand_next s
  let s := emit s context_time .context_saved
  let s := emit s 1 (.find_vector ev.vector (ev.vector * 2))
  let s := emit s 1 (.load_address (env.vector_table ev.vector))
  let s := emit s split.1 .syscall_run_isr
  let s := emit s split.2.1 (if which_syscall then .transfer_data_to_display else .transfer_data)
  let s := emit s split.2.2 .check_for_errors
  log s 1 .iret

/-- The END_IO branch up to its IRET line (lines 437-451). -/
def end_io_steps (env : Env) (ev : TraceEvent) (s : Sim) : Sim :=
  let s := emit s 1 .check_priority
  let s := emit s 1 .check_if_masked
  let s := emit s 1 .switch_to_kernel_mode
  let s := emit s 3 .context_saved
  let s := emit s 1 (.find_vector ev.vector (ev.vector * 2))
  let s := emit s 1 (.load_address (env.vector_table ev.vector))
  let s := emit s (ev.duration : Int) .end_io_step
  log s 1 .iret

/-- The logging part of the FORK branch (lines 459-476), skipped when `is_init`. -/
def fork_steps (env : Env) (ev : TraceEvent) (s : Sim) : Sim :=
  let split := fork_split (ev.duration : Int) (rand_value env s)
  let s := rand_next s
  let s := emit s 1 .switch_to_kernel_mode
  let s := emit s 3 .context_saved
  let s := emit s 1 (.find_vector ev.vector (ev.vector * 2))
  let s := emit s 1 (.load_address (env.vector_table ev.vector))
  let s := emit s split.1 .fork_copy_pcb
  let s := emit s split.2 .scheduler_called
  log s 1 .iret

/-- The logging part of the EXEC branch (lines 486-494), skipped when `is_init`. -/
def exec_entry_steps (env : Env) (ev : TraceEvent) (s : Sim) : Sim :=
  let s := emit s 1 .switch_to_kernel_mode
  let context_time := c_mod (rand_value env s) 3 + 1
  let s := rand_next s
  let s := emit s context_time .context_saved
  let s := emit s 1 (.find_vector ev.vector (ev.vector * 2))
  emit s 1 (.load_address (env.vector_table ev.vector))

/-- One iteration of the loop of `process_trace` (lines 394-497): the chain of
`strcmp` tests on the event type. `exec` stands for the call of `run_exec`. -/
def process_event (exec : String → Nat → Option Nat → Sim → Outcome) (env : Env)
    (is_init : Bool) (pcb_table : Nat) (ev : TraceEvent) (current_process : Option Nat)
    (which_syscall : Bool) (s : Sim) : Outcome :=
  if ev.type = "CPU" then .done (cpu_event ev s) current_process
  else if ev.type = "SYSCALL" then
    snapshot_then_tick (syscall_steps env ev which_syscall s) pcb_table current_process
  else if ev.type = "END_IO" then
    snapshot_then_tick (end_io_steps env ev s) pcb_table current_process
  else if ev.type = "FORK" then
    let s1 := if is_init then s else fork_steps env ev s
    match run_fork s1.pcbs current_process with
    | none => .halted s1 .fault
    | some (pcbs, child) => snapshot_then_tick (with_pcbs s1 pcbs) pcb_table (some child)
  else if ev.type = "EXEC" then
    let s1 := if is_init then s else exec_entry_steps env ev s
    exec ev.program_name ev.duration current_process s1
  else .done s current_process

/-- The loop of `process_trace` (line 393) over the events, carrying the local
variables `current_process` and `which_syscall`. -/
def trace_loop (exec : String → Nat → Option Nat → Sim → Outcome) (env : Env)
    (is_init : Bool) (pcb_table : Nat) :
    List TraceEvent → Option Nat → Bool → Sim → Outcome
  | [], current_process, _, s => .done s current_process
  | ev :: rest, current_process, which_syscall, s =>
    (process_event exec env is_init pcb_table ev current_process which_syscall s).and_then
      fun s1 cur1 =>
        trace_loop exec env is_init pcb_table rest cur1
          (if ev.type = "SYSCALL" then !which_syscall else which_syscall) s1

/-- The function `process_trace`, with `run_exec` passed as `exec`. The result
carries the final value of the local variable `current_process`. -/
def process_trace_with (exec : String → Nat → Option Nat → Sim → Outcome) (env : Env)
    (trace : List TraceEvent) (current_process : Option Nat) (s : Sim) : Outcome :=
  match current_process with
  | none => .halted s .fault
  | some cur =>
    match s.pcbs[cur]? with
    | none => .halted s .fault
    | some pcb =>
      let is_init : Bool := decide (pcb.pid = 11 - 1)
      match find_pcb_table s.pcbs cur with
      | none => .halted s .fault
      | some pcb_table => trace_loop exec env is_init pcb_table trace current_process false s

/-- The function `process_trace`; `fuel` bounds the depth of nested execs. -/
def process_trace : Nat → Env → List TraceEvent → Option Nat → Sim → Outcome
  | 0, _, _, _, s => .halted s .fuel
  | fuel + 1, env, trace, current_process, s =>
    process_trace_with (run_exec_with (process_trace fuel env) env) env trace current_process s

/-- The function `run_exec`; its nested `process_trace` runs with the same fuel. -/
def run_exec (fuel : Nat) (env : Env) (program_name : String) (duration : Nat)
    (current_process : Option Nat) (s : Sim) : Outcome :=
  run_exec_with (process_trace fuel env) env program_name duration current_process s

/-! ## `init_pcb` and `main` -/

/-- The record `init_pcb` writes into `pcb_head`. -/
def init_pcb : PCB :=
  { pid := 10, cpu_time := 0, io_time := 0, remaining_cpu_time := 0, partition_number := 6,
    program_name := "init", program_size := 1, parent := none, next := none }

/-- The partition table declared in `main` (line 570). -/
def initial_partitions : List MemoryPartition :=
  [⟨1, 40, "free"⟩, ⟨2, 25, "free"⟩, ⟨3, 15, "free"⟩, ⟨4, 10, "free"⟩, ⟨5, 8, "free"⟩,
   ⟨6, 2, "free"⟩]

/-- The state of `main` after its initialisation section (lines 569-585). -/
def initial_sim : Sim :=
  { current_time := 0, pcbs := [init_pcb], partitions := initial_partitions, file := [],
    status_file := [], stdout := [], rand_calls := 0, elapsed := 0 }

/-- The simulation section of `main` (lines 594-599): fork of the root,
snapshot, and the first exec with the trace file named on the command line. -/
def main (fuel : Nat) (env : Env) (trace_file : String) : Outcome :=
  match run_fork initial_sim.pcbs (some 0) with
  | none => .halted initial_sim .fault
  | some (pcbs, child) =>
    let s1 := with_pcbs initial_sim pcbs
    match save_system_status s1 s1.current_time 0 with
    | none => .halted s1 .fault
    | some s2 => run_exec fuel env trace_file 0 (some child) s2

/-! ## Sample inputs -/

/-- A sample environment: vector `v` holds address `4 * v`; the registry knows
"prog" (size 3) and "big" (size 50) and has no entry "ghost"; the files
"root.txt", "prog" and "wrap.txt" exist; the `k`-th `rand()` result is `7 * k + 3`. -/
def sample_env : Env :=
  { vector_table := fun v => 4 * v,
    external_files := [⟨"prog", 3⟩, ⟨"big", 50⟩],
    files := fun path =>
      if path = "root.txt" then
        some [⟨"FORK", 4, "", 2⟩, ⟨"EXEC", 7, "prog", 3⟩, ⟨"CPU", 5, "", -1⟩]
      else if path = "prog" then some [⟨"CPU", 2, "", -1⟩]
      else if path = "wrap.txt" then
        some [⟨"CPU", 65535, "", -1⟩, ⟨"CPU", 2, "", -1⟩, ⟨"CPU", 1, "", -1⟩]
      else none,
    rand := fun k => 7 * k + 3 }

/-- A sample state: the root, its child (pid 11, running "init" in partition 6)
and a grandchild (pid 12) that has not yet loaded a program; clock at 20. -/
def sample_sim : Sim :=
  { current_time := 20,
    pcbs := [{ init_pcb with next := some 1 },
             { init_pcb with pid := 11, parent := some 0, next := some 2 },
             { init_pcb with pid := 12, parent := some 1, next := none }],
    partitions := [⟨1, 40, "free"⟩, ⟨2, 25, "free"⟩, ⟨3, 15, "free"⟩, ⟨4, 10, "free"⟩,
      ⟨5, 8, "free"⟩, ⟨6, 2, "root.txt"⟩],
    file := [], status_file := [], stdout := [], rand_calls := 0, elapsed := 20 }

/-! ## Specification predicates -/

/-- A relation between an earlier and a later state that is reflexive,
transitive and respected by every elementary state change of the engine: a log
line, a clock increment by a non-negative amount, a message, a `rand()` call, a
snapshot, a fork, the marking of a free partition and the update of the
program fields of a PCB. -/
structure Stable (R : Sim → Sim → Prop) : Prop where
  refl : ∀ s, R s s
  trans : ∀ a b c, R a b → R b c → R a c
  log : ∀ s d step, R s (log s d step)
  advance : ∀ s d, 0 ≤ d → R s (advance s d)
  say : ∀ s m, R s (say s m)
  rand_next : ∀ s, R s (rand_next s)
  snapshot : ∀ s snap, R s (write_snapshot s snap)
  fork : ∀ (s : Sim) (cur : Option Nat) (pcbs : List PCB) (child : Nat),
    run_fork s.pcbs cur = some (pcbs, child) → R s (with_pcbs s pcbs)
  mark : ∀ (s : Sim) (cand : Nat) (cp : MemoryPartition) (name : String),
    s.partitions[cand]? = some cp → cp.code = "free" → R s (mark_occupied s cand cp name)
  update : ∀ (s : Sim) (cur : Nat) (pcb : PCB) (pn : Nat) (name : String) (sz : Nat),
    s.pcbs[cur]? = some pcb →
    R s (with_pcbs s (s.pcbs.set cur
      { pcb with partition_number := pn, program_name := name, program_size := sz }))

/-- The PCB store is a well-formed list in creation order: the `next` pointer
of the record at address `i` is `i + 1`, and `NULL` in the last record. This is
the shape `init_pcb` creates and `run_fork` maintains. -/
def linked (pcbs : List PCB) : Prop :=
  ∀ (i : Nat) (p : PCB), pcbs[i]? = some p →
    p.next = if i + 1 < pcbs.length then some (i + 1) else none

/-- A record without its list pointer `next`: the data of a roster entry. -/
def unlinked (p : PCB) : PCB := { p with next := none }

/-- The records reached from a pointer through `next`, in order, without their
`next` pointers; `none` when the walk leaves the store or exceeds `fuel` steps. -/
def roster_from (pcbs : List PCB) : Nat → Option Nat → Option (List PCB)
  | _, none => some []
  | 0, some _ => none
  | fuel + 1, some a =>
    match pcbs[a]? with
    | none => none
    | some p =>
      match roster_from pcbs fuel p.next with
      | none => none
      | some rest => some (unlinked p :: rest)

/-- The roster: the records reached from `pcb_head` (address 0) through `next`. -/
def roster (pcbs : List PCB) : Option (List PCB) := roster_from pcbs pcbs.length (some 0)

/-- The partition table `qs` keeps the table `ps`: same entries in number and
size, and every entry occupied in `ps` holds the same occupant in `qs`. -/
def partitions_kept (ps qs : List MemoryPartition) : Prop :=
  qs.length = ps.length ∧
  ∀ (i : Nat) (p : MemoryPartition), ps[i]? = some p →
    ∃ q : MemoryPartition, qs[i]? = some q ∧ q.partition_number = p.partition_number ∧
      q.size = p.size ∧ (p.code ≠ "free" → q.code = p.code)

/-- The PCB store `qs` keeps the store `ps`: every address of `ps` is an address
of `qs` and holds a record with the same `pid`, `parent` and accounting fields. -/
def pcbs_kept (ps qs : List PCB) : Prop :=
  ∀ (i : Nat) (p : PCB), ps[i]? = some p →
    ∃ q : PCB, qs[i]? = some q ∧ q.pid = p.pid ∧ q.parent = p.parent ∧
      q.cpu_time = p.cpu_time ∧ q.io_time = p.io_time ∧
      q.remaining_cpu_time = p.remaining_cpu_time

/-- The clock has not wrapped: the ghost counter is non-negative, the clock is
the counter modulo `2^16`, and as long as the counter is below `2^16` the
timestamps of the execution log are in non-decreasing order and none exceeds
the clock. -/
def clock_in_order (s : Sim) : Prop :=
  0 ≤ s.elapsed ∧ (s.current_time : Int) = s.elapsed % 65536 ∧
  (s.elapsed < 65536 →
    (s.file.map LogLine.time).Pairwise (fun a b => a ≤ b) ∧
    ∀ l ∈ s.file, l.time ≤ s.current_time)

/-- The PCB store is a well-formed process tree in creation order: it is
`linked`, the record at address 0 (the root, `pcb_head`) has no parent, and the
parent of every other record is stored at a smaller address. -/
def rooted (pcbs : List PCB) : Prop :=
  linked pcbs ∧
  (∃ r : PCB, pcbs[0]? = some r ∧ r.parent = none) ∧
  ∀ (i : Nat) (p : PCB), 0 < i → pcbs[i]? = some p → ∃ j : Nat, j < i ∧ p.parent = some j

/-- The fields of a record that identify a roster entry: `pid`, `parent` and
the accounting fields; the program fields, which `run_exec` rewrites in place,
and the list pointer `next` are left out. -/
def identity_fields (p : PCB) : Nat × Option Nat × Nat × Nat × Nat :=
  (p.pid, p.parent, p.cpu_time, p.io_time, p.remaining_cpu_time)

/-- The states reachable from `s0` by fork and exec operations: `run_fork` from
any current pointer, and `run_exec` with any environment, program, duration,
current pointer and depth, whether it returns or stops. -/
inductive reachable (s0 : Sim) : Sim → Prop where
  | start : reachable s0 s0
  | fork (s : Sim) (cur : Option Nat) (pcbs : List PCB) (child : Nat) :
      reachable s0 s → run_fork s.pcbs cur = some (pcbs, child) →
      reachable s0 (with_pcbs s pcbs)
  | exec (s : Sim) (fuel : Nat) (env : Env) (program_name : String) (duration : Nat)
      (cur : Option Nat) :
      reachable s0 s → reachable s0 (run_exec fuel env program_name duration cur s).sim

/-- The snapshot of a state as the specification describes it: the clock
value, then one row for each record after the root, in creation order. -/
def snapshot_of (u : Sim) : Snapshot :=
  ⟨u.current_time, (u.pcbs.drop 1).map status_row⟩

/-- Line 152 of `run_exec`: `*current_process = (*current_process)->parent`,
read in the state the nested trace left. -/
def exec_return (cur : Nat) (s : Sim) (_current_process : Option Nat) : Outcome :=
  match s.pcbs[cur]? with
  | none => .halted s .fault
  | some p => .done s p.parent

/-- Lines 142-153 of `run_exec`, entered in state `s`: the trace of the program
is loaded, processed by `nested` under the current record, and control returns
to the parent. This is the tail of `run_exec_load`. -/
def load_and_run (nested : List TraceEvent → Option Nat → Sim → Outcome) (env : Env)
    (program_name : String) (cur : Nat) (s : Sim) : Outcome :=
  match load_trace env program_name with
  | .error m => .halted (say s m) .exit
  | .ok trace_events => (nested trace_events (some cur) s).and_then (exec_return cur)

/-- The state in which `main` issues its call of `run_exec` (line 599): the
root and its child of pid 11, one snapshot taken, nothing logged, clock 0. -/
def main_exec_entry : Sim :=
  { initial_sim with
    pcbs := [{ init_pcb with next := some 1 }, { init_pcb with pid := 11, parent := some 0 }],
    status_file := [⟨0, [⟨11, "init", 6, 1⟩]⟩] }

/-- A second sample environment: the registry knows "prog" (size 3); the root
trace "first.txt" starts with an EXEC that no FORK precedes; the file "prog"
holds one CPU event; `rand()` always returns 5. -/
def exec_first_env : Env :=
  { vector_table := fun v => 4 * v,
    external_files := [⟨"prog", 3⟩],
    files := fun path =>
      if path = "first.txt" then some [⟨"EXEC", 7, "prog", 3⟩, ⟨"CPU", 5, "", -1⟩]
      else if path = "prog" then some [⟨"CPU", 2, "", -1⟩]
      else none,
    rand := fun _ => 5 }

/-- The `i`-th record (counted from 0) that consecutive forks append when they
start from the record `cp` stored at address `c` in a store of `len` records:
a copy of `cp` with pid `pid + i + 1` modulo `2^16`, whose parent is `c` for
the first and the record appended just before for the others. -/
def fork_child (cp : PCB) (c len i : Nat) : PCB :=
  { cp with pid := (cp.pid + i + 1) % 65536,
            parent := some (if i = 0 then c else len + i - 1),
            next := none }

/-- The number of partitions of a table whose occupant is "free". -/
def free_count (ps : List MemoryPartition) : Nat :=
  ps.countP (fun p => decide (p.code = "free"))

/-- One call of `run_exec` made during a run: the program requested, the pid of
the record that is current at the call (`none` when the pointer cannot be
dereferenced), whether the call passed the lookup and the allocation, that is,
reached the marking step of line 123, and whether it went on to enter the
nested `process_trace` of line 149. -/
structure ExecCall where
  program_name : String
  pid : Option Nat
  passed : Bool
  entered : Bool
deriving DecidableEq, Repr

/-- A stand-in for the nested call of `process_trace`: the run stops where the
nested trace would start. The engine itself never stops with `Halt.fuel`, so a
run of `run_exec_with stop_at_entry` ends that way exactly when it reaches
line 149. -/
def stop_at_entry : List TraceEvent → Option Nat → Sim → Outcome :=
  fun _ _ s => .halted s .fuel

/-- The trace and the state with which a call of `run_exec` enters the nested
`process_trace`; `none` when the call returns or stops before line 149. -/
def nested_entry (env : Env) (program_name : String) (duration : Nat)
    (current_process : Option Nat) (s : Sim) : Option (List TraceEvent × Sim) :=
  match run_exec_with stop_at_entry env program_name duration current_process s,
      load_trace env program_name with
  | .halted s4 .fuel, .ok trace_events => some (trace_events, s4)
  | _, _ => none

/-- The tests of lines 52-96 of `run_exec`: the current record is the one of
pid 11 or the registry knows the program, and the best-fit search finds a
partition. -/
def exec_passes (env : Env) (program_name : String) (current_process : Option Nat)
    (s : Sim) : Bool :=
  match current_process with
  | none => false
  | some cur =>
    match s.pcbs[cur]? with
    | none => false
    | some pcb =>
      decide ((pcb.pid = 11 ∨ find_program_size env.external_files program_name ≠ -1) ∧
        find_partition s.partitions
          (if pcb.pid = 11 then 1 else find_program_size env.external_files program_name)
            ≠ none)

/-- The pid of the record a pointer designates. -/
def current_pid (s : Sim) (current_process : Option Nat) : Option Nat :=
  match current_process with
  | none => none
  | some cur => (s.pcbs[cur]?).map PCB.pid

/-- The calls of `run_exec` that the call with the given arguments gives rise
to, in the order in which they are made: the call itself, then the calls made
by the nested trace, listed by `deeper`. -/
def exec_calls_at (deeper : List TraceEvent → Option Nat → Sim → List ExecCall) (env : Env)
    (program_name : String) (duration : Nat) (current_process : Option Nat) (s : Sim) :
    List ExecCall :=
  { program_name := program_name, pid := current_pid s current_process,
    passed := exec_passes env program_name current_process s,
    entered := (nested_entry env program_name duration current_process s).isSome } ::
  match nested_entry env program_name duration current_process s with
  | some (trace_events, s4) => deeper trace_events current_process s4
  | none => []

/-- The calls of `run_exec` made by the loop of `process_trace` over the events
given: for an EXEC event the calls listed by `calls` for the call of that event
(made in the state the entry lines of the EXEC branch leave), then the calls of
the events that follow, as long as the events return. -/
def loop_exec_calls (exec : String → Nat → Option Nat → Sim → Outcome)
    (calls : String → Nat → Option Nat → Sim → List ExecCall) (env : Env)
    (is_init : Bool) (pcb_table : Nat) :
    List TraceEvent → Option Nat → Bool → Sim → List ExecCall
  | [], _, _, _ => []
  | ev :: rest, current_process, which_syscall, s =>
    (if ev.type = "EXEC" then
      calls ev.program_name ev.duration current_process
        (if is_init then s else exec_entry_steps env ev s)
     else []) ++
    match process_event exec env is_init pcb_table ev current_process which_syscall s with
    | .done s1 cur1 =>
      loop_exec_calls exec calls env is_init pcb_table rest cur1
        (if ev.type = "SYSCALL" then !which_syscall else which_syscall) s1
    | .halted _ _ => []

/-- All calls of `run_exec` made, at any depth, while `process_trace` runs with
the given arguments, in the order in which they are made. -/
def trace_exec_calls : Nat → Env → List TraceEvent → Option Nat → Sim → List ExecCall
  | 0, _, _, _, _ => []
  | fuel + 1, env, trace, current_process, s =>
    match current_process with
    | none => []
    | some cur =>
      match s.pcbs[cur]? with
      | none => []
      | some pcb =>
        match find_pcb_table s.pcbs cur with
        | none => []
        | some pcb_table =>
          loop_exec_calls (run_exec fuel env) (exec_calls_at (trace_exec_calls fuel env) env)
            env (decide (pcb.pid = 11 - 1)) pcb_table trace current_process false s

/-- All calls of `run_exec` made during the run of `main`, the first being the
one `main` issues itself. -/
def main_exec_calls (fuel : Nat) (env : Env) (trace_file : String) : List ExecCall :=
  match run_fork initial_sim.pcbs (some 0) with
  | none => []
  | some (pcbs, child) =>
    let s1 := with_pcbs initial_sim pcbs
    match save_system_status s1 s1.current_time 0 with
    | none => []
    | some s2 => exec_calls_at (trace_exec_calls fuel env) env trace_file 0 (some child) s2

/-- A call that takes a free partition away: it passed the lookup and the
allocation with a program name other than "free". -/
def consumes (c : ExecCall) : Bool :=
  c.passed && decide (c.program_name ≠ "free")

/-- No EXEC event of the trace asks for a program named "free". -/
def no_free_exec (trace : List TraceEvent) : Prop :=
  ∀ ev ∈ trace, ev.type = "EXEC" → ev.program_name ≠ "free"

/-- A trace loader in which no exec'd program name equals "free": no trace
file holds an EXEC event for a program named "free". -/
def loader_without_free (env : Env) : Prop :=
  ∀ (path : String) (trace : List TraceEvent), env.files path = some trace → no_free_exec trace

/-- The log line `b` starts where the line `a` ends: its timestamp is the
timestamp of `a` plus the duration of `a`, modulo `2^16`. -/
def follows (a b : LogLine) : Prop :=
  b.time = toU16 ((a.time : Int) + a.duration)

/-- Every line of the execution log starts where the line before it ends. -/
def contiguous (file : List LogLine) : Prop :=
  List.Chain' follows file

/-- The log is contiguous and the clock stands where its last line ends. -/
def log_in_step (s : Sim) : Prop :=
  contiguous s.file ∧
  ∀ l ∈ s.file.getLast?, s.current_time = toU16 ((l.time : Int) + l.duration)

/-- The log is contiguous and its last line is a line of duration 1 stamped
with the current clock value, whose increment is still to come: the state
between an IRET line and the tick that follows the snapshot. -/
def iret_pending (s : Sim) : Prop :=
  contiguous s.file ∧
  ∃ l : LogLine, s.file.getLast? = some l ∧ l.time = s.current_time ∧ l.duration = 1

/-- The log of an outcome is in order: when the operation returned, or stopped
at the entry of a nested trace, the log is in step with the clock; when the run
stopped elsewhere, the log is contiguous. -/
def in_step : Outcome → Prop
  | .done t _ => log_in_step t
  | .halted t .fuel => log_in_step t
  | .halted t _ => contiguous t.file

/-- One call of `save_system_status` made during a run: the state in which it
is called and the head pointer `pcb_table` passed to it. The time passed is
always the clock of that state (lines 139, 432, 452, 479 and 597). -/
structure SnapshotCall where
  state : Sim
  pcb_table : Nat
deriving DecidableEq, Repr

/-- The call of `save_system_status` a call of `run_exec` makes itself (line
139), if it gets that far: none under the record of pid 11, none when the
lookup or the allocation fails; otherwise the call is made in the state that
the six log lines, the marking of the partition and the update of the current
PCB leave, with the head found by the parent walk of lines 131-135. -/
def exec_own_snapshot (env : Env) (program_name : String) (duration : Nat)
    (current_process : Option Nat) (s : Sim) : List SnapshotCall :=
  match current_process with
  | none => []
  | some cur =>
    match s.pcbs[cur]? with
    | none => []
    | some pcb =>
      if pcb.pid = 11 then []
      else
        let program_size := find_program_size env.external_files program_name
        if program_size = -1 then []
        else
          match find_partition s.partitions program_size with
          | none => []
          | some cand =>
            match s.partitions[cand]? with
            | none => []
            | some cp =>
              let s1 := exec_log_steps env program_name duration program_size cp s
              let s2 := mark_occupied s1 cand cp program_name
              let updated : PCB :=
                { pcb with partition_number := cp.partition_number,
                           program_name := program_name,
                           program_size := toU16 program_size }
              let s3 := with_pcbs s2 (s2.pcbs.set cur updated)
              match find_pcb_table s3.pcbs cur with
              | none => []
              | some pcb_table => [⟨s3, pcb_table⟩]

/-- The calls of `save_system_status` that a call of `run_exec` gives rise to,
in the order in which they are made: its own, then those of the nested trace,
listed by `deeper`. -/
def exec_snapshot_calls (deeper : List TraceEvent → Option Nat → Sim → List SnapshotCall)
    (env : Env) (program_name : String) (duration : Nat) (current_process : Option Nat)
    (s : Sim) : List SnapshotCall :=
  exec_own_snapshot env program_name duration current_process s ++
  match nested_entry env program_name duration current_process s with
  | some (trace_events, s4) => deeper trace_events current_process s4
  | none => []

/-- The calls of `save_system_status` made while one event is processed
(lines 394-497): none for CPU; one for SYSCALL and END_IO, after the IRET line;
one for FORK, after `run_fork`; for EXEC those of the call of `run_exec`,
listed by `calls`. -/
def event_snapshot_calls (calls : String → Nat → Option Nat → Sim → List SnapshotCall)
    (env : Env) (is_init : Bool) (pcb_table : Nat) (ev : TraceEvent)
    (current_process : Option Nat) (which_syscall : Bool) (s : Sim) : List SnapshotCall :=
  if ev.type = "CPU" then []
  else if ev.type = "SYSCALL" then [⟨syscall_steps env ev which_syscall s, pcb_table⟩]
  else if ev.type = "END_IO" then [⟨end_io_steps env ev s, pcb_table⟩]
  else if ev.type = "FORK" then
    let s1 := if is_init then s else fork_steps env ev s
    match run_fork s1.pcbs current_process with
    | none => []
    | some (pcbs, _) => [⟨with_pcbs s1 pcbs, pcb_table⟩]
  else if ev.type = "EXEC" then
    calls ev.program_name ev.duration current_process
      (if is_init then s else exec_entry_steps env ev s)
  else []

/-- The calls of `save_system_status` made by the loop of `process_trace` over
the events given, as long as the events return. -/
def loop_snapshot_calls (exec : String → Nat → Option Nat → Sim → Outcome)
    (calls : String → Nat → Option Nat → Sim → List SnapshotCall) (env : Env)
    (is_init : Bool) (pcb_table : Nat) :
    List TraceEvent → Option Nat → Bool → Sim → List SnapshotCall
  | [], _, _, _ => []
  | ev :: rest, current_process, which_syscall, s =>
    event_snapshot_calls calls env is_init pcb_table ev current_process which_syscall s ++
    match process_event exec env is_init pcb_table ev current_process which_syscall s with
    | .done s1 cur1 =>
      loop_snapshot_calls exec calls env is_init pcb_table rest cur1
        (if ev.type = "SYSCALL" then !which_syscall else which_syscall) s1
    | .halted _ _ => []

/-- All calls of `save_system_status` made, at any depth, while `process_trace`
runs with the given arguments, in the order in which they are made. -/
def trace_snapshot_calls : Nat → Env → List TraceEvent → Option Nat → Sim → List SnapshotCall
  | 0, _, _, _, _ => []
  | fuel + 1, env, trace, current_process, s =>
    match current_process with
    | none => []
    | some cur =>
      match s.pcbs[cur]? with
      | none => []
      | some pcb =>
        match find_pcb_table s.pcbs cur with
        | none => []
        | some pcb_table =>
          loop_snapshot_calls (run_exec fuel env)
            (exec_snapshot_calls (trace_snapshot_calls fuel env) env)
            env (decide (pcb.pid = 11 - 1)) pcb_table trace current_process false s

/-- All calls of `save_system_status` made during the run of `main`: the one of
line 597, with the head `pcb_head`, then those of the call of `run_exec`. -/
def main_snapshot_calls (fuel : Nat) (env : Env) (trace_file : String) : List SnapshotCall :=
  match run_fork initial_sim.pcbs (some 0) with
  | none => []
  | some (pcbs, child) =>
    let s1 := with_pcbs initial_sim pcbs
    ⟨s1, 0⟩ ::
    match save_system_status s1 s1.current_time 0 with
    | none => []
    | some s2 =>
      exec_snapshot_calls (trace_snapshot_calls fuel env) env trace_file 0 (some child) s2

/-- The status file of `t` is that of `s` followed by the snapshots of the
calls listed, each call being made with the root as head (address 0), in a
state that holds a well-formed tree, whose status file is exactly what was
written before that call and whose execution log is an initial part of the log
of `t`; the log of `s` is an initial part of the log of `t` as well. -/
def snapshots_from (s : Sim) (calls : List SnapshotCall) (t : Sim) : Prop :=
  s.file <+: t.file ∧
  t.status_file = s.status_file ++ calls.map (fun c => snapshot_of c.state) ∧
  ∀ (k : Nat) (c : SnapshotCall), calls[k]? = some c →
    c.pcb_table = 0 ∧ rooted c.state.pcbs ∧
    c.state.status_file = s.status_file ++ (calls.take k).map (fun c => snapshot_of c.state) ∧
    c.state.file <+: t.file

/-! ## Theorems -/

/-- After scanning the indices below `n`, the candidate is the first index of
least size among the free partitions below `n` that are large enough. -/
theorem best_fit_scan_spec (mp : List MemoryPartition) (sz : Int) (n : Nat) :
    ((List.range n).foldl (best_fit_step mp sz) none = none ∧
        ∀ (j : Nat) (q : MemoryPartition), j < n → mp[j]? = some q →
          ¬ (q.code = "free" ∧ sz ≤ (q.size : Int))) ∨
    (∃ (i : Nat) (p : MemoryPartition),
        (List.range n).foldl (best_fit_step mp sz) none = some i ∧ i < n ∧
        mp[i]? = some p ∧ p.code = "free" ∧ sz ≤ (p.size : Int) ∧
        ∀ (j : Nat) (q : MemoryPartition), j < n → mp[j]? = some q → q.code = "free" →
          sz ≤ (q.size : Int) → p.size ≤ q.size ∧ (q.size = p.size → i ≤ j)) := by
  induction n with
  | zero => left; simp
  | succ n ih =>
    rw [List.range_succ, List.foldl_append]
    simp only [List.foldl_cons, List.foldl_nil]
    rcases ih with ⟨hnone, hall⟩ | ⟨i, p, hsome, hi, hp, hfree, hfit, hmin⟩
    · rw [hnone]
      cases hn : mp[n]? with
      | none =>
        left
        refine ⟨by simp [best_fit_step, hn], ?_⟩
        intro j q hj hq
        rcases Nat.lt_succ_iff_lt_or_eq.mp hj with h | h
        · exact hall j q h hq
        · subst h; rw [hn] at hq; cases hq
      | some pn =>
        by_cases hc : pn.code = "free" ∧ sz ≤ (pn.size : Int)
        · right
          refine ⟨n, pn, by simp [best_fit_step, hn, hc], Nat.lt_succ_self n, hn, hc.1, hc.2, ?_⟩
          intro j q hj hq hqf hqs
          rcases Nat.lt_succ_iff_lt_or_eq.mp hj with h | h
          · exact absurd ⟨hqf, hqs⟩ (hall j q h hq)
          · subst h; rw [hn] at hq; cases hq; exact ⟨le_refl _, fun _ => le_refl _⟩
        · left
          refine ⟨by simp [best_fit_step, hn, hc], ?_⟩
          intro j q hj hq
          rcases Nat.lt_succ_iff_lt_or_eq.mp hj with h | h
          · exact hall j q h hq
          · subst h; rw [hn] at hq; cases hq; exact hc
    · rw [hsome]
      right
      cases hn : mp[n]? with
      | none =>
        refine ⟨i, p, by simp [best_fit_step, hn], Nat.lt_succ_of_lt hi, hp, hfree, hfit, ?_⟩
        intro j q hj hq hqf hqs
        rcases Nat.lt_succ_iff_lt_or_eq.mp hj with h | h
        · exact hmin j q h hq hqf hqs
        · subst h; rw [hn] at hq; cases hq
      | some pn =>
        by_cases hc : pn.code = "free" ∧ sz ≤ (pn.size : Int)
        · by_cases hlt : pn.size < p.size
          · refine ⟨n, pn, by simp [best_fit_step, hn, hc, hp, hlt], Nat.lt_succ_self n, hn,
              hc.1, hc.2, ?_⟩
            intro j q hj hq hqf hqs
            rcases Nat.lt_succ_iff_lt_or_eq.mp hj with h | h
            · have := hmin j q h hq hqf hqs
              exact ⟨by omega, fun he => by omega⟩
            · subst h; rw [hn] at hq; cases hq; exact ⟨le_refl _, fun _ => le_refl _⟩
          · refine ⟨i, p, by simp [best_fit_step, hn, hc, hp, hlt], Nat.lt_succ_of_lt hi, hp,
              hfree, hfit, ?_⟩
            intro j q hj hq hqf hqs
            rcases Nat.lt_succ_iff_lt_or_eq.mp hj with h | h
            · exact hmin j q h hq hqf hqs
            · subst h; rw [hn] at hq; cases hq; exact ⟨by omega, fun _ => by omega⟩
        · refine ⟨i, p, by simp [best_fit_step, hn, hc], Nat.lt_succ_of_lt hi, hp, hfree, hfit, ?_⟩
          intro j q hj hq hqf hqs
          rcases Nat.lt_succ_iff_lt_or_eq.mp hj with h | h
          · exact hmin j q h hq hqf hqs
          · subst h; rw [hn] at hq; cases hq; exact absurd ⟨hqf, hqs⟩ hc

/-- A partition found by the best-fit loop is an entry of the table that is free
and large enough. -/
theorem find_partition_some (mp : List MemoryPartition) (sz : Int) (i : Nat)
    (h : find_partition mp sz = some i) :
    ∃ p, mp[i]? = some p ∧ p.code = "free" ∧ sz ≤ (p.size : Int) := by
  unfold find_partition at h
  rcases best_fit_scan_spec mp sz MAX_PARTITIONS with ⟨hnone, _⟩ | ⟨j, p, hsome, _, hp, hf, hs, _⟩
  · rw [hnone] at h; cases h
  · rw [hsome] at h; cases h; exact ⟨p, hp, hf, hs⟩

/-- C1. Best-fit selection: in a table of `MAX_PARTITIONS` entries with at least one
free partition of capacity `≥ n`, the loop of `run_exec` selects a free partition of
capacity `≥ n` whose capacity is least among all such partitions and which comes first
in table order among those of that capacity; when the entries are numbered `1, 2, ...`
in table order it is the one with the lowest partition number. -/
theorem best_fit_selection (mp : List MemoryPartition) (n : Int)
    (hlen : mp.length = MAX_PARTITIONS)
    (hex : ∃ q ∈ mp, q.code = "free" ∧ n ≤ (q.size : Int)) :
    ∃ (i : Nat) (p : MemoryPartition),
      find_partition mp n = some i ∧ mp[i]? = some p ∧ p.code = "free" ∧
      n ≤ (p.size : Int) ∧
      (∀ (j : Nat) (q : MemoryPartition), mp[j]? = some q → q.code = "free" →
        n ≤ (q.size : Int) → p.size ≤ q.size ∧ (q.size = p.size → i ≤ j)) ∧
      ((∀ (k : Nat) (r : MemoryPartition), mp[k]? = some r → r.partition_number = k + 1) →
        ∀ (j : Nat) (q : MemoryPartition), mp[j]? = some q → q.code = "free" →
          n ≤ (q.size : Int) → q.size = p.size →
          p.partition_number ≤ q.partition_number) := by
  have hbound : ∀ (j : Nat) (q : MemoryPartition), mp[j]? = some q → j < MAX_PARTITIONS := by
    intro j q hq
    have := (List.getElem?_eq_some_iff.mp hq).1
    omega
  unfold find_partition
  rcases best_fit_scan_spec mp n MAX_PARTITIONS with
    ⟨_, hall⟩ | ⟨i, p, hsome, _, hp, hf, hs, hmin⟩
  · obtain ⟨q, hq, hqf, hqs⟩ := hex
    obtain ⟨j, hj⟩ := List.getElem?_of_mem hq
    exact absurd ⟨hqf, hqs⟩ (hall j q (hbound j q hj) hj)
  · refine ⟨i, p, hsome, hp, hf, hs, ?_, ?_⟩
    · intro j q hq hqf hqs
      exact hmin j q (hbound j q hq) hq hqf hqs
    · intro hnum j q hq hqf hqs hsz
      have h1 := (hmin j q (hbound j q hq) hq hqf hqs).2 hsz
      have h2 := hnum i p hp
      have h3 := hnum j q hq
      omega

/-- The table of `main`, all free, and a request of 9: the partition of capacity 10 at
index 3 (number 4) is selected. -/
theorem best_fit_selection_witness :
    find_partition initial_partitions 9 = some 3 ∧
    ∃ (i : Nat) (p : MemoryPartition),
      find_partition initial_partitions 9 = some i ∧ initial_partitions[i]? = some p ∧
      p.code = "free" ∧ (9 : Int) ≤ (p.size : Int) ∧
      (∀ (j : Nat) (q : MemoryPartition), initial_partitions[j]? = some q → q.code = "free" →
        (9 : Int) ≤ (q.size : Int) → p.size ≤ q.size ∧ (q.size = p.size → i ≤ j)) ∧
      ((∀ (k : Nat) (r : MemoryPartition),
          initial_partitions[k]? = some r → r.partition_number = k + 1) →
        ∀ (j : Nat) (q : MemoryPartition), initial_partitions[j]? = some q → q.code = "free" →
          (9 : Int) ≤ (q.size : Int) → q.size = p.size →
          p.partition_number ≤ q.partition_number) :=
  ⟨by decide, best_fit_selection initial_partitions 9 (by decide)
    ⟨⟨4, 10, "free"⟩, by simp [initial_partitions], by decide, by decide⟩⟩

/-- The C remainder of a non-negative value by a positive modulus lies in `[0, y)`. -/
theorem c_mod_bounds (x y : Int) (hx : 0 ≤ x) (hy : 0 < y) :
    0 ≤ c_mod x y ∧ c_mod x y < y := by
  unfold c_mod
  exact ⟨Int.tmod_nonneg y hx, Int.tmod_lt_of_pos x hy⟩

/-- Storing a value of the `uint16_t` range in a `uint16_t` keeps it. -/
theorem toU16_of_range (x : Int) (h0 : 0 ≤ x) (h1 : x < 65536) : ((toU16 x : Nat) : Int) = x := by
  unfold toU16
  omega

/-- The parts of the four-way split are non-negative and add up to the duration. -/
theorem exec_split_sum (d : Nat) (r1 r2 r3 : Int) (hd : d ≤ 65535)
    (h1 : 0 ≤ r1) (h2 : 0 ≤ r2) (h3 : 0 ≤ r3) :
    0 ≤ (exec_split d r1 r2 r3).1 ∧ 0 ≤ (exec_split d r1 r2 r3).2.1 ∧
    0 ≤ (exec_split d r1 r2 r3).2.2.1 ∧ 0 ≤ (exec_split d r1 r2 r3).2.2.2 ∧
    (exec_split d r1 r2 r3).1 + (exec_split d r1 r2 r3).2.1 + (exec_split d r1 r2 r3).2.2.1
      + (exec_split d r1 r2 r3).2.2.2 = d ∧
    1 ≤ (d : Int) + 1 ∧ 1 ≤ (d : Int) - (exec_split d r1 r2 r3).1 + 1 ∧
    1 ≤ (d : Int) - (exec_split d r1 r2 r3).1 - (exec_split d r1 r2 r3).2.1 + 1 := by
  simp only [exec_split]
  have ha := c_mod_bounds r1 ((d : Int) + 1) h1 (by omega)
  have ea := toU16_of_range _ ha.1 (by omega)
  rw [ea]
  have hb := c_mod_bounds r2 ((d : Int) - c_mod r1 (d + 1) + 1) h2 (by omega)
  have eb := toU16_of_range _ hb.1 (by omega)
  rw [eb]
  have hc := c_mod_bounds r3
    ((d : Int) - c_mod r1 (d + 1) - c_mod r2 ((d : Int) - c_mod r1 (d + 1) + 1) + 1) h3 (by omega)
  have ec := toU16_of_range _ hc.1 (by omega)
  rw [ec]
  have ed := toU16_of_range ((d : Int) - c_mod r1 (d + 1)
    - c_mod r2 ((d : Int) - c_mod r1 (d + 1) + 1)
    - c_mod r3 ((d : Int) - c_mod r1 (d + 1) - c_mod r2 ((d : Int) - c_mod r1 (d + 1) + 1) + 1))
    (by omega) (by omega)
  rw [ed]
  omega

/-- The parts of the three-way split are non-negative and add up to the duration. -/
theorem syscall_split_sum (d : Nat) (r1 r2 : Int) (h1 : 0 ≤ r1) (h2 : 0 ≤ r2) :
    0 ≤ (syscall_split d r1 r2).1 ∧ 0 ≤ (syscall_split d r1 r2).2.1 ∧
    0 ≤ (syscall_split d r1 r2).2.2 ∧
    (syscall_split d r1 r2).1 + (syscall_split d r1 r2).2.1 + (syscall_split d r1 r2).2.2 = d ∧
    1 ≤ (d : Int) + 1 ∧ 1 ≤ (d : Int) - (syscall_split d r1 r2).1 + 1 := by
  simp only [syscall_split]
  have ha := c_mod_bounds r1 ((d : Int) + 1) h1 (by omega)
  have hb := c_mod_bounds r2 ((d : Int) - c_mod r1 (d + 1) + 1) h2 (by omega)
  omega

/-- The parts of the two-way split are non-negative and add up to the duration. -/
theorem fork_split_sum (d : Nat) (r1 : Int) (h1 : 0 ≤ r1) :
    0 ≤ (fork_split d r1).1 ∧ 0 ≤ (fork_split d r1).2 ∧
    (fork_split d r1).1 + (fork_split d r1).2 = d ∧ 1 ≤ (d : Int) + 1 := by
  simp only [fork_split]
  have ha := c_mod_bounds r1 ((d : Int) + 1) h1 (by omega)
  omega

/-- C2. Duration conservation: for a duration `d` in `0..65535` and non-negative
`rand()` results, the four parts of the EXEC split, the three parts of the SYSCALL
split and the two parts of the FORK split are non-negative and sum to `d`, and every
modulus used is at least 1. -/
theorem duration_conservation (d : Nat) (r1 r2 r3 : Int) (hd : d ≤ 65535)
    (h1 : 0 ≤ r1) (h2 : 0 ≤ r2) (h3 : 0 ≤ r3) :
    (0 ≤ (exec_split d r1 r2 r3).1 ∧ 0 ≤ (exec_split d r1 r2 r3).2.1 ∧
      0 ≤ (exec_split d r1 r2 r3).2.2.1 ∧ 0 ≤ (exec_split d r1 r2 r3).2.2.2 ∧
      (exec_split d r1 r2 r3).1 + (exec_split d r1 r2 r3).2.1 + (exec_split d r1 r2 r3).2.2.1
        + (exec_split d r1 r2 r3).2.2.2 = d ∧
      1 ≤ (d : Int) + 1 ∧ 1 ≤ (d : Int) - (exec_split d r1 r2 r3).1 + 1 ∧
      1 ≤ (d : Int) - (exec_split d r1 r2 r3).1 - (exec_split d r1 r2 r3).2.1 + 1) ∧
    (0 ≤ (syscall_split d r1 r2).1 ∧ 0 ≤ (syscall_split d r1 r2).2.1 ∧
      0 ≤ (syscall_split d r1 r2).2.2 ∧
      (syscall_split d r1 r2).1 + (syscall_split d r1 r2).2.1 + (syscall_split d r1 r2).2.2 = d ∧
      1 ≤ (d : Int) + 1 ∧ 1 ≤ (d : Int) - (syscall_split d r1 r2).1 + 1) ∧
    (0 ≤ (fork_split d r1).1 ∧ 0 ≤ (fork_split d r1).2 ∧
      (fork_split d r1).1 + (fork_split d r1).2 = d ∧ 1 ≤ (d : Int) + 1) :=
  ⟨exec_split_sum d r1 r2 r3 hd h1 h2 h3, syscall_split_sum d r1 r2 h1 h2, fork_split_sum d r1 h1⟩

/-- The splits of a duration of 10 with `rand()` results 7, 25 and 4. -/
theorem duration_conservation_witness :
    exec_split 10 7 25 4 = (7, 1, 1, 1) ∧ syscall_split 10 7 25 = (7, 1, 2) ∧
    fork_split 10 7 = (7, 3) ∧
    (0 ≤ (exec_split (10 : Nat) 7 25 4).1 ∧ 0 ≤ (exec_split (10 : Nat) 7 25 4).2.1 ∧
      0 ≤ (exec_split (10 : Nat) 7 25 4).2.2.1 ∧ 0 ≤ (exec_split (10 : Nat) 7 25 4).2.2.2 ∧
      (exec_split (10 : Nat) 7 25 4).1 + (exec_split (10 : Nat) 7 25 4).2.1
        + (exec_split (10 : Nat) 7 25 4).2.2.1 + (exec_split (10 : Nat) 7 25 4).2.2.2
        = ((10 : Nat) : Int) ∧
      1 ≤ ((10 : Nat) : Int) + 1 ∧ 1 ≤ ((10 : Nat) : Int) - (exec_split (10 : Nat) 7 25 4).1 + 1 ∧
      1 ≤ ((10 : Nat) : Int) - (exec_split (10 : Nat) 7 25 4).1
        - (exec_split (10 : Nat) 7 25 4).2.1 + 1) ∧
    (0 ≤ (syscall_split (10 : Nat) 7 25).1 ∧ 0 ≤ (syscall_split (10 : Nat) 7 25).2.1 ∧
      0 ≤ (syscall_split (10 : Nat) 7 25).2.2 ∧
      (syscall_split (10 : Nat) 7 25).1 + (syscall_split (10 : Nat) 7 25).2.1
        + (syscall_split (10 : Nat) 7 25).2.2 = ((10 : Nat) : Int) ∧
      1 ≤ ((10 : Nat) : Int) + 1 ∧ 1 ≤ ((10 : Nat) : Int) - (syscall_split (10 : Nat) 7 25).1 + 1) ∧
    (0 ≤ (fork_split (10 : Nat) 7).1 ∧ 0 ≤ (fork_split (10 : Nat) 7).2 ∧
      (fork_split (10 : Nat) 7).1 + (fork_split (10 : Nat) 7).2 = ((10 : Nat) : Int) ∧
      1 ≤ ((10 : Nat) : Int) + 1) :=
  ⟨by decide, by decide, by decide,
    duration_conservation 10 7 25 4 (by decide) (by decide) (by decide) (by decide)⟩

/-! ### Every operation respects a stable relation -/

/-- The values of `rand()` are non-negative. -/
theorem rand_value_nonneg (env : Env) (s : Sim) : 0 ≤ rand_value env s := by
  unfold rand_value
  exact Int.ofNat_nonneg _

/-- The random context-switch time `rand() % 3 + 1` is non-negative. -/
theorem context_time_nonneg (env : Env) (s : Sim) : 0 ≤ c_mod (rand_value env s) 3 + 1 := by
  have := c_mod_bounds (rand_value env s) 3 (rand_value_nonneg env s) (by decide)
  omega

/-- The four parts of the EXEC split are `uint16_t` values, hence non-negative. -/
theorem exec_split_nonneg (d r1 r2 r3 : Int) :
    0 ≤ (exec_split d r1 r2 r3).1 ∧ 0 ≤ (exec_split d r1 r2 r3).2.1 ∧
    0 ≤ (exec_split d r1 r2 r3).2.2.1 ∧ 0 ≤ (exec_split d r1 r2 r3).2.2.2 := by
  simp only [exec_split]
  exact ⟨Int.ofNat_nonneg _, Int.ofNat_nonneg _, Int.ofNat_nonneg _, Int.ofNat_nonneg _⟩

/-- A stable relation extends over a log line. -/
theorem stable_then_log {R : Sim → Sim → Prop} (hR : Stable R) {s t : Sim} (d : Int)
    (step : Step) (h : R s t) : R s (log t d step) :=
  hR.trans _ _ _ h (hR.log t d step)

/-- A stable relation extends over a log line and its clock increment. -/
theorem stable_then_emit {R : Sim → Sim → Prop} (hR : Stable R) {s t : Sim} (d : Int)
    (step : Step) (hd : 0 ≤ d) (h : R s t) : R s (emit t d step) :=
  hR.trans _ _ _ (stable_then_log hR d step h) (hR.advance _ d hd)

/-- A stable relation extends over a call of `rand()`. -/
theorem stable_then_rand {R : Sim → Sim → Prop} (hR : Stable R) {s t : Sim}
    (h : R s t) : R s (rand_next t) :=
  hR.trans _ _ _ h (hR.rand_next t)

/-- The logging part of `run_exec` respects every stable relation. -/
theorem exec_log_steps_stable {R : Sim → Sim → Prop} (hR : Stable R) (env : Env)
    (program_name : String) (duration : Nat) (program_size : Int) (cp : MemoryPartition)
    (s : Sim) : R s (exec_log_steps env program_name duration program_size cp s) := by
  have one : (0 : Int) ≤ 1 := by decide
  simp only [exec_log_steps]
  have h := exec_split_nonneg (duration : Int) (rand_value env s)
    (rand_value env (rand_next s)) (rand_value env (rand_next (rand_next s)))
  refine stable_then_log hR _ _
    (stable_then_emit hR _ _ one
    (stable_then_emit hR _ _ h.2.2.2
    (stable_then_emit hR _ _ h.2.2.1
    (stable_then_emit hR _ _ h.2.1
    (stable_then_emit hR _ _ h.1
    (stable_then_rand hR
    (stable_then_rand hR
    (stable_then_rand hR
    (hR.refl s)))))))))

/-- The CPU branch respects every stable relation. -/
theorem cpu_event_stable {R : Sim → Sim → Prop} (hR : Stable R) (ev : TraceEvent) (s : Sim) :
    R s (cpu_event ev s) :=
  stable_then_emit hR _ _ (Int.ofNat_nonneg _) (hR.refl s)

/-- The SYSCALL steps respect every stable relation. -/
theorem syscall_steps_stable {R : Sim → Sim → Prop} (hR : Stable R) (env : Env)
    (ev : TraceEvent) (w : Bool) (s : Sim) : R s (syscall_steps env ev w s) := by
  have one : (0 : Int) ≤ 1 := by decide
  simp only [syscall_steps]
  have h := syscall_split_sum ev.duration (rand_value env s) (rand_value env (rand_next s))
    (rand_value_nonneg _ _) (rand_value_nonneg _ _)
  refine stable_then_log hR _ _
    (stable_then_emit hR _ _ h.2.2.1
    (stable_then_emit hR _ _ h.2.1
    (stable_then_emit hR _ _ h.1
    (stable_then_emit hR _ _ one
    (stable_then_emit hR _ _ one
    (stable_then_emit hR _ _ (context_time_nonneg _ _)
    (stable_then_rand hR
    (stable_then_emit hR _ _ one
    (stable_then_rand hR
    (stable_then_rand hR
    (hR.refl s)))))))))))

/-- The END_IO steps respect every stable relation. -/
theorem end_io_steps_stable {R : Sim → Sim → Prop} (hR : Stable R) (env : Env)
    (ev : TraceEvent) (s : Sim) : R s (end_io_steps env ev s) := by
  have one : (0 : Int) ≤ 1 := by decide
  have three : (0 : Int) ≤ 3 := by decide
  simp only [end_io_steps]
  refine stable_then_log hR _ _
    (stable_then_emit hR _ _ (Int.ofNat_nonneg _)
    (stable_then_emit hR _ _ one
    (stable_then_emit hR _ _ one
    (stable_then_emit hR _ _ three
    (stable_then_emit hR _ _ one
    (stable_then_emit hR _ _ one
    (stable_then_emit hR _ _ one
    (hR.refl s))))))))

/-- The logging part of the FORK branch respects every stable relation. -/
theorem fork_steps_stable {R : Sim → Sim → Prop} (hR : Stable R) (env : Env)
    (ev : TraceEvent) (s : Sim) : R s (fork_steps env ev s) := by
  have one : (0 : Int) ≤ 1 := by decide
  have three : (0 : Int) ≤ 3 := by decide
  simp only [fork_steps]
  have h := fork_split_sum ev.duration (rand_value env s) (rand_value_nonneg _ _)
  refine stable_then_log hR _ _
    (stable_then_emit hR _ _ h.2.1
    (stable_then_emit hR _ _ h.1
    (stable_then_emit hR _ _ one
    (stable_then_emit hR _ _ one
    (stable_then_emit hR _ _ three
    (stable_then_emit hR _ _ one
    (stable_then_rand hR
    (hR.refl s))))))))

/-- The logging part of the EXEC branch respects every stable relation. -/
theorem exec_entry_steps_stable {R : Sim → Sim → Prop} (hR : Stable R) (env : Env)
    (ev : TraceEvent) (s : Sim) : R s (exec_entry_steps env ev s) := by
  have one : (0 : Int) ≤ 1 := by decide
  simp only [exec_entry_steps]
  refine stable_then_emit hR _ _ one
    (stable_then_emit hR _ _ one
    (stable_then_emit hR _ _ (context_time_nonneg _ _)
    (stable_then_rand hR
    (stable_then_emit hR _ _ one
    (hR.refl s)))))

/-- When `save_system_status` returns, it has appended one snapshot and changed nothing
else. -/
theorem save_system_status_eq (s s1 : Sim) (time tbl : Nat)
    (h : save_system_status s time tbl = some s1) :
    ∃ snap : Snapshot, s1 = write_snapshot s snap := by
  unfold save_system_status at h
  split at h
  · cases h
  · split at h
    · cases h
    · cases h; exact ⟨_, rfl⟩

/-- A snapshot followed by a tick respects every stable relation. -/
theorem snapshot_then_tick_stable {R : Sim → Sim → Prop} (hR : Stable R) (s : Sim)
    (tbl : Nat) (cur : Option Nat) : R s (snapshot_then_tick s tbl cur).sim := by
  unfold snapshot_then_tick
  cases h : save_system_status s s.current_time tbl with
  | none => exact hR.refl s
  | some s1 =>
    obtain ⟨snap, rfl⟩ := save_system_status_eq s s1 _ _ h
    exact hR.trans _ _ _ (hR.snapshot s snap) (hR.advance _ 1 (by decide))

/-- Sequencing respects every stable relation. -/
theorem and_then_stable {R : Sim → Sim → Prop} (hR : Stable R) (s : Sim) (o : Outcome)
    (k : Sim → Option Nat → Outcome) (h1 : R s o.sim)
    (h2 : ∀ s1 c, o = .done s1 c → R s1 (k s1 c).sim) : R s (o.and_then k).sim := by
  cases o with
  | done s1 c => exact hR.trans _ _ _ h1 (h2 s1 c rfl)
  | halted s1 why => exact h1

/-- The logging part of `run_exec` leaves partitions, PCBs, standard output and status
file alone. -/
theorem exec_log_steps_frame (env : Env) (program_name : String) (duration : Nat)
    (program_size : Int) (cp : MemoryPartition) (s : Sim) :
    (exec_log_steps env program_name duration program_size cp s).partitions = s.partitions ∧
    (exec_log_steps env program_name duration program_size cp s).pcbs = s.pcbs ∧
    (exec_log_steps env program_name duration program_size cp s).stdout = s.stdout ∧
    (exec_log_steps env program_name duration program_size cp s).status_file = s.status_file := by
  simp [exec_log_steps, emit, log, advance, rand_next]

/-- Lines 98-153 of `run_exec` respect every stable relation that the nested call
respects, when the candidate partition is free. -/
theorem run_exec_load_stable {R : Sim → Sim → Prop} (hR : Stable R)
    (nested : List TraceEvent → Option Nat → Sim → Outcome)
    (hn : ∀ tr c s, R s (nested tr c s).sim) (env : Env) (program_name : String)
    (duration : Nat) (cur : Nat) (pcb : PCB) (is_init : Bool) (program_size : Int)
    (cand : Nat) (s : Sim) (hpcb : s.pcbs[cur]? = some pcb)
    (hfree : ∀ cp, s.partitions[cand]? = some cp → cp.code = "free") :
    R s (run_exec_load nested env program_name duration cur pcb is_init program_size cand s).sim := by
  unfold run_exec_load
  cases hc : s.partitions[cand]? with
  | none => exact hR.refl s
  | some cp =>
    simp only []
    generalize (if is_init = true then "init" else program_name) = nm
    have h1 : R s (if is_init = true then s
        else exec_log_steps env program_name duration program_size cp s) := by
      split
      · exact hR.refl s
      · exact exec_log_steps_stable hR _ _ _ _ _ _
    have hf : (if is_init = true then s
        else exec_log_steps env program_name duration program_size cp s).partitions
        = s.partitions ∧ (if is_init = true then s
        else exec_log_steps env program_name duration program_size cp s).pcbs = s.pcbs := by
      split
      · exact ⟨rfl, rfl⟩
      · exact ⟨(exec_log_steps_frame _ _ _ _ _ _).1, (exec_log_steps_frame _ _ _ _ _ _).2.1⟩
    generalize (if is_init = true then s
        else exec_log_steps env program_name duration program_size cp s) = s1 at h1 hf ⊢
    have h2 := hR.mark s1 cand cp program_name (by rw [hf.1]; exact hc) (hfree cp hc)
    have h3 := hR.update (mark_occupied s1 cand cp program_name)
      cur pcb cp.partition_number nm
      (toU16 program_size) (by simp only [mark_occupied, hf.2]; exact hpcb)
    have h13 := hR.trans _ _ _ h1 (hR.trans _ _ _ h2 h3)
    split
    · exact h13
    · refine and_then_stable hR _ _ _ ?_ ?_
      · split
        · exact h13
        · exact hR.trans _ _ _ h13 (snapshot_then_tick_stable hR _ _ _)
      · intro s4 _ _
        split
        · exact hR.say _ _
        · refine and_then_stable hR _ _ _ (hn _ _ _) ?_
          intro s5 _ _
          split
          · exact hR.refl _
          · exact hR.refl _

/-- Lines 78-153 of `run_exec` respect every stable relation that the nested call
respects. -/
theorem run_exec_allocate_stable {R : Sim → Sim → Prop} (hR : Stable R)
    (nested : List TraceEvent → Option Nat → Sim → Outcome)
    (hn : ∀ tr c s, R s (nested tr c s).sim) (env : Env) (program_name : String)
    (duration : Nat) (cur : Nat) (pcb : PCB) (is_init : Bool) (program_size : Int)
    (s : Sim) (hpcb : s.pcbs[cur]? = some pcb) :
    R s (run_exec_allocate nested env program_name duration cur pcb is_init program_size s).sim := by
  unfold run_exec_allocate
  cases hc : find_partition s.partitions program_size with
  | none => exact hR.say _ _
  | some cand =>
    refine run_exec_load_stable hR nested hn _ _ _ _ _ _ _ _ _ hpcb ?_
    intro cp hcp
    obtain ⟨p, hp, hf, _⟩ := find_partition_some _ _ _ hc
    rw [hcp] at hp; cases hp; exact hf

/-- The body of `run_exec` respects every stable relation that the nested call respects. -/
theorem run_exec_with_stable {R : Sim → Sim → Prop} (hR : Stable R)
    (nested : List TraceEvent → Option Nat → Sim → Outcome)
    (hn : ∀ tr c s, R s (nested tr c s).sim) (env : Env) (program_name : String)
    (duration : Nat) (current_process : Option Nat) (s : Sim) :
    R s (run_exec_with nested env program_name duration current_process s).sim := by
  cases current_process with
  | none => exact hR.refl s
  | some cur =>
    cases hp : s.pcbs[cur]? with
    | none => simp only [run_exec_with, hp]; exact hR.refl s
    | some pcb =>
      simp only [run_exec_with, hp]
      split
      · exact run_exec_allocate_stable hR nested hn _ _ _ _ _ _ _ _ hp
      · split
        · exact hR.say _ _
        · exact run_exec_allocate_stable hR nested hn _ _ _ _ _ _ _ _ hp

/-- One loop iteration of `process_trace` respects every stable relation that `run_exec`
respects. -/
theorem process_event_stable {R : Sim → Sim → Prop} (hR : Stable R)
    (exec : String → Nat → Option Nat → Sim → Outcome)
    (he : ∀ n d c s, R s (exec n d c s).sim) (env : Env) (is_init : Bool) (tbl : Nat)
    (ev : TraceEvent) (cur : Option Nat) (w : Bool) (s : Sim) :
    R s (process_event exec env is_init tbl ev cur w s).sim := by
  unfold process_event
  split
  · exact cpu_event_stable hR ev s
  · split
    · exact hR.trans _ _ _ (syscall_steps_stable hR env ev w s) (snapshot_then_tick_stable hR _ _ _)
    · split
      · exact hR.trans _ _ _ (end_io_steps_stable hR env ev s) (snapshot_then_tick_stable hR _ _ _)
      · split
        · have h1 : R s (if is_init = true then s else fork_steps env ev s) := by
            split
            · exact hR.refl s
            · exact fork_steps_stable hR env ev s
          simp only []
          generalize (if is_init = true then s else fork_steps env ev s) = s1 at h1 ⊢
          cases hf : run_fork s1.pcbs cur with
          | none => exact h1
          | some r =>
            obtain ⟨pcbs, child⟩ := r
            exact hR.trans _ _ _ h1 (hR.trans _ _ _ (hR.fork s1 cur pcbs child hf)
              (snapshot_then_tick_stable hR _ _ _))
        · split
          · have h1 : R s (if is_init = true then s else exec_entry_steps env ev s) := by
              split
              · exact hR.refl s
              · exact exec_entry_steps_stable hR env ev s
            exact hR.trans _ _ _ h1 (he _ _ _ _)
          · exact hR.refl s

/-- The loop of `process_trace` respects every stable relation that `run_exec` respects. -/
theorem trace_loop_stable {R : Sim → Sim → Prop} (hR : Stable R)
    (exec : String → Nat → Option Nat → Sim → Outcome)
    (he : ∀ n d c s, R s (exec n d c s).sim) (env : Env) (is_init : Bool) (tbl : Nat)
    (trace : List TraceEvent) :
    ∀ (cur : Option Nat) (w : Bool) (s : Sim),
      R s (trace_loop exec env is_init tbl trace cur w s).sim := by
  induction trace with
  | nil => intro cur w s; exact hR.refl s
  | cons ev rest ih =>
    intro cur w s
    simp only [trace_loop]
    exact and_then_stable hR _ _ _ (process_event_stable hR exec he env is_init tbl ev cur w s)
      (fun s1 c _ => ih _ _ _)

/-- The body of `process_trace` respects every stable relation that `run_exec` respects. -/
theorem process_trace_with_stable {R : Sim → Sim → Prop} (hR : Stable R)
    (exec : String → Nat → Option Nat → Sim → Outcome)
    (he : ∀ n d c s, R s (exec n d c s).sim) (env : Env)
    (trace : List TraceEvent) (cur : Option Nat) (s : Sim) :
    R s (process_trace_with exec env trace cur s).sim := by
  unfold process_trace_with
  split
  · exact hR.refl s
  · split
    · exact hR.refl s
    · simp only []
      split
      · exact hR.refl s
      · exact trace_loop_stable hR exec he env _ _ trace _ _ s

/-- Every stable relation holds between the state at entry of `process_trace` and the
state it ends in. -/
theorem process_trace_stable {R : Sim → Sim → Prop} (hR : Stable R) (env : Env) (fuel : Nat) :
    ∀ (trace : List TraceEvent) (cur : Option Nat) (s : Sim),
      R s (process_trace fuel env trace cur s).sim := by
  induction fuel with
  | zero => intro trace cur s; exact hR.refl s
  | succ n ih =>
    intro trace cur s
    simp only [process_trace]
    exact process_trace_with_stable hR _
      (fun nm d c s1 => run_exec_with_stable hR _ ih env nm d c s1) env trace cur s

/-- Every stable relation holds between the state at entry of `run_exec` and the state
it ends in. -/
theorem run_exec_stable {R : Sim → Sim → Prop} (hR : Stable R) (env : Env) (fuel : Nat)
    (program_name : String) (duration : Nat) (cur : Option Nat) (s : Sim) :
    R s (run_exec fuel env program_name duration cur s).sim :=
  run_exec_with_stable hR _ (process_trace_stable hR env fuel) env program_name duration cur s

/-- Every table keeps itself. -/
theorem partitions_kept_refl (ps : List MemoryPartition) : partitions_kept ps ps :=
  ⟨rfl, fun _ p h => ⟨p, h, rfl, rfl, fun _ => rfl⟩⟩

/-- Keeping a partition table is transitive. -/
theorem partitions_kept_trans (a b c : List MemoryPartition) (h1 : partitions_kept a b)
    (h2 : partitions_kept b c) : partitions_kept a c := by
  refine ⟨h2.1.trans h1.1, ?_⟩
  intro i p hp
  obtain ⟨q, hq, hn, hs, hc⟩ := h1.2 i p hp
  obtain ⟨r, hr, hn2, hs2, hc2⟩ := h2.2 i q hq
  refine ⟨r, hr, hn2.trans hn, hs2.trans hs, ?_⟩
  intro hne
  have hqc := hc hne
  rw [hc2 (by rw [hqc]; exact hne), hqc]

/-- The relation "the partition table is kept" is respected by every state change. -/
theorem partitions_kept_stable :
    Stable (fun s t => partitions_kept s.partitions t.partitions) where
  refl := fun s => partitions_kept_refl _
  trans := fun a b c => partitions_kept_trans _ _ _
  log := fun s _ _ => partitions_kept_refl _
  advance := fun s _ _ => partitions_kept_refl _
  say := fun s _ => partitions_kept_refl _
  rand_next := fun s => partitions_kept_refl _
  snapshot := fun s _ => partitions_kept_refl _
  fork := fun s _ _ _ _ => partitions_kept_refl _
  update := fun s _ _ _ _ _ _ => partitions_kept_refl _
  mark := by
    intro s cand cp name hcp hfree
    refine ⟨by simp [mark_occupied], ?_⟩
    intro i p hp
    simp only [mark_occupied, List.getElem?_set]
    by_cases hi : cand = i
    · subst hi
      rw [hcp] at hp; cases hp
      have hlt := (List.getElem?_eq_some_iff.mp hcp).1
      simp only [hlt, if_true]
      exact ⟨_, rfl, rfl, rfl, fun hne => absurd hfree hne⟩
    · simp only [hi, if_false]
      exact ⟨p, hp, rfl, rfl, fun _ => rfl⟩

/-- Every PCB store keeps itself. -/
theorem pcbs_kept_refl (ps : List PCB) : pcbs_kept ps ps :=
  fun _ p h => ⟨p, h, rfl, rfl, rfl, rfl, rfl⟩

/-- Keeping a PCB store is transitive. -/
theorem pcbs_kept_trans (a b c : List PCB) (h1 : pcbs_kept a b) (h2 : pcbs_kept b c) :
    pcbs_kept a c := by
  intro i p hp
  obtain ⟨q, hq, e1, e2, e3, e4, e5⟩ := h1 i p hp
  obtain ⟨r, hr, f1, f2, f3, f4, f5⟩ := h2 i q hq
  exact ⟨r, hr, f1.trans e1, f2.trans e2, f3.trans e3, f4.trans e4, f5.trans e5⟩

/-- What `run_fork` returns, when it returns. -/
theorem run_fork_eq (pcbs pcbs1 : List PCB) (cur : Option Nat) (child : Nat)
    (h : run_fork pcbs cur = some (pcbs1, child)) :
    ∃ (c last : Nat) (cp lp : PCB), cur = some c ∧ pcbs[c]? = some cp ∧
      find_last_process pcbs c = some last ∧ pcbs[last]? = some lp ∧ child = pcbs.length ∧
      pcbs1 = pcbs.set last { lp with next := some pcbs.length } ++
        [{ cp with pid := toU16 ((cp.pid : Int) + 1), parent := some c, next := none }] := by
  unfold run_fork at h
  split at h
  · cases h
  · rename_i c
    split at h
    · cases h
    · rename_i cp hcp
      simp only [] at h
      split at h
      · cases h
      · rename_i last hlast
        split at h
        · cases h
        · rename_i lp hlp
          cases h
          exact ⟨c, last, cp, lp, rfl, hcp, hlast, hlp, rfl, rfl⟩

/-- The store `run_fork` leaves keeps the store it started from. -/
theorem pcbs_kept_fork (pcbs pcbs1 : List PCB) (cur : Option Nat) (child : Nat)
    (h : run_fork pcbs cur = some (pcbs1, child)) : pcbs_kept pcbs pcbs1 := by
  obtain ⟨c, last, cp, lp, _, _, _, hlp, _, rfl⟩ := run_fork_eq pcbs pcbs1 cur child h
  intro i p hp
  have hi := (List.getElem?_eq_some_iff.mp hp).1
  rw [List.getElem?_append_left (by simpa using hi), List.getElem?_set]
  by_cases hl : last = i
  · subst hl
    rw [hlp] at hp; cases hp
    simp only [hi, if_true]
    exact ⟨_, rfl, rfl, rfl, rfl, rfl, rfl⟩
  · simp only [hl, if_false]
    exact ⟨p, hp, rfl, rfl, rfl, rfl, rfl⟩

/-- The relation "the PCB store is kept" is respected by every state change. -/
theorem pcbs_kept_stable : Stable (fun s t => pcbs_kept s.pcbs t.pcbs) where
  refl := fun s => pcbs_kept_refl _
  trans := fun a b c => pcbs_kept_trans _ _ _
  log := fun s _ _ => pcbs_kept_refl _
  advance := fun s _ _ => pcbs_kept_refl _
  say := fun s _ => pcbs_kept_refl _
  rand_next := fun s => pcbs_kept_refl _
  snapshot := fun s _ => pcbs_kept_refl _
  mark := fun s _ _ _ _ _ => pcbs_kept_refl _
  fork := fun s cur pcbs child h => pcbs_kept_fork s.pcbs pcbs cur child h
  update := by
    intro s cur pcb pn name sz hpcb i p hp
    simp only [with_pcbs, List.getElem?_set]
    by_cases hi : cur = i
    · subst hi
      rw [hpcb] at hp; cases hp
      have hlt := (List.getElem?_eq_some_iff.mp hpcb).1
      simp only [hlt, if_true]
      exact ⟨_, rfl, rfl, rfl, rfl, rfl, rfl⟩
    · simp only [hi, if_false]
      exact ⟨p, hp, rfl, rfl, rfl, rfl, rfl⟩

/-- C10. Partition table monotonicity: across every `run_exec` call, nested trace
processing included, the table keeps its length, every partition keeps its
`partition_number` and `size`, and every partition that was occupied at entry (occupant
different from "free") holds the same occupant in the state the call ends in; so only
partitions that were free can change occupant. -/
theorem partition_table_monotone (fuel : Nat) (env : Env) (program_name : String)
    (duration : Nat) (cur : Option Nat) (s : Sim) :
    (run_exec fuel env program_name duration cur s).sim.partitions.length = s.partitions.length ∧
    ∀ (i : Nat) (p : MemoryPartition), s.partitions[i]? = some p →
      ∃ q : MemoryPartition,
        (run_exec fuel env program_name duration cur s).sim.partitions[i]? = some q ∧
        q.partition_number = p.partition_number ∧ q.size = p.size ∧
        (p.code ≠ "free" → q.code = p.code) :=
  run_exec_stable partitions_kept_stable env fuel program_name duration cur s

/-- The lookup loop leaves `-1` exactly when no registry entry has the requested name. -/
theorem find_program_size_eq_neg_one (ext : List ExternalFile) (name : String) :
    find_program_size ext name = -1 ↔ ∀ f ∈ ext, f.program_name ≠ name := by
  induction ext with
  | nil => simp [find_program_size]
  | cons f rest ih =>
    simp only [find_program_size, List.mem_cons, forall_eq_or_imp]
    by_cases h : f.program_name = name
    · simp only [h, if_true, ne_eq, not_true_eq_false, false_and, iff_false]
      omega
    · simp only [h, if_false, ne_eq, not_false_eq_true, true_and]
      exact ih

/-- The best-fit loop ends without a candidate exactly when no partition of a table of
`MAX_PARTITIONS` entries is free and large enough. -/
theorem find_partition_eq_none (mp : List MemoryPartition) (sz : Int)
    (hlen : mp.length = MAX_PARTITIONS) :
    find_partition mp sz = none ↔ ¬ ∃ q ∈ mp, q.code = "free" ∧ sz ≤ (q.size : Int) := by
  constructor
  · intro h ⟨q, hq, hqf, hqs⟩
    unfold find_partition at h
    rcases best_fit_scan_spec mp sz MAX_PARTITIONS with ⟨_, hall⟩ | ⟨i, p, hsome, _⟩
    · obtain ⟨j, hj⟩ := List.getElem?_of_mem hq
      have hjl := (List.getElem?_eq_some_iff.mp hj).1
      exact hall j q (by omega) hj ⟨hqf, hqs⟩
    · rw [hsome] at h; cases h
  · intro h
    cases hc : find_partition mp sz with
    | none => rfl
    | some i =>
      obtain ⟨p, hp, hf, hs⟩ := find_partition_some mp sz i hc
      exact absurd ⟨p, List.mem_iff_getElem?.mpr ⟨i, hp⟩, hf, hs⟩ h

/-- A walk along a link that points back to its own record never ends. -/
theorem walk_to_end_self (link : PCB → Option Nat) (pcbs : List PCB) (a : Nat) (p : PCB)
    (hp : pcbs[a]? = some p) (hl : link p = some a) :
    ∀ fuel, walk_to_end link pcbs fuel a = none := by
  intro fuel
  induction fuel with
  | zero => rfl
  | succ n ih => simp only [walk_to_end, hp, hl]; exact ih

/-- A sequence returns only if its first part returned. -/
theorem and_then_eq_done (o : Outcome) (k : Sim → Option Nat → Outcome) (s1 : Sim)
    (c1 : Option Nat) (h : o.and_then k = .done s1 c1) :
    ∃ s0 c0, o = .done s0 c0 ∧ k s0 c0 = .done s1 c1 := by
  cases o with
  | done s0 c0 => exact ⟨s0, c0, rfl, h⟩
  | halted s0 why => cases h

/-- When a snapshot followed by a tick returns, one snapshot was appended and the clock
advanced by 1. -/
theorem snapshot_then_tick_done (s s1 : Sim) (tbl : Nat) (c c1 : Option Nat)
    (h : snapshot_then_tick s tbl c = .done s1 c1) :
    ∃ snap, s1 = advance (write_snapshot s snap) 1 ∧ c1 = c := by
  unfold snapshot_then_tick at h
  split at h
  · cases h
  · rename_i s2 hs2
    obtain ⟨snap, rfl⟩ := save_system_status_eq _ _ _ _ hs2
    cases h
    exact ⟨snap, rfl, rfl⟩

/-- When the part of `run_exec` after the allocation returns, the value left in
`*current_process` is the parent link the current PCB had at entry, and that link does
not point to the current PCB itself. -/
theorem run_exec_load_done (nested : List TraceEvent → Option Nat → Sim → Outcome)
    (hn : ∀ tr c s, pcbs_kept s.pcbs (nested tr c s).sim.pcbs) (env : Env)
    (program_name : String) (duration : Nat) (cur : Nat) (pcb : PCB) (is_init : Bool)
    (program_size : Int) (cand : Nat) (s s1 : Sim) (c1 : Option Nat)
    (h : run_exec_load nested env program_name duration cur pcb is_init program_size cand s
      = .done s1 c1) :
    c1 = pcb.parent ∧ pcb.parent ≠ some cur := by
  unfold run_exec_load at h
  split at h
  · cases h
  · rename_i cp hcp
    simp only [] at h
    generalize (if is_init = true then "init" else program_name) = nm at h
    generalize (if is_init = true then s
      else exec_log_steps env program_name duration program_size cp s) = s0 at h
    generalize hs3 : with_pcbs (mark_occupied s0 cand cp program_name)
      ((mark_occupied s0 cand cp program_name).pcbs.set cur
        { pcb with partition_number := cp.partition_number, program_name := nm,
                   program_size := toU16 program_size }) = s3 at h
    have hpcbs : s3.pcbs = s0.pcbs.set cur
        { pcb with partition_number := cp.partition_number, program_name := nm,
                   program_size := toU16 program_size } := by
      rw [← hs3]; rfl
    split at h
    · cases h
    · rename_i tbl htbl
      -- the current PCB is stored, and it is the updated record
      have hcur : ∃ q, s3.pcbs[cur]? = some q := by
        cases hq : s3.pcbs[cur]? with
        | none => simp [find_pcb_table, walk_to_end, hq] at htbl
        | some q => exact ⟨q, rfl⟩
      obtain ⟨q, hq⟩ := hcur
      have hlt : cur < s0.pcbs.length := by
        have := (List.getElem?_eq_some_iff.mp hq).1
        rw [hpcbs] at this
        simpa using this
      have hq2 : q.parent = pcb.parent := by
        rw [hpcbs, List.getElem?_set] at hq
        simp only [hlt, if_true] at hq
        cases hq; rfl
      have hne : pcb.parent ≠ some cur := by
        intro hself
        have := walk_to_end_self PCB.parent s3.pcbs cur q hq (by rw [hq2]; exact hself)
          (s3.pcbs.length + 1)
        unfold find_pcb_table at htbl
        rw [this] at htbl; cases htbl
      refine ⟨?_, hne⟩
      obtain ⟨s4, c4, h4, h⟩ := and_then_eq_done _ _ _ _ h
      have h4p : s4.pcbs = s3.pcbs := by
        split at h4
        · cases h4; rfl
        · obtain ⟨snap, rfl, _⟩ := snapshot_then_tick_done _ _ _ _ _ h4
          rfl
      split at h
      · cases h
      · rename_i tr _
        obtain ⟨s5, c5, h5, h⟩ := and_then_eq_done _ _ _ _ h
        have hk := hn tr (some cur) s4
        rw [h5] at hk
        obtain ⟨r, hr, _, hrp, _⟩ := hk cur q (by rw [h4p]; exact hq)
        simp only [Outcome.sim] at hr
        rw [hr] at h
        simp only [] at h
        cases h
        rw [hrp, hq2]

/-- Two messages that lead to the same state are the same message. -/
theorem say_injective (s : Sim) (m1 m2 : Message) (h : say s m1 = say s m2) : m1 = m2 := by
  have h2 : (say s m1).stdout = (say s m2).stdout := by rw [h]
  simpa [say] using h2

/-- When `run_exec` gets past the lookup and returns from the allocation step or later,
it either printed the allocation error and left the state otherwise as it was, or it
returned through its last line with the parent link of the current PCB. -/
theorem run_exec_allocate_done (fuel : Nat) (env : Env) (program_name : String)
    (duration : Nat) (cur : Nat) (pcb : PCB) (is_init : Bool) (program_size : Int)
    (s s1 : Sim) (c1 : Option Nat)
    (h : run_exec_allocate (process_trace fuel env) env program_name duration cur pcb is_init
      program_size s = .done s1 c1) :
    (find_partition s.partitions program_size = none ∧
      s1 = say s (.no_suitable_partition program_name) ∧ c1 = some cur) ∨
    (find_partition s.partitions program_size ≠ none ∧ c1 = pcb.parent ∧
      pcb.parent ≠ some cur) := by
  unfold run_exec_allocate at h
  split at h
  · rename_i hnone
    cases h
    exact Or.inl ⟨hnone, rfl, rfl⟩
  · rename_i cand hc
    have := run_exec_load_done (process_trace fuel env)
      (fun tr c s => process_trace_stable pcbs_kept_stable env fuel tr c s)
      env program_name duration cur pcb is_init program_size cand s s1 c1 h
    exact Or.inr ⟨by rw [hc]; simp, this.1, this.2⟩

/-- C7. Unresolvable program: for a current record whose pid is not 11, `run_exec`
returns at the lookup step (the message "program not found" printed, `*current_process`
unchanged) exactly when no registry entry has the requested name; the state it returns
differs from the state at entry only by that message on standard output: partition
table, PCB store, clock, execution log, status file and `rand()` count are those of
entry. The result does not depend on the fuel or on the trace files, so no nested trace
is loaded or processed. -/
theorem unresolvable_program_abort (fuel : Nat) (env : Env) (program_name : String)
    (duration : Nat) (cur : Nat) (pcb : PCB) (s : Sim)
    (hpcb : s.pcbs[cur]? = some pcb) (hpid : pcb.pid ≠ 11) :
    (run_exec fuel env program_name duration (some cur) s
        = .done (say s (.program_not_found program_name)) (some cur)
      ↔ ∀ f ∈ env.external_files, f.program_name ≠ program_name) ∧
    (say s (.program_not_found program_name)).partitions = s.partitions ∧
    (say s (.program_not_found program_name)).pcbs = s.pcbs ∧
    (say s (.program_not_found program_name)).current_time = s.current_time ∧
    (say s (.program_not_found program_name)).file = s.file ∧
    (say s (.program_not_found program_name)).status_file = s.status_file ∧
    (say s (.program_not_found program_name)).rand_calls = s.rand_calls ∧
    (say s (.program_not_found program_name)).stdout
      = s.stdout ++ [.program_not_found program_name] := by
  refine ⟨?_, rfl, rfl, rfl, rfl, rfl, rfl, rfl⟩
  have hrun : run_exec fuel env program_name duration (some cur) s =
      if find_program_size env.external_files program_name = -1 then
        .done (say s (.program_not_found program_name)) (some cur)
      else run_exec_allocate (process_trace fuel env) env program_name duration cur pcb
        (decide (pcb.pid = 11)) (find_program_size env.external_files program_name) s := by
    simp [run_exec, run_exec_with, hpcb, hpid]
  rw [hrun, ← find_program_size_eq_neg_one]
  constructor
  · intro h
    by_contra hne
    rw [if_neg hne] at h
    rcases run_exec_allocate_done _ _ _ _ _ _ _ _ _ _ _ h with ⟨_, hs, _⟩ | ⟨_, hc, hp⟩
    · have := say_injective _ _ _ hs
      cases this
    · exact hp hc.symm
  · intro h
    rw [if_pos h]

/-- Under the record with pid 12 of the sample state, an exec of "ghost" returns at the
lookup. -/
theorem unresolvable_program_abort_witness :
    run_exec 0 sample_env "ghost" 5 (some 2) sample_sim
      = .done (say sample_sim (.program_not_found "ghost")) (some 2) :=
  (unresolvable_program_abort 0 sample_env "ghost" 5 2
    { init_pcb with pid := 12, parent := some 1, next := none } sample_sim rfl
    (by decide)).1.mpr (by decide)

/-- C8. Allocation failure: with the current record stored and the program size resolved
(1 for pid 11, the registry size otherwise), `run_exec` on a table of `MAX_PARTITIONS`
entries returns at the allocation step (the message "no suitable partition" printed,
`*current_process` unchanged) exactly when no partition is both free and of capacity at
least that size; the state it returns differs from the state at entry only by that
message: partition table, PCB store, clock, execution log, status file and `rand()`
count are those of entry. The result does not depend on the fuel or on the trace files,
so no nested trace is processed. -/
theorem allocation_failure_abort (fuel : Nat) (env : Env) (program_name : String)
    (duration : Nat) (cur : Nat) (pcb : PCB) (s : Sim) (program_size : Int)
    (hpcb : s.pcbs[cur]? = some pcb) (hlen : s.partitions.length = MAX_PARTITIONS)
    (hsize : (pcb.pid = 11 ∧ program_size = 1) ∨
      (pcb.pid ≠ 11 ∧ program_size = find_program_size env.external_files program_name ∧
        ∃ f ∈ env.external_files, f.program_name = program_name)) :
    (run_exec fuel env program_name duration (some cur) s
        = .done (say s (.no_suitable_partition program_name)) (some cur)
      ↔ ¬ ∃ q ∈ s.partitions, q.code = "free" ∧ program_size ≤ (q.size : Int)) ∧
    (say s (.no_suitable_partition program_name)).partitions = s.partitions ∧
    (say s (.no_suitable_partition program_name)).pcbs = s.pcbs ∧
    (say s (.no_suitable_partition program_name)).current_time = s.current_time ∧
    (say s (.no_suitable_partition program_name)).file = s.file ∧
    (say s (.no_suitable_partition program_name)).status_file = s.status_file ∧
    (say s (.no_suitable_partition program_name)).rand_calls = s.rand_calls ∧
    (say s (.no_suitable_partition program_name)).stdout
      = s.stdout ++ [.no_suitable_partition program_name] := by
  refine ⟨?_, rfl, rfl, rfl, rfl, rfl, rfl, rfl⟩
  have hrun : run_exec fuel env program_name duration (some cur) s =
      run_exec_allocate (process_trace fuel env) env program_name duration cur pcb
        (decide (pcb.pid = 11)) program_size s := by
    rcases hsize with ⟨h11, hsz⟩ | ⟨h11, hsz, f, hf, hfn⟩
    · simp [run_exec, run_exec_with, hpcb, h11, hsz]
    · have hne : find_program_size env.external_files program_name ≠ -1 := by
        rw [Ne, find_program_size_eq_neg_one]
        intro hall
        exact hall f hf hfn
      simp [run_exec, run_exec_with, hpcb, h11, hsz, hne]
  rw [hrun, ← find_partition_eq_none _ _ hlen]
  constructor
  · intro h
    rcases run_exec_allocate_done _ _ _ _ _ _ _ _ _ _ _ h with ⟨hn, _, _⟩ | ⟨_, hc, hp⟩
    · exact hn
    · exact absurd hc.symm hp
  · intro h
    simp [run_exec_allocate, h]

/-- Under the record with pid 12 of the sample state, an exec of "big" (size 50) returns
at the allocation. -/
theorem allocation_failure_abort_witness :
    run_exec 0 sample_env "big" 5 (some 2) sample_sim
      = .done (say sample_sim (.no_suitable_partition "big")) (some 2) :=
  (allocation_failure_abort 0 sample_env "big" 5 2
    { init_pcb with pid := 12, parent := some 1, next := none } sample_sim 50 rfl rfl
    (Or.inr ⟨by decide, by decide, ⟨"big", 50⟩, by decide, rfl⟩)).1.mpr (by decide)

/-- In a well-formed store the walk along `next` ends at the last record. -/
theorem walk_next_linked (pcbs : List PCB) (hl : linked pcbs) :
    ∀ (fuel a : Nat), a < pcbs.length → pcbs.length - a ≤ fuel →
      walk_to_end PCB.next pcbs fuel a = some (pcbs.length - 1) := by
  intro fuel
  induction fuel with
  | zero => intro a ha hf; omega
  | succ n ih =>
    intro a ha hf
    have hp : pcbs[a]? = some pcbs[a] := List.getElem?_eq_getElem ha
    have hn := hl a _ hp
    simp only [walk_to_end, hp]
    by_cases hlast : a + 1 < pcbs.length
    · rw [if_pos hlast] at hn
      simp only [hn]
      exact ih (a + 1) hlast (by omega)
    · rw [if_neg hlast] at hn
      simp only [hn]
      congr 1
      omega

/-- In a well-formed store the records reached from address `a` are the records stored
from `a` on. -/
theorem roster_from_linked (pcbs : List PCB) (hl : linked pcbs) :
    ∀ (fuel a : Nat), a ≤ pcbs.length → pcbs.length - a ≤ fuel →
      roster_from pcbs fuel (if a < pcbs.length then some a else none)
        = some ((pcbs.drop a).map unlinked) := by
  intro fuel
  induction fuel with
  | zero =>
    intro a ha hf
    have : a = pcbs.length := by omega
    subst this
    simp [roster_from]
  | succ n ih =>
    intro a ha hf
    by_cases hlt : a < pcbs.length
    · have hp : pcbs[a]? = some pcbs[a] := List.getElem?_eq_getElem hlt
      have hn := hl a _ hp
      rw [if_pos hlt]
      simp only [roster_from, hp, hn]
      rw [ih (a + 1) hlt (by omega)]
      simp only [Option.some.injEq]
      rw [List.drop_eq_getElem_cons hlt]
      rfl
    · rw [if_neg hlt]
      have : a = pcbs.length := by omega
      subst this
      simp [roster_from]

/-- The roster of a non-empty well-formed store lists its records in address order. -/
theorem roster_linked (pcbs : List PCB) (hl : linked pcbs) (hne : 0 < pcbs.length) :
    roster pcbs = some (pcbs.map unlinked) := by
  have := roster_from_linked pcbs hl pcbs.length 0 (Nat.zero_le _) (by omega)
  rw [if_pos hne] at this
  simpa [roster] using this

/-- On a well-formed store `run_fork` returns: the new record is stored at the next
unused address, behind the old records, whose last one now points to it. -/
theorem run_fork_linked (pcbs : List PCB) (c : Nat) (cp : PCB) (hl : linked pcbs)
    (hc : pcbs[c]? = some cp) :
    ∃ lp : PCB, pcbs[pcbs.length - 1]? = some lp ∧
      run_fork pcbs (some c) = some
        (pcbs.set (pcbs.length - 1) { lp with next := some pcbs.length } ++
          [{ cp with pid := toU16 ((cp.pid : Int) + 1), parent := some c, next := none }],
         pcbs.length) := by
  have hlt := (List.getElem?_eq_some_iff.mp hc).1
  have hw := walk_next_linked pcbs hl (pcbs.length + 1) c hlt (by omega)
  have hlast : pcbs[pcbs.length - 1]? = some pcbs[pcbs.length - 1] :=
    List.getElem?_eq_getElem (by omega)
  refine ⟨_, hlast, ?_⟩
  simp only [run_fork, hc, find_last_process, hw, hlast]

/-- The store `run_fork` leaves is well formed again. -/
theorem linked_after_fork (pcbs : List PCB) (lp new_process : PCB) (hl : linked pcbs)
    (hlp : pcbs[pcbs.length - 1]? = some lp) (hnew : new_process.next = none) :
    linked (pcbs.set (pcbs.length - 1) { lp with next := some pcbs.length } ++ [new_process]) := by
  have hpos := (List.getElem?_eq_some_iff.mp hlp).1
  intro i p hp
  simp only [List.length_append, List.length_set, List.length_singleton]
  by_cases hi : i < pcbs.length
  · rw [List.getElem?_append_left (by simpa using hi), List.getElem?_set] at hp
    by_cases hlast : pcbs.length - 1 = i
    · simp only [hlast, hi, if_true] at hp
      cases hp
      have : i + 1 < pcbs.length + 1 := by omega
      simp only [this, if_true]
      congr 1
      omega
    · simp only [hlast, if_false] at hp
      have := hl i p hp
      rw [this]
      have h1 : i + 1 < pcbs.length := by omega
      have h2 : i + 1 < pcbs.length + 1 := by omega
      simp only [h1, h2, if_true]
  · have hi2 : i = pcbs.length := by
      have := (List.getElem?_eq_some_iff.mp hp).1
      simp only [List.length_append, List.length_set, List.length_singleton] at this
      omega
    subst hi2
    rw [List.getElem?_append_right (by simp)] at hp
    simp only [List.length_set, Nat.sub_self, List.getElem?_cons_zero, Option.some.injEq] at hp
    subst hp
    simp [hnew]

/-- Without their `next` pointers, the records `run_fork` leaves are the old records
followed by the new one. -/
theorem unlinked_after_fork (pcbs : List PCB) (lp new_process : PCB)
    (hlp : pcbs[pcbs.length - 1]? = some lp) :
    (pcbs.set (pcbs.length - 1) { lp with next := some pcbs.length } ++ [new_process]).map unlinked
      = pcbs.map unlinked ++ [unlinked new_process] := by
  rw [List.map_append, List.map_set]
  congr 1
  apply List.ext_getElem?
  intro i
  rw [List.getElem?_set]
  by_cases hi : pcbs.length - 1 = i
  · subst hi
    have hpos := (List.getElem?_eq_some_iff.mp hlp).1
    simp only [List.length_map, hpos, if_true, List.getElem?_map, hlp, Option.map_some']
    rfl
  · simp only [hi, if_false]

/-- C6. Fork structure: on every well-formed store and for every stored current record
`cp` at address `c` (not necessarily the last), `run_fork` returns; the store it leaves
is well formed, its roster is the old roster with exactly one record appended at the
tail, the old records being unchanged and in the same order; the new record copies
`cpu_time`, `io_time`, `remaining_cpu_time`, `program_name`, `program_size` and
`partition_number` of `cp`, has `parent = c`, and its address is the new current
context. -/
theorem fork_structure (pcbs : List PCB) (c : Nat) (cp : PCB) (hl : linked pcbs)
    (hc : pcbs[c]? = some cp) :
    ∃ (pcbs1 : List PCB) (child : PCB),
      run_fork pcbs (some c) = some (pcbs1, pcbs.length) ∧
      linked pcbs1 ∧
      roster pcbs = some (pcbs.map unlinked) ∧
      roster pcbs1 = some (pcbs.map unlinked ++ [unlinked child]) ∧
      pcbs1.map unlinked = pcbs.map unlinked ++ [unlinked child] ∧
      pcbs1[pcbs.length]? = some child ∧
      child.cpu_time = cp.cpu_time ∧ child.io_time = cp.io_time ∧
      child.remaining_cpu_time = cp.remaining_cpu_time ∧
      child.program_name = cp.program_name ∧ child.program_size = cp.program_size ∧
      child.partition_number = cp.partition_number ∧ child.parent = some c := by
  have hlt := (List.getElem?_eq_some_iff.mp hc).1
  obtain ⟨lp, hlp, hrun⟩ := run_fork_linked pcbs c cp hl hc
  have hl1 := linked_after_fork pcbs lp
    { cp with pid := toU16 ((cp.pid : Int) + 1), parent := some c, next := none } hl hlp rfl
  have hu := unlinked_after_fork pcbs lp
    { cp with pid := toU16 ((cp.pid : Int) + 1), parent := some c, next := none } hlp
  refine ⟨_, { cp with pid := toU16 ((cp.pid : Int) + 1), parent := some c, next := none },
    hrun, hl1, roster_linked pcbs hl (by omega), ?_, hu, ?_, rfl, rfl, rfl, rfl, rfl, rfl, rfl⟩
  · rw [roster_linked _ hl1 (by simp), hu]
  · rw [List.getElem?_append_right (by simp)]
    simp

/-- A fork from the middle record (address 1) of the three records of the sample state. -/
theorem fork_structure_witness :
    ∃ (pcbs1 : List PCB) (child : PCB),
      run_fork sample_sim.pcbs (some 1) = some (pcbs1, sample_sim.pcbs.length) ∧
      linked pcbs1 ∧
      roster sample_sim.pcbs = some (sample_sim.pcbs.map unlinked) ∧
      roster pcbs1 = some (sample_sim.pcbs.map unlinked ++ [unlinked child]) ∧
      pcbs1.map unlinked = sample_sim.pcbs.map unlinked ++ [unlinked child] ∧
      pcbs1[sample_sim.pcbs.length]? = some child ∧
      child.cpu_time = 0 ∧ child.io_time = 0 ∧
      child.remaining_cpu_time = 0 ∧
      child.program_name = "init" ∧ child.program_size = 1 ∧
      child.partition_number = 6 ∧ child.parent = some 1 :=
  fork_structure sample_sim.pcbs 1 { init_pcb with pid := 11, parent := some 0, next := some 2 }
    (by
      intro i p hp
      have hi : i < 3 := (List.getElem?_eq_some_iff.mp hp).1
      interval_cases i <;> simp [sample_sim] at hp <;> subst hp <;> simp [sample_sim])
    rfl

/-- C5 as stated fails: a fork from a record with id 65535 (the only record of a
well-formed store) returns with the child at address 1, and the ids stored are then
65535 and 0: the child has id 0, not 65535 + 1. -/
theorem fork_id_wraps :
    linked [{ init_pcb with pid := 65535 }] ∧
    (run_fork [{ init_pcb with pid := 65535 }] (some 0)).map
      (fun r => (r.1.map PCB.pid, r.2)) = some ([65535, 0], 1) := by
  constructor
  · intro i p hp
    have hi : i < 1 := (List.getElem?_eq_some_iff.mp hp).1
    interval_cases i
    simp at hp
    subst hp
    simp [init_pcb]
  · decide

/-- C5, amended. Fork id derivation: on a well-formed store, for every stored record
with id `p`, `run_fork` returns and the child it creates has id `(p + 1) mod 2^16`, which
is `p + 1` whenever `p < 65535`; and a second fork, issued from a different record that
holds the same id `p`, creates a second child with the same id as the first. -/
theorem fork_id_derivation (pcbs : List PCB) (c : Nat) (cp : PCB) (hl : linked pcbs)
    (hc : pcbs[c]? = some cp) :
    ∃ (pcbs1 : List PCB) (child : PCB),
      run_fork pcbs (some c) = some (pcbs1, pcbs.length) ∧
      pcbs1[pcbs.length]? = some child ∧
      child.pid = (cp.pid + 1) % 65536 ∧
      (cp.pid < 65535 → child.pid = cp.pid + 1) ∧
      ∀ (c2 : Nat) (cp2 : PCB), c2 ≠ c → pcbs[c2]? = some cp2 → cp2.pid = cp.pid →
        ∃ (pcbs2 : List PCB) (child2 : PCB),
          run_fork pcbs1 (some c2) = some (pcbs2, pcbs.length + 1) ∧
          pcbs2[pcbs.length + 1]? = some child2 ∧
          (∃ q : PCB, pcbs2[pcbs.length]? = some q ∧ q.pid = child.pid) ∧
          child2.pid = child.pid := by
  have hlt := (List.getElem?_eq_some_iff.mp hc).1
  obtain ⟨lp, hlp, hrun⟩ := run_fork_linked pcbs c cp hl hc
  have hl1 := linked_after_fork pcbs lp
    { cp with pid := toU16 ((cp.pid : Int) + 1), parent := some c, next := none } hl hlp rfl
  have hpid : toU16 ((cp.pid : Int) + 1) = (cp.pid + 1) % 65536 := by
    unfold toU16
    omega
  refine ⟨_, { cp with pid := toU16 ((cp.pid : Int) + 1), parent := some c, next := none },
    hrun, ?_, hpid, ?_, ?_⟩
  · rw [List.getElem?_append_right (by simp)]
    simp
  · intro h
    simp only [hpid]
    omega
  · intro c2 cp2 _ hc2 hp2
    have hlt2 := (List.getElem?_eq_some_iff.mp hc2).1
    -- the second parent is still stored after the first fork, with the same id
    have hk := pcbs_kept_fork pcbs _ (some c) pcbs.length hrun c2 cp2 hc2
    obtain ⟨q2, hq2, hq2pid, _⟩ := hk
    obtain ⟨lp2, hlp2, hrun2⟩ := run_fork_linked _ c2 q2 hl1 hq2
    have hlen : (pcbs.set (pcbs.length - 1) { lp with next := some pcbs.length } ++
        [{ cp with pid := toU16 ((cp.pid : Int) + 1), parent := some c, next := none }]).length
        = pcbs.length + 1 := by simp
    rw [hlen] at hrun2 hlp2
    refine ⟨_, { q2 with pid := toU16 ((q2.pid : Int) + 1), parent := some c2, next := none },
      hrun2, ?_, ?_, ?_⟩
    · rw [List.getElem?_append_right (by simp)]
      simp
    · have hk2 := pcbs_kept_fork _ _ (some c2) (pcbs.length + 1) hrun2 pcbs.length
        { cp with pid := toU16 ((cp.pid : Int) + 1), parent := some c, next := none }
        (by rw [List.getElem?_append_right (by simp)]; simp)
      obtain ⟨q, hq, hqpid, _⟩ := hk2
      exact ⟨q, hq, hqpid⟩
    · show toU16 ((q2.pid : Int) + 1) = toU16 ((cp.pid : Int) + 1)
      rw [hq2pid, hp2]

/-- Forks from two records that both hold id 10. -/
theorem fork_id_derivation_witness :
    ∃ (pcbs1 : List PCB) (child : PCB),
      run_fork [{ init_pcb with next := some 1 },
          { init_pcb with parent := some 0 }] (some 0) = some (pcbs1, 2) ∧
      pcbs1[2]? = some child ∧
      child.pid = (10 + 1) % 65536 ∧
      (10 < 65535 → child.pid = 10 + 1) ∧
      ∀ (c2 : Nat) (cp2 : PCB), c2 ≠ 0 →
        [{ init_pcb with next := some 1 }, { init_pcb with parent := some 0 }][c2]? = some cp2 →
        cp2.pid = 10 →
        ∃ (pcbs2 : List PCB) (child2 : PCB),
          run_fork pcbs1 (some c2) = some (pcbs2, 2 + 1) ∧
          pcbs2[2 + 1]? = some child2 ∧
          (∃ q : PCB, pcbs2[2]? = some q ∧ q.pid = child.pid) ∧
          child2.pid = child.pid :=
  fork_id_derivation [{ init_pcb with next := some 1 }, { init_pcb with parent := some 0 }] 0
    { init_pcb with next := some 1 }
    (by
      intro i p hp
      have hi : i < 2 := (List.getElem?_eq_some_iff.mp hp).1
      interval_cases i <;> simp at hp <;> subst hp <;> simp [init_pcb])
    rfl

/-- Every stable relation holds between the initial state of `main` and the state the
run ends in. -/
theorem main_stable {R : Sim → Sim → Prop} (hR : Stable R) (fuel : Nat) (env : Env)
    (trace_file : String) : R initial_sim (main fuel env trace_file).sim := by
  unfold main
  cases hf : run_fork initial_sim.pcbs (some 0) with
  | none => exact hR.refl _
  | some r =>
    obtain ⟨pcbs, child⟩ := r
    simp only []
    have h1 := hR.fork initial_sim (some 0) pcbs child hf
    cases hs : save_system_status (with_pcbs initial_sim pcbs)
        (with_pcbs initial_sim pcbs).current_time 0 with
    | none => exact h1
    | some s2 =>
      obtain ⟨snap, rfl⟩ := save_system_status_eq _ _ _ _ hs
      exact hR.trans _ _ _ h1 (hR.trans _ _ _ (hR.snapshot _ snap)
        (run_exec_stable hR env fuel trace_file 0 (some child) _))

/-- The clock invariant `clock_in_order` is kept by every state change. -/
theorem clock_in_order_stable : Stable (fun s t => clock_in_order s → clock_in_order t) where
  refl := fun _ h => h
  trans := fun _ _ _ h1 h2 h => h2 (h1 h)
  say := fun _ _ h => h
  rand_next := fun _ h => h
  snapshot := fun _ _ h => h
  fork := fun _ _ _ _ _ h => h
  mark := fun _ _ _ _ _ _ h => h
  update := fun _ _ _ _ _ _ _ h => h
  log := by
    intro s d step ⟨h0, h1, h2⟩
    refine ⟨h0, h1, ?_⟩
    intro hlt
    obtain ⟨hp, hle⟩ := h2 hlt
    simp only [log, List.map_append, List.map_cons, List.map_nil, List.mem_append,
      List.mem_singleton]
    constructor
    · rw [List.pairwise_append]
      refine ⟨hp, List.pairwise_singleton _ _, ?_⟩
      intro a ha b hb
      simp only [List.mem_singleton] at hb
      subst hb
      obtain ⟨l, hl, rfl⟩ := List.mem_map.mp ha
      exact hle l hl
    · rintro l (hl | rfl)
      · exact hle l hl
      · exact le_refl _
  advance := by
    intro s d hd ⟨h0, h1, h2⟩
    have hc : ((toU16 ((s.current_time : Int) + d) : Nat) : Int)
        = (s.elapsed + d) % 65536 := by
      unfold toU16
      rw [h1]
      omega
    refine ⟨by simp only [advance]; omega, hc, ?_⟩
    intro hlt
    simp only [advance] at hlt ⊢
    obtain ⟨hp, hle⟩ := h2 (by omega)
    refine ⟨hp, ?_⟩
    intro l hl
    have := hle l hl
    omega

/-- The clock invariant holds in the initial state of `main`. -/
theorem initial_clock_in_order : clock_in_order initial_sim := by
  refine ⟨by decide, by decide, ?_⟩
  intro _
  simp [initial_sim]

/-- In a list whose keys are pairwise ordered, neighbours are ordered. -/
theorem neighbours_ordered (file : List LogLine)
    (h : (file.map LogLine.time).Pairwise (fun a b => a ≤ b)) (k : Nat) (a b : LogLine)
    (ha : file[k]? = some a) (hb : file[k + 1]? = some b) : a.time ≤ b.time := by
  rw [List.pairwise_map] at h
  have hk := (List.getElem?_eq_some_iff.mp ha)
  have hk1 := (List.getElem?_eq_some_iff.mp hb)
  obtain ⟨h1, e1⟩ := hk
  obtain ⟨h2, e2⟩ := hk1
  have := List.pairwise_iff_getElem.mp h k (k + 1) h1 h2 (Nat.lt_succ_self k)
  rw [e1, e2] at this
  exact this

/-- C3 as stated fails: the run of `main` on the file "wrap.txt" (CPU 65535, CPU 2,
CPU 1) returns, and its three log lines carry the timestamps 0, 65535 and 1: the 16-bit
clock wraps, so the third timestamp is smaller than the second. -/
theorem clock_wraps :
    (main 1 sample_env "wrap.txt").sim.file.map LogLine.time = [0, 65535, 1] ∧
    ∃ s c, main 1 sample_env "wrap.txt" = .done s c := by
  constructor
  · decide
  · exact ⟨_, _, rfl⟩

/-- C3, amended. Clock monotonicity up to the first wrap: in every run of `main` in which
the clock increments add up to less than `2^16` (the 16-bit clock has not wrapped), the
timestamp written on execution-log line `k + 1` is greater than or equal to the
timestamp written on line `k`, and the final clock value equals the sum of the
increments. -/
theorem clock_monotone_until_wrap (fuel : Nat) (env : Env) (trace_file : String)
    (hwrap : (main fuel env trace_file).sim.elapsed < 65536) :
    (∀ (k : Nat) (a b : LogLine), (main fuel env trace_file).sim.file[k]? = some a →
      (main fuel env trace_file).sim.file[k + 1]? = some b → a.time ≤ b.time) ∧
    ((main fuel env trace_file).sim.current_time : Int)
      = (main fuel env trace_file).sim.elapsed := by
  have h := main_stable clock_in_order_stable fuel env trace_file initial_clock_in_order
  obtain ⟨h0, h1, h2⟩ := h
  obtain ⟨hp, _⟩ := h2 hwrap
  refine ⟨fun k a b ha hb => neighbours_ordered _ hp k a b ha hb, ?_⟩
  rw [h1]
  omega

/-- The run of `main` on "root.txt" writes 19 lines and does not wrap. -/
theorem clock_monotone_until_wrap_witness :
    (main 2 sample_env "root.txt").sim.file.length = 19 ∧
    (∀ (k : Nat) (a b : LogLine), (main 2 sample_env "root.txt").sim.file[k]? = some a →
      (main 2 sample_env "root.txt").sim.file[k + 1]? = some b → a.time ≤ b.time) ∧
    ((main 2 sample_env "root.txt").sim.current_time : Int)
      = (main 2 sample_env "root.txt").sim.elapsed :=
  ⟨by decide, clock_monotone_until_wrap 2 sample_env "root.txt" (by decide)⟩

/-- When `run_exec` returns, either it returned at one of its two error exits, with
`*current_process` unchanged, or it left in `*current_process` the parent link the
current PCB had at entry, which is not the current PCB. -/
theorem run_exec_done (fuel : Nat) (env : Env) (program_name : String) (duration : Nat)
    (cur : Nat) (pcb : PCB) (s s1 : Sim) (c1 : Option Nat) (hpcb : s.pcbs[cur]? = some pcb)
    (h : run_exec fuel env program_name duration (some cur) s = .done s1 c1) :
    (pcb.pid ≠ 11 ∧ find_program_size env.external_files program_name = -1 ∧
      s1 = say s (.program_not_found program_name) ∧ c1 = some cur) ∨
    (find_partition s.partitions
        (if pcb.pid = 11 then 1 else find_program_size env.external_files program_name) = none ∧
      s1 = say s (.no_suitable_partition program_name) ∧ c1 = some cur) ∨
    (c1 = pcb.parent ∧ pcb.parent ≠ some cur) := by
  simp only [run_exec, run_exec_with, hpcb] at h
  by_cases h11 : pcb.pid = 11
  · simp only [h11, decide_True, if_true] at h
    rcases run_exec_allocate_done _ _ _ _ _ _ _ _ _ _ _ h with ⟨hn, hs, hc⟩ | ⟨_, hc, hp⟩
    · exact Or.inr (Or.inl ⟨by simpa [h11] using hn, hs, hc⟩)
    · exact Or.inr (Or.inr ⟨hc, hp⟩)
  · simp only [h11, decide_False, Bool.false_eq_true, if_false] at h
    split at h
    · rename_i hm
      cases h
      exact Or.inl ⟨h11, hm, rfl, rfl⟩
    · rcases run_exec_allocate_done _ _ _ _ _ _ _ _ _ _ _ h with ⟨hn, hs, hc⟩ | ⟨_, hc, hp⟩
      · exact Or.inr (Or.inl ⟨by simpa [h11] using hn, hs, hc⟩)
      · exact Or.inr (Or.inr ⟨hc, hp⟩)

/-- The logging part of the EXEC branch leaves partitions, PCBs, standard output and
status file alone and calls `rand()` once. -/
theorem exec_entry_steps_frame (env : Env) (ev : TraceEvent) (s : Sim) :
    (exec_entry_steps env ev s).partitions = s.partitions ∧
    (exec_entry_steps env ev s).pcbs = s.pcbs ∧
    (exec_entry_steps env ev s).stdout = s.stdout ∧
    (exec_entry_steps env ev s).status_file = s.status_file ∧
    (exec_entry_steps env ev s).rand_calls = s.rand_calls + 1 := by
  simp [exec_entry_steps, emit, log, advance, rand_next]

/-- The EXEC branch of `process_event`. -/
theorem process_event_exec (exec : String → Nat → Option Nat → Sim → Outcome) (env : Env)
    (is_init : Bool) (tbl : Nat) (ev : TraceEvent) (cur : Option Nat) (w : Bool) (s : Sim)
    (hev : ev.type = "EXEC") :
    process_event exec env is_init tbl ev cur w s
      = exec ev.program_name ev.duration cur
          (if is_init = true then s else exec_entry_steps env ev s) := by
  have h1 : ¬ ("EXEC" = "CPU") := by decide
  have h2 : ¬ ("EXEC" = "SYSCALL") := by decide
  have h3 : ¬ ("EXEC" = "END_IO") := by decide
  have h4 : ¬ ("EXEC" = "FORK") := by decide
  simp only [process_event, hev, h1, h2, h3, h4, if_false, if_true]

/-- C4 as stated fails: processing the trace EXEC prog, FORK under the record at
address 2 (pid 12, child of the record at address 1) returns; the exec succeeded
(partition 5 holds "prog"), and the FORK after it ran under address 1, not under
address 2: the record it created has parent address 1 and pid 12, where a fork under
the caller's own record would have given parent address 2 and pid 13. -/
theorem exec_returns_to_parent_of_caller :
    (process_trace 2 sample_env [⟨"EXEC", 7, "prog", 3⟩, ⟨"FORK", 4, "", 2⟩] (some 2)
        sample_sim).sim.pcbs.map (fun p => (p.pid, p.parent))
      = [(10, none), (11, some 0), (12, some 1), (12, some 1)] ∧
    (process_trace 2 sample_env [⟨"EXEC", 7, "prog", 3⟩, ⟨"FORK", 4, "", 2⟩] (some 2)
        sample_sim).sim.partitions.map MemoryPartition.code
      = ["free", "free", "free", "free", "prog", "root.txt"] ∧
    ∃ s c, process_trace 2 sample_env [⟨"EXEC", 7, "prog", 3⟩, ⟨"FORK", 4, "", 2⟩] (some 2)
        sample_sim = .done s c := by
  refine ⟨by decide, by decide, _, _, rfl⟩

/-- C4, amended. Control return: when an EXEC event is processed by the loop of
`process_trace` under the stored record `pcb` at address `c`, the lookup and the
allocation succeed and the event returns, then the current context used for the
remaining events of the caller's trace is the parent link of `pcb` (the record from
which the caller was forked), which is never `c`, the record under which the nested
program ran. -/
theorem control_return (fuel : Nat) (env : Env) (is_init : Bool) (tbl : Nat) (ev : TraceEvent)
    (rest : List TraceEvent) (c : Nat) (pcb : PCB) (w : Bool) (s s1 : Sim) (c1 : Option Nat)
    (hev : ev.type = "EXEC") (hpcb : s.pcbs[c]? = some pcb)
    (hlookup : pcb.pid = 11 ∨ find_program_size env.external_files ev.program_name ≠ -1)
    (halloc : find_partition s.partitions
      (if pcb.pid = 11 then 1 else find_program_size env.external_files ev.program_name) ≠ none)
    (hdone : process_event (run_exec fuel env) env is_init tbl ev (some c) w s = .done s1 c1) :
    c1 = pcb.parent ∧ pcb.parent ≠ some c ∧
    trace_loop (run_exec fuel env) env is_init tbl (ev :: rest) (some c) w s
      = trace_loop (run_exec fuel env) env is_init tbl rest pcb.parent w s1 := by
  have hloop : trace_loop (run_exec fuel env) env is_init tbl (ev :: rest) (some c) w s
      = trace_loop (run_exec fuel env) env is_init tbl rest c1 w s1 := by
    have h2 : ¬ ("EXEC" = "SYSCALL") := by decide
    simp only [trace_loop, hdone, Outcome.and_then, hev, h2, if_false]
  rw [process_event_exec _ _ _ _ _ _ _ _ hev] at hdone
  have hp0 : (if is_init = true then s else exec_entry_steps env ev s).pcbs[c]? = some pcb := by
    split
    · exact hpcb
    · rw [(exec_entry_steps_frame env ev s).2.1]; exact hpcb
  have hq0 : (if is_init = true then s else exec_entry_steps env ev s).partitions
      = s.partitions := by
    split
    · rfl
    · exact (exec_entry_steps_frame env ev s).1
  rcases run_exec_done fuel env _ _ c pcb _ s1 c1 hp0 hdone with
    ⟨h11, hm, _, _⟩ | ⟨hn, _, _⟩ | ⟨hc, hp⟩
  · rcases hlookup with h | h
    · exact absurd h h11
    · exact absurd hm h
  · rw [hq0] at hn
    exact absurd hn halloc
  · subst hc
    exact ⟨rfl, hp, hloop⟩

/-- The trace EXEC prog, FORK under the record at address 2 of the sample state: the FORK
runs under address 1. -/
theorem control_return_witness :
    (some 1 : Option Nat) = some 1 ∧ (some 1 : Option Nat) ≠ some 2 ∧
    trace_loop (run_exec 1 sample_env) sample_env false 0
        [⟨"EXEC", 7, "prog", 3⟩, ⟨"FORK", 4, "", 2⟩] (some 2) false sample_sim
      = trace_loop (run_exec 1 sample_env) sample_env false 0 [⟨"FORK", 4, "", 2⟩] (some 1) false
        (process_event (run_exec 1 sample_env) sample_env false 0 ⟨"EXEC", 7, "prog", 3⟩
          (some 2) false sample_sim).sim :=
  control_return 1 sample_env false 0 ⟨"EXEC", 7, "prog", 3⟩ [⟨"FORK", 4, "", 2⟩] 2
    { init_pcb with pid := 12, parent := some 1, next := none } false sample_sim
    (process_event (run_exec 1 sample_env) sample_env false 0 ⟨"EXEC", 7, "prog", 3⟩
      (some 2) false sample_sim).sim (some 1)
    rfl rfl (Or.inr (by decide)) (by decide) (by decide)

/-- In a well-formed tree the walk along `parent` from a stored record ends at the
root, address 0. -/
theorem walk_parent_rooted (pcbs : List PCB) (hr : rooted pcbs) :
    ∀ (fuel a : Nat), a < pcbs.length → a < fuel →
      walk_to_end PCB.parent pcbs fuel a = some 0 := by
  intro fuel
  induction fuel with
  | zero => intro a _ hf; omega
  | succ n ih =>
    intro a ha hf
    have hp : pcbs[a]? = some pcbs[a] := List.getElem?_eq_getElem ha
    simp only [walk_to_end, hp]
    by_cases h0 : a = 0
    · subst h0
      obtain ⟨r, hr0, hrp⟩ := hr.2.1
      rw [hp] at hr0
      cases hr0
      simp only [hrp]
    · obtain ⟨j, hj, hpj⟩ := hr.2.2 a _ (by omega) hp
      simp only [hpj]
      exact ih j (by omega) (by omega)

/-- In a well-formed tree the head of the PCB table found from any stored record is
the root. -/
theorem find_pcb_table_rooted (pcbs : List PCB) (hr : rooted pcbs) (a : Nat)
    (ha : a < pcbs.length) : find_pcb_table pcbs a = some 0 :=
  walk_parent_rooted pcbs hr (pcbs.length + 1) a ha (by omega)

/-- A head of the PCB table is only found from a stored record. -/
theorem find_pcb_table_stored (pcbs : List PCB) (a tbl : Nat)
    (h : find_pcb_table pcbs a = some tbl) : a < pcbs.length := by
  cases hq : pcbs[a]? with
  | none => simp [find_pcb_table, walk_to_end, hq] at h
  | some q => exact (List.getElem?_eq_some_iff.mp hq).1

/-- The identity fields of the records `run_fork` leaves are those of the old records
followed by those of the new one. -/
theorem identity_after_fork (pcbs : List PCB) (lp new_process : PCB)
    (hlp : pcbs[pcbs.length - 1]? = some lp) :
    (pcbs.set (pcbs.length - 1) { lp with next := some pcbs.length }
        ++ [new_process]).map identity_fields
      = pcbs.map identity_fields ++ [identity_fields new_process] := by
  rw [List.map_append, List.map_set]
  congr 1
  apply List.ext_getElem?
  intro i
  rw [List.getElem?_set]
  by_cases hi : pcbs.length - 1 = i
  · subst hi
    have hpos := (List.getElem?_eq_some_iff.mp hlp).1
    simp only [List.length_map, hpos, if_true, List.getElem?_map, hlp, Option.map_some']
    rfl
  · simp only [hi, if_false]

/-- The tree `run_fork` leaves is well formed again. -/
theorem rooted_after_fork (pcbs : List PCB) (c : Nat) (cp lp : PCB) (hr : rooted pcbs)
    (hc : pcbs[c]? = some cp) (hlp : pcbs[pcbs.length - 1]? = some lp) :
    rooted (pcbs.set (pcbs.length - 1) { lp with next := some pcbs.length } ++
      [{ cp with pid := toU16 ((cp.pid : Int) + 1), parent := some c, next := none }]) := by
  have hclt := (List.getElem?_eq_some_iff.mp hc).1
  refine ⟨linked_after_fork pcbs lp _ hr.1 hlp rfl, ?_, ?_⟩
  · obtain ⟨r, hr0, hrp⟩ := hr.2.1
    rw [List.getElem?_append_left (by simp; omega), List.getElem?_set]
    by_cases h0 : pcbs.length - 1 = 0
    · rw [h0] at hlp
      rw [hlp] at hr0
      cases hr0
      simp only [h0, if_true]
      have : 0 < pcbs.length := by omega
      simp only [this, if_true]
      exact ⟨_, rfl, hrp⟩
    · simp only [h0, if_false]
      exact ⟨r, hr0, hrp⟩
  · intro i p hi hp
    by_cases hlt : i < pcbs.length
    · rw [List.getElem?_append_left (by simpa using hlt), List.getElem?_set] at hp
      by_cases hl : pcbs.length - 1 = i
      · simp only [hl, hlt, if_true] at hp
        cases hp
        rw [hl] at hlp
        exact hr.2.2 i lp hi hlp
      · simp only [hl, if_false] at hp
        exact hr.2.2 i p hi hp
    · have hi2 : i = pcbs.length := by
        have := (List.getElem?_eq_some_iff.mp hp).1
        simp only [List.length_append, List.length_set, List.length_singleton] at this
        omega
      subst hi2
      rw [List.getElem?_append_right (by simp)] at hp
      simp only [List.length_set, Nat.sub_self, List.getElem?_cons_zero,
        Option.some.injEq] at hp
      subst hp
      exact ⟨c, hclt, rfl⟩

/-- The tree stays well formed when a record is replaced by one with the same `parent`
and `next` pointers. -/
theorem rooted_after_set (pcbs : List PCB) (cur : Nat) (pcb q : PCB) (hr : rooted pcbs)
    (hc : pcbs[cur]? = some pcb) (hpar : q.parent = pcb.parent) (hnext : q.next = pcb.next) :
    rooted (pcbs.set cur q) := by
  have hclt := (List.getElem?_eq_some_iff.mp hc).1
  have hget : ∀ (i : Nat) (p : PCB), (pcbs.set cur q)[i]? = some p →
      ∃ r : PCB, pcbs[i]? = some r ∧ p.parent = r.parent ∧ p.next = r.next := by
    intro i p hp
    rw [List.getElem?_set] at hp
    by_cases hi : cur = i
    · subst hi
      simp only [hclt, if_true] at hp
      cases hp
      exact ⟨pcb, hc, hpar, hnext⟩
    · simp only [hi, if_false] at hp
      exact ⟨p, hp, rfl, rfl⟩
  refine ⟨?_, ?_, ?_⟩
  · intro i p hp
    obtain ⟨r, hq, _, hn⟩ := hget i p hp
    rw [hn, hr.1 i r hq, List.length_set]
  · obtain ⟨r, hr0, hrp⟩ := hr.2.1
    rw [List.getElem?_set]
    by_cases h0 : cur = 0
    · subst h0
      rw [hc] at hr0
      cases hr0
      simp only [hclt, if_true]
      exact ⟨_, rfl, hpar.trans hrp⟩
    · simp only [h0, if_false]
      exact ⟨r, hr0, hrp⟩
  · intro i p hi hp
    obtain ⟨r, hq, hpar2, _⟩ := hget i p hp
    rw [hpar2]
    exact hr.2.2 i r hi hq

/-- The identity fields of the store are kept when a record is replaced by one with the
same identity fields. -/
theorem identity_after_set (pcbs : List PCB) (cur : Nat) (pcb q : PCB)
    (hc : pcbs[cur]? = some pcb) (hid : identity_fields q = identity_fields pcb) :
    (pcbs.set cur q).map identity_fields = pcbs.map identity_fields := by
  have hclt := (List.getElem?_eq_some_iff.mp hc).1
  apply List.ext_getElem?
  intro i
  rw [List.getElem?_map, List.getElem?_map, List.getElem?_set]
  by_cases hi : cur = i
  · subst hi
    simp only [hclt, if_true, hc, Option.map_some', hid]
  · simp only [hi, if_false]

/-- What `run_fork` returns on a well-formed list, when it returns. -/
theorem run_fork_linked_eq (pcbs pcbs1 : List PCB) (cur : Option Nat) (child : Nat)
    (hl : linked pcbs) (hf : run_fork pcbs cur = some (pcbs1, child)) :
    ∃ (c : Nat) (cp lp : PCB), cur = some c ∧ pcbs[c]? = some cp ∧
      pcbs[pcbs.length - 1]? = some lp ∧ child = pcbs.length ∧
      pcbs1 = pcbs.set (pcbs.length - 1) { lp with next := some pcbs.length } ++
        [{ cp with pid := toU16 ((cp.pid : Int) + 1), parent := some c, next := none }] := by
  obtain ⟨c, _, cp, _, hcur, hc, _, _, _, _⟩ := run_fork_eq _ _ _ _ hf
  subst hcur
  obtain ⟨lp, hlp, hrun⟩ := run_fork_linked pcbs c cp hl hc
  rw [hrun] at hf
  simp only [Option.some.injEq, Prod.mk.injEq] at hf
  exact ⟨c, cp, lp, rfl, hc, hlp, hf.2.symm, hf.1.symm⟩

/-- Well-formedness of the tree, together with the growth of the sequence of identity
fields, is respected by every state change. -/
theorem rooted_stable : Stable (fun s t => rooted s.pcbs →
    rooted t.pcbs ∧ s.pcbs.map identity_fields <+: t.pcbs.map identity_fields) where
  refl := fun _ h => ⟨h, List.prefix_refl _⟩
  trans := fun _ _ _ h1 h2 h => ⟨(h2 (h1 h).1).1, (h1 h).2.trans (h2 (h1 h).1).2⟩
  log := fun _ _ _ h => ⟨h, List.prefix_refl _⟩
  advance := fun _ _ _ h => ⟨h, List.prefix_refl _⟩
  say := fun _ _ h => ⟨h, List.prefix_refl _⟩
  rand_next := fun _ h => ⟨h, List.prefix_refl _⟩
  snapshot := fun _ _ h => ⟨h, List.prefix_refl _⟩
  mark := fun _ _ _ _ _ _ h => ⟨h, List.prefix_refl _⟩
  fork := by
    intro s cur pcbs child hf hr
    obtain ⟨c, cp, lp, _, hc, hlp, _, rfl⟩ := run_fork_linked_eq _ _ _ _ hr.1 hf
    refine ⟨rooted_after_fork s.pcbs c cp lp hr hc hlp, ?_⟩
    simp only [with_pcbs]
    rw [identity_after_fork s.pcbs lp _ hlp]
    exact List.prefix_append _ _
  update := by
    intro s cur pcb pn name sz hc hr
    refine ⟨rooted_after_set s.pcbs cur pcb _ hr hc rfl rfl, ?_⟩
    simp only [with_pcbs]
    have e := identity_after_set s.pcbs cur pcb
      { pcb with partition_number := pn, program_name := name, program_size := sz } hc rfl
    rw [e]

/-- Every state reachable from a well-formed tree holds a well-formed tree that extends
the sequence of identity fields of the first. -/
theorem reachable_rooted (s0 s : Sim) (h0 : rooted s0.pcbs) (h : reachable s0 s) :
    rooted s.pcbs ∧ s0.pcbs.map identity_fields <+: s.pcbs.map identity_fields := by
  induction h with
  | start => exact ⟨h0, List.prefix_refl _⟩
  | fork s cur pcbs child _ hf ih =>
    have := rooted_stable.fork s cur pcbs child hf ih.1
    exact ⟨this.1, ih.2.trans this.2⟩
  | exec s fuel env name d cur _ ih =>
    have := run_exec_stable rooted_stable env fuel name d cur s ih.1
    exact ⟨this.1, ih.2.trans this.2⟩

/-- A store that holds only a root record is a well-formed tree. -/
theorem rooted_single (root : PCB) (hpar : root.parent = none) (hnext : root.next = none) :
    rooted [root] := by
  refine ⟨?_, ⟨root, rfl, hpar⟩, ?_⟩
  · intro i p hp
    have hi : i < 1 := (List.getElem?_eq_some_iff.mp hp).1
    have : i = 0 := by omega
    subst this
    simp only [List.getElem?_cons_zero, Option.some.injEq] at hp
    subst hp
    simp [hnext]
  · intro i p hi hp
    have : i < 1 := (List.getElem?_eq_some_iff.mp hp).1
    omega

/-- C11. Roster invariant: in every state reachable from an initial state whose roster
is the root alone (no parent) by any sequence of fork and exec operations, the roster
read through `next` is the store in address order and its first entry is the root; the
parent of every other entry is a record that occurs earlier; following parent links
from any entry reaches the root; and no operation removes or reorders entries: after a
fork the old records are a prefix of the new ones, and after an exec (which rewrites
program fields in place) the identity fields of the old entries are a prefix of those
of the new ones. -/
theorem roster_invariant (s0 s : Sim) (root : PCB) (h0 : s0.pcbs = [root])
    (hpar : root.parent = none) (hnext : root.next = none) (h : reachable s0 s) :
    (∃ (r : PCB) (rest : List PCB), roster s.pcbs = some (r :: rest) ∧
      r :: rest = s.pcbs.map unlinked ∧ identity_fields r = identity_fields root) ∧
    (∀ (i : Nat) (p : PCB), 0 < i → s.pcbs[i]? = some p →
      ∃ (j : Nat) (q : PCB), j < i ∧ p.parent = some j ∧ s.pcbs[j]? = some q) ∧
    (∀ i : Nat, i < s.pcbs.length → find_pcb_table s.pcbs i = some 0) ∧
    (∀ (cur : Option Nat) (pcbs : List PCB) (child : Nat),
      run_fork s.pcbs cur = some (pcbs, child) →
      s.pcbs.map unlinked <+: pcbs.map unlinked ∧ pcbs.length = s.pcbs.length + 1) ∧
    (∀ (fuel : Nat) (env : Env) (program_name : String) (duration : Nat) (cur : Option Nat),
      s.pcbs.map identity_fields
        <+: (run_exec fuel env program_name duration cur s).sim.pcbs.map identity_fields) := by
  have hr0 : rooted s0.pcbs := by rw [h0]; exact rooted_single root hpar hnext
  obtain ⟨hr, hpre⟩ := reachable_rooted s0 s hr0 h
  obtain ⟨r0, hr0s, _⟩ := hr.2.1
  have hpos : 0 < s.pcbs.length := (List.getElem?_eq_some_iff.mp hr0s).1
  refine ⟨?_, ?_, ?_, ?_, ?_⟩
  · cases hs : s.pcbs with
    | nil => rw [hs] at hpos; simp at hpos
    | cons a rest =>
      refine ⟨unlinked a, rest.map unlinked, ?_, by simp, ?_⟩
      · rw [← hs, roster_linked s.pcbs hr.1 hpos, hs]; simp
      · rw [h0, hs] at hpre
        simp only [List.map_cons, List.map_nil] at hpre
        obtain ⟨t, ht⟩ := hpre
        simp only [List.singleton_append, List.cons.injEq] at ht
        exact ht.1.symm
  · intro i p hi hp
    obtain ⟨j, hj, hpj⟩ := hr.2.2 i p hi hp
    have hilt := (List.getElem?_eq_some_iff.mp hp).1
    exact ⟨j, s.pcbs[j], hj, hpj, List.getElem?_eq_getElem (by omega)⟩
  · intro i hi
    exact find_pcb_table_rooted s.pcbs hr i hi
  · intro cur pcbs child hf
    obtain ⟨c, cp, lp, _, hc, hlp, _, rfl⟩ := run_fork_linked_eq _ _ _ _ hr.1 hf
    rw [unlinked_after_fork s.pcbs lp _ hlp]
    exact ⟨List.prefix_append _ _, by simp⟩
  · intro fuel env name d cur
    exact (run_exec_stable rooted_stable env fuel name d cur s hr).2

/-- The state after the fork of `main` followed by the exec of "root.txt" (which itself
forks and execs "prog"): a roster of three records. -/
theorem roster_invariant_witness :
    (run_exec 2 sample_env "root.txt" 0 (some 1) (with_pcbs initial_sim
      [{ init_pcb with next := some 1 }, { init_pcb with pid := 11, parent := some 0 }])
      ).sim.pcbs.length = 3 ∧
    (∀ i : Nat, i < (run_exec 2 sample_env "root.txt" 0 (some 1) (with_pcbs initial_sim
      [{ init_pcb with next := some 1 }, { init_pcb with pid := 11, parent := some 0 }])
      ).sim.pcbs.length →
      find_pcb_table (run_exec 2 sample_env "root.txt" 0 (some 1) (with_pcbs initial_sim
      [{ init_pcb with next := some 1 }, { init_pcb with pid := 11, parent := some 0 }])
      ).sim.pcbs i = some 0) :=
  ⟨by decide, (roster_invariant initial_sim _ init_pcb rfl rfl rfl
    (.exec _ 2 sample_env "root.txt" 0 (some 1)
      (.fork initial_sim (some 0)
        [{ init_pcb with next := some 1 }, { init_pcb with pid := 11, parent := some 0 }] 1
        .start (by decide)))).2.2.1⟩

/-- The step blocks of the engine leave the status file alone. -/
theorem steps_status_file (env : Env) (ev : TraceEvent) (w : Bool) (name : String)
    (duration : Nat) (size : Int) (cp : MemoryPartition) (s : Sim) :
    (cpu_event ev s).status_file = s.status_file ∧
    (syscall_steps env ev w s).status_file = s.status_file ∧
    (end_io_steps env ev s).status_file = s.status_file ∧
    (fork_steps env ev s).status_file = s.status_file ∧
    (exec_entry_steps env ev s).status_file = s.status_file ∧
    (exec_log_steps env name duration size cp s).status_file = s.status_file := by
  simp [cpu_event, syscall_steps, end_io_steps, fork_steps, exec_entry_steps, exec_log_steps,
    emit, log, advance, rand_next]

/-- In a well-formed list the rows printed from address `a` on are the rows of the
records stored from `a` on. -/
theorem status_rows_linked (pcbs : List PCB) (hl : linked pcbs) :
    ∀ (fuel a : Nat), a ≤ pcbs.length → pcbs.length - a ≤ fuel →
      status_rows pcbs fuel (if a < pcbs.length then some a else none)
        = some ((pcbs.drop a).map status_row) := by
  intro fuel
  induction fuel with
  | zero =>
    intro a ha hf
    have : a = pcbs.length := by omega
    subst this
    simp [status_rows]
  | succ n ih =>
    intro a ha hf
    by_cases hlt : a < pcbs.length
    · have hp : pcbs[a]? = some pcbs[a] := List.getElem?_eq_getElem hlt
      have hn := hl a _ hp
      rw [if_pos hlt]
      simp only [status_rows, hp, hn]
      rw [ih (a + 1) hlt (by omega)]
      simp only [Option.some.injEq]
      rw [List.drop_eq_getElem_cons hlt]
      rfl
    · rw [if_neg hlt]
      have : a = pcbs.length := by omega
      subst this
      simp [status_rows]

/-- On a well-formed tree, `save_system_status` called with the root as head returns and
appends the snapshot the specification describes: the time given, then one row per
record after the root, in creation order. -/
theorem save_system_status_rooted (s : Sim) (time : Nat) (hr : rooted s.pcbs) :
    save_system_status s time 0
      = some (write_snapshot s ⟨time, (s.pcbs.drop 1).map status_row⟩) := by
  obtain ⟨r, hr0, _⟩ := hr.2.1
  have hpos : 0 < s.pcbs.length := (List.getElem?_eq_some_iff.mp hr0).1
  have hn := hr.1 0 r hr0
  have := status_rows_linked s.pcbs hr.1 s.pcbs.length 1 (by omega) (by omega)
  simp only [Nat.zero_add] at hn
  simp only [save_system_status, hr0, hn, this]

/-- The fork at the start of `main`. -/
theorem main_fork :
    run_fork initial_sim.pcbs (some 0)
      = some ([{ init_pcb with next := some 1 },
               { init_pcb with pid := 11, parent := some 0 }], 1) := by
  decide

/-- Lines 98-153 of an initial exec: no log line and no snapshot; the partition is
marked, the PCB updated, and the trace loaded and run. -/
theorem run_exec_load_initial (nested : List TraceEvent → Option Nat → Sim → Outcome)
    (env : Env) (program_name : String) (duration : Nat) (cur : Nat) (pcb upd : PCB)
    (program_size : Int) (cand : Nat) (s : Sim) (cp : MemoryPartition) (tbl : Nat)
    (hcp : s.partitions[cand]? = some cp)
    (hupd : upd = { pcb with partition_number := cp.partition_number,
                             program_name := "init", program_size := toU16 program_size })
    (htbl : find_pcb_table (s.pcbs.set cur upd) cur = some tbl) :
    run_exec_load nested env program_name duration cur pcb true program_size cand s
      = load_and_run nested env program_name cur
          (with_pcbs (mark_occupied s cand cp program_name) (s.pcbs.set cur upd)) := by
  subst hupd
  simp only [run_exec_load, hcp, if_true, mark_occupied, with_pcbs, htbl]
  rfl

/-- Lines 98-153 of a non-initial exec: the six log lines, the marking of the partition,
the update of the PCB, the snapshot and its tick, then the trace is loaded and run. -/
theorem run_exec_load_later (nested : List TraceEvent → Option Nat → Sim → Outcome)
    (env : Env) (program_name : String) (duration : Nat) (cur : Nat) (pcb upd : PCB)
    (program_size : Int) (cand : Nat) (s : Sim) (cp : MemoryPartition) (tbl : Nat)
    (hcp : s.partitions[cand]? = some cp)
    (hupd : upd = { pcb with partition_number := cp.partition_number,
                             program_name := program_name,
                             program_size := toU16 program_size })
    (htbl : find_pcb_table (s.pcbs.set cur upd) cur = some tbl) :
    run_exec_load nested env program_name duration cur pcb false program_size cand s
      = (snapshot_then_tick
          (with_pcbs (mark_occupied
              (exec_log_steps env program_name duration program_size cp s)
              cand cp program_name) (s.pcbs.set cur upd))
          tbl (some cur)).and_then
        (fun s4 _ => load_and_run nested env program_name cur s4) := by
  subst hupd
  have hp := (exec_log_steps_frame env program_name duration program_size cp s).2.1
  simp only [run_exec_load, hcp, Bool.false_eq_true, if_false, mark_occupied, with_pcbs, hp,
    htbl]
  rfl

/-- The exec of a record with pid 11 on the state a root fork leaves (the root and its
child, all six partitions free): partition 6 is marked with the program name, the PCB
keeps "init", size 1 and partition 6, and the trace of the program is loaded and run. -/
theorem initial_exec_eq (nested : List TraceEvent → Option Nat → Sim → Outcome) (env : Env)
    (program_name : String) (duration : Nat) (s : Sim)
    (hp : s.pcbs = [{ init_pcb with next := some 1 },
      { init_pcb with pid := 11, parent := some 0 }])
    (hq : s.partitions = initial_partitions) :
    run_exec_with nested env program_name duration (some 1) s
      = load_and_run nested env program_name 1 (mark_occupied s 5 ⟨6, 2, "free"⟩ program_name) := by
  have h1 : s.pcbs[1]? = some { init_pcb with pid := 11, parent := some 0 } := by rw [hp]; rfl
  have hf : find_partition s.partitions 1 = some 5 := by rw [hq]; decide
  have hc : s.partitions[5]? = some ⟨6, 2, "free"⟩ := by rw [hq]; rfl
  have hset : s.pcbs.set 1 { init_pcb with pid := 11, parent := some 0 } = s.pcbs := by
    rw [hp]; rfl
  have hw : with_pcbs (mark_occupied s 5 ⟨6, 2, "free"⟩ program_name) s.pcbs
      = mark_occupied s 5 ⟨6, 2, "free"⟩ program_name := rfl
  simp only [run_exec_with, h1, run_exec_allocate, hf]
  have := run_exec_load_initial nested env program_name duration 1
    { init_pcb with pid := 11, parent := some 0 } { init_pcb with pid := 11, parent := some 0 }
    1 5 s ⟨6, 2, "free"⟩ 0 hc (by decide) (by rw [hset, hp]; decide)
  rw [hset, hw] at this
  simpa using this

/-- The snapshot `main` takes before its exec leads to `main_exec_entry`. -/
theorem main_eq (fuel : Nat) (env : Env) (trace_file : String) :
    main fuel env trace_file = run_exec fuel env trace_file 0 (some 1) main_exec_entry := by
  have hs : save_system_status (with_pcbs initial_sim [{ init_pcb with next := some 1 },
        { init_pcb with pid := 11, parent := some 0 }])
      (with_pcbs initial_sim [{ init_pcb with next := some 1 },
        { init_pcb with pid := 11, parent := some 0 }]).current_time 0
      = some main_exec_entry := by decide
  unfold main
  rw [main_fork]
  simp only [hs]

/-- C17. Initial exec as issued by `main`: `main` calls `run_exec` on the state
`main_exec_entry` (current record = the child of pid 11 forked from the root, reference
partitions all free, clock 0). For every registry and trace files, program name and
duration, the size used is 1, the partition selected is the one at index 5, number 6
(capacity 2); when the nested trace is loaded and started, that partition holds the
program name, the record has `partition_number` 6, `program_name` "init" and
`program_size` 1, and `run_exec` has written no log line, taken no snapshot, drawn no
`rand()` value and left the clock at 0. -/
theorem initial_exec (fuel : Nat) (nested : List TraceEvent → Option Nat → Sim → Outcome)
    (env : Env) (program_name : String) (duration : Nat) :
    main fuel env program_name = run_exec fuel env program_name 0 (some 1) main_exec_entry ∧
    find_partition main_exec_entry.partitions 1 = some 5 ∧
    main_exec_entry.partitions[5]? = some ⟨6, 2, "free"⟩ ∧
    run_exec_with nested env program_name duration (some 1) main_exec_entry
      = load_and_run nested env program_name 1
          (mark_occupied main_exec_entry 5 ⟨6, 2, "free"⟩ program_name) ∧
    (mark_occupied main_exec_entry 5 ⟨6, 2, "free"⟩ program_name).partitions
      = [⟨1, 40, "free"⟩, ⟨2, 25, "free"⟩, ⟨3, 15, "free"⟩, ⟨4, 10, "free"⟩, ⟨5, 8, "free"⟩,
         ⟨6, 2, program_name⟩] ∧
    (mark_occupied main_exec_entry 5 ⟨6, 2, "free"⟩ program_name).pcbs[1]?.map
        (fun p => (p.pid, p.partition_number, p.program_name, p.program_size))
      = some (11, 6, "init", 1) ∧
    (mark_occupied main_exec_entry 5 ⟨6, 2, "free"⟩ program_name).file = [] ∧
    (mark_occupied main_exec_entry 5 ⟨6, 2, "free"⟩ program_name).status_file
      = main_exec_entry.status_file ∧
    (mark_occupied main_exec_entry 5 ⟨6, 2, "free"⟩ program_name).rand_calls = 0 ∧
    (mark_occupied main_exec_entry 5 ⟨6, 2, "free"⟩ program_name).current_time = 0 :=
  ⟨main_eq fuel env program_name, by decide, rfl,
    initial_exec_eq nested env program_name duration main_exec_entry rfl rfl,
    rfl, rfl, rfl, rfl, rfl, rfl⟩

/-- The step blocks of the engine leave the PCB store and the partition table alone. -/
theorem steps_frame (env : Env) (ev : TraceEvent) (w : Bool) (s : Sim) :
    ((cpu_event ev s).pcbs = s.pcbs ∧ (cpu_event ev s).partitions = s.partitions) ∧
    ((syscall_steps env ev w s).pcbs = s.pcbs ∧
      (syscall_steps env ev w s).partitions = s.partitions) ∧
    ((end_io_steps env ev s).pcbs = s.pcbs ∧ (end_io_steps env ev s).partitions = s.partitions) ∧
    ((fork_steps env ev s).pcbs = s.pcbs ∧ (fork_steps env ev s).partitions = s.partitions) ∧
    ((exec_entry_steps env ev s).pcbs = s.pcbs ∧
      (exec_entry_steps env ev s).partitions = s.partitions) := by
  simp [cpu_event, syscall_steps, end_io_steps, fork_steps, exec_entry_steps,
    emit, log, advance, rand_next]

/-- On a well-formed tree a snapshot with the root as head, followed by a tick, returns. -/
theorem snapshot_then_tick_rooted (s : Sim) (cur : Option Nat) (hr : rooted s.pcbs) :
    snapshot_then_tick s 0 cur = .done (advance (write_snapshot s (snapshot_of s)) 1) cur := by
  simp only [snapshot_then_tick, save_system_status_rooted s s.current_time hr]
  rfl

/-- On a well-formed tree a snapshot followed by a tick returns and leaves the PCB store
and the partition table alone. -/
theorem snapshot_then_tick_frame (t s : Sim) (cur : Option Nat) (hr : rooted s.pcbs)
    (hp : t.pcbs = s.pcbs) (hq : t.partitions = s.partitions) :
    ∃ s1, snapshot_then_tick t 0 cur = .done s1 cur ∧
      s1.pcbs = s.pcbs ∧ s1.partitions = s.partitions :=
  ⟨_, snapshot_then_tick_rooted t cur (by rw [hp]; exact hr), hp, hq⟩

/-- An event that is neither FORK nor EXEC returns on a well-formed tree and leaves the
PCB store, the partition table and the current context as they were. -/
theorem quiet_event (exec : String → Nat → Option Nat → Sim → Outcome) (env : Env)
    (is_init : Bool) (ev : TraceEvent) (cur : Option Nat) (w : Bool) (s : Sim)
    (hr : rooted s.pcbs) (h1 : ev.type ≠ "FORK") (h2 : ev.type ≠ "EXEC") :
    ∃ s1, process_event exec env is_init 0 ev cur w s = .done s1 cur ∧
      s1.pcbs = s.pcbs ∧ s1.partitions = s.partitions := by
  have hf := steps_frame env ev w s
  unfold process_event
  split
  · exact ⟨_, rfl, hf.1.1, hf.1.2⟩
  · split
    · exact snapshot_then_tick_frame _ s cur hr hf.2.1.1 hf.2.1.2
    · split
      · exact snapshot_then_tick_frame _ s cur hr hf.2.2.1.1 hf.2.2.1.2
      · exact ⟨s, rfl, rfl, rfl⟩

/-- A trace without FORK and EXEC events is processed to its end on a well-formed tree
and leaves the PCB store, the partition table and the current context as they were. -/
theorem quiet_loop (exec : String → Nat → Option Nat → Sim → Outcome) (env : Env)
    (is_init : Bool) (trace : List TraceEvent)
    (hq : ∀ ev ∈ trace, ev.type ≠ "FORK" ∧ ev.type ≠ "EXEC") :
    ∀ (cur : Option Nat) (w : Bool) (s : Sim), rooted s.pcbs →
      ∃ s1, trace_loop exec env is_init 0 trace cur w s = .done s1 cur ∧
        s1.pcbs = s.pcbs ∧ s1.partitions = s.partitions := by
  induction trace with
  | nil => intro cur w s _; exact ⟨s, rfl, rfl, rfl⟩
  | cons ev rest ih =>
    intro cur w s hr
    obtain ⟨s1, he, hp, hpart⟩ := quiet_event exec env is_init ev cur w s hr
      (hq ev (List.mem_cons_self _ _)).1 (hq ev (List.mem_cons_self _ _)).2
    obtain ⟨s2, hl, hp2, hpart2⟩ := ih (fun e he => hq e (List.mem_cons_of_mem _ he)) cur
      (if ev.type = "SYSCALL" then !w else w) s1 (by rw [hp]; exact hr)
    refine ⟨s2, ?_, hp2.trans hp, hpart2.trans hpart⟩
    simp only [trace_loop, he, Outcome.and_then, hl]

/-- The function `process_trace`, given at least one unit of fuel, processes a trace
without FORK and EXEC events to its end. -/
theorem quiet_trace (fuel : Nat) (env : Env) (trace : List TraceEvent) (c : Nat) (s : Sim)
    (hq : ∀ ev ∈ trace, ev.type ≠ "FORK" ∧ ev.type ≠ "EXEC") (hr : rooted s.pcbs)
    (hc : c < s.pcbs.length) :
    ∃ s1, process_trace (fuel + 1) env trace (some c) s = .done s1 (some c) ∧
      s1.pcbs = s.pcbs ∧ s1.partitions = s.partitions := by
  have hp : s.pcbs[c]? = some s.pcbs[c] := List.getElem?_eq_getElem hc
  simp only [process_trace, process_trace_with, hp, find_pcb_table_rooted s.pcbs hr c hc]
  exact quiet_loop _ env _ trace hq (some c) false s hr

/-- C13 as stated fails: after the fork from the root, the exec of "prog", registered
with size 3 (best fit for size 3 is index 4, partition number 5), returns; the snapshot
of the roster then lists one record whose row carries the name "init", size 1 and
partition number 6, not "prog", 3 and 5. -/
theorem first_exec_row_is_init :
    find_program_size sample_env.external_files "prog" = 3 ∧
    find_partition initial_partitions 3 = some 4 ∧
    ∃ s c, run_exec 1 sample_env "prog" 7 (some 1) (with_pcbs initial_sim
        [{ init_pcb with next := some 1 }, { init_pcb with pid := 11, parent := some 0 }])
        = .done s c ∧
      (save_system_status s s.current_time 0).map
          (fun t => t.status_file.map Snapshot.rows) = some [[⟨11, "init", 6, 1⟩]] := by
  refine ⟨by decide, by decide, _, _, rfl, by decide⟩

/-- C13, amended. Scenario snapshot content: starting from the entry-point state (roster
containing only the root, the six reference partitions all free), after a fork from the
root followed by one exec of a program whose trace contains no FORK and no EXEC event,
the exec returns and a status snapshot of the roster lists exactly one non-root record;
whatever size the registry gives the program (3, say), that row carries pid 11, the name
"init", size 1 and partition number 6, the partition best fit assigns to a size-1
request, and the program name appears only as the occupant of that partition. -/
theorem first_exec_snapshot (fuel : Nat) (env : Env) (program_name : String)
    (duration : Nat) (trace : List TraceEvent)
    (hfile : env.files (trace_path program_name) = some trace)
    (hquiet : ∀ ev ∈ trace, ev.type ≠ "FORK" ∧ ev.type ≠ "EXEC") :
    run_fork initial_sim.pcbs (some 0)
      = some ([{ init_pcb with next := some 1 },
               { init_pcb with pid := 11, parent := some 0 }], 1) ∧
    find_partition initial_partitions 1 = some 5 ∧
    ∃ s : Sim, run_exec (fuel + 1) env program_name duration (some 1) (with_pcbs initial_sim
        [{ init_pcb with next := some 1 }, { init_pcb with pid := 11, parent := some 0 }])
        = .done s (some 0) ∧
      save_system_status s s.current_time 0
        = some (write_snapshot s ⟨s.current_time, [⟨11, "init", 6, 1⟩]⟩) ∧
      s.partitions = [⟨1, 40, "free"⟩, ⟨2, 25, "free"⟩, ⟨3, 15, "free"⟩, ⟨4, 10, "free"⟩,
         ⟨5, 8, "free"⟩, ⟨6, 2, program_name⟩] := by
  refine ⟨main_fork, by decide, ?_⟩
  have heq := initial_exec_eq (process_trace (fuel + 1) env) env program_name duration
    (with_pcbs initial_sim
      [{ init_pcb with next := some 1 }, { init_pcb with pid := 11, parent := some 0 }])
    rfl rfl
  generalize hs3 : mark_occupied (with_pcbs initial_sim
      [{ init_pcb with next := some 1 }, { init_pcb with pid := 11, parent := some 0 }])
      5 ⟨6, 2, "free"⟩ program_name = s3 at heq
  have hp3 : s3.pcbs = [{ init_pcb with next := some 1 },
      { init_pcb with pid := 11, parent := some 0 }] := by rw [← hs3]; rfl
  have hq3 : s3.partitions = [⟨1, 40, "free"⟩, ⟨2, 25, "free"⟩, ⟨3, 15, "free"⟩,
      ⟨4, 10, "free"⟩, ⟨5, 8, "free"⟩, ⟨6, 2, program_name⟩] := by rw [← hs3]; rfl
  have hr3 : rooted s3.pcbs := by
    rw [hp3]
    have := rooted_stable.fork initial_sim (some 0) _ 1 main_fork
      (rooted_single init_pcb rfl rfl)
    exact this.1
  obtain ⟨s5, hrun, hp5, hq5⟩ := quiet_trace fuel env trace 1 s3 hquiet hr3
    (by rw [hp3]; decide)
  have h1 : s5.pcbs[1]? = some { init_pcb with pid := 11, parent := some 0 } := by
    rw [hp5, hp3]; rfl
  refine ⟨s5, ?_, ?_, hq5.trans hq3⟩
  · rw [run_exec, heq]
    simp only [load_and_run, load_trace, hfile, hrun, Outcome.and_then, exec_return, h1]
  · rw [save_system_status_rooted s5 s5.current_time (by rw [hp5]; exact hr3), hp5, hp3]
    rfl

/-- The exec of "prog" of the sample environment (registered with size 3, its trace one
CPU event) after the fork from the root. -/
theorem first_exec_snapshot_witness :
    run_fork initial_sim.pcbs (some 0)
      = some ([{ init_pcb with next := some 1 },
               { init_pcb with pid := 11, parent := some 0 }], 1) ∧
    find_partition initial_partitions 1 = some 5 ∧
    ∃ s : Sim, run_exec (0 + 1) sample_env "prog" 7 (some 1) (with_pcbs initial_sim
        [{ init_pcb with next := some 1 }, { init_pcb with pid := 11, parent := some 0 }])
        = .done s (some 0) ∧
      save_system_status s s.current_time 0
        = some (write_snapshot s ⟨s.current_time, [⟨11, "init", 6, 1⟩]⟩) ∧
      s.partitions = [⟨1, 40, "free"⟩, ⟨2, 25, "free"⟩, ⟨3, 15, "free"⟩, ⟨4, 10, "free"⟩,
         ⟨5, 8, "free"⟩, ⟨6, 2, "prog"⟩] :=
  first_exec_snapshot 0 sample_env "prog" 7 [⟨"CPU", 2, "", -1⟩] (by decide) (by decide)

/-- The file `load_trace` reads: a name that starts with "program" is resolved under
"additionalFiles/" with ".txt" appended, every other name is opened as it is given. -/
theorem trace_path_cases (filename : String) :
    (filename.data.take 7 = ("program" : String).data →
      trace_path filename = String.append (String.append "additionalFiles/" filename) ".txt") ∧
    (filename.data.take 7 ≠ ("program" : String).data → trace_path filename = filename) := by
  constructor
  · intro h; simp only [trace_path, h, if_true]
  · intro h; simp only [trace_path, h, if_false]

/-- C14: what `load_trace` does on the name "prog" (no ".txt" at its end, no "program" at
its start). The flag `trap` is false, so line 259 opens "prog.txt" and the error message
of line 279 names "prog.txt", as the claim says; but the handle is overwritten at line
273 and the lines are read from the file "prog": in the sample environment, where "prog"
exists and "prog.txt" does not, the trace is loaded. A name with both the prefix and the
extension, "program1.txt", is read from "additionalFiles/program1.txt.txt". -/
theorem load_trace_reads_bare_name :
    trap "prog" = false ∧
    trace_path "prog" = "prog" ∧
    sample_env.files "prog.txt" = none ∧
    load_trace sample_env "prog" = .ok [⟨"CPU", 2, "", -1⟩] ∧
    load_trace exec_first_env "ghost" = .error (.cannot_open_file "ghost.txt") ∧
    trap "program1.txt" = true ∧
    trace_path "program1.txt" = "additionalFiles/program1.txt.txt" := by
  refine ⟨by decide, by decide, by decide, rfl, rfl, by decide, by decide⟩

/-- C16: the run of `main` on "first.txt" (EXEC prog, CPU 5; "prog" registered with size
3, its trace one CPU event). The EXEC event inside the trace is processed under the
record of pid 11 and takes the initial path: the log holds the four entry lines of
`process_trace` and the two CPU lines but none of the six exec lines, the status file
holds only the snapshot of `main`, and the record ends with the name "init" and size 1,
not "prog" and 3; the partition of capacity 8 is marked without any lookup. -/
theorem exec_under_pid_11_is_initial :
    (main 2 exec_first_env "first.txt").sim.file.map (fun l => (l.time, l.step))
      = [(0, .switch_to_kernel_mode), (1, .context_saved), (4, .find_vector 3 6),
         (5, .load_address 12), (6, .cpu_execution), (8, .cpu_execution)] ∧
    (main 2 exec_first_env "first.txt").sim.status_file = [⟨0, [⟨11, "init", 6, 1⟩]⟩] ∧
    (main 2 exec_first_env "first.txt").sim.pcbs.map
        (fun p => (p.pid, p.partition_number, p.program_name, p.program_size))
      = [(10, 6, "init", 1), (11, 5, "init", 1)] ∧
    (main 2 exec_first_env "first.txt").sim.partitions.map MemoryPartition.code
      = ["free", "free", "free", "free", "prog", "first.txt"] ∧
    (main 2 exec_first_env "first.txt").sim.rand_calls = 1 ∧
    find_program_size exec_first_env.external_files "prog" = 3 ∧
    ∃ s, main 2 exec_first_env "first.txt" = .done s (some 0) := by
  refine ⟨by decide, by decide, by decide, by decide, by decide, by decide, _, rfl⟩

/-- Two successive increments of the 16-bit clock are one increment by the sum. -/
theorem toU16_add_toU16 (x d : Int) : toU16 ((toU16 x : Nat) + d) = toU16 (x + d) := by
  unfold toU16
  omega

/-- An increment of the 16-bit clock by a natural number. -/
theorem toU16_nat (t k : Nat) : toU16 ((t : Int) + (k : Int)) = (t + k) % 65536 := by
  unfold toU16
  omega

/-- The END_IO branch of `process_event`. -/
theorem process_event_end_io (exec : String → Nat → Option Nat → Sim → Outcome) (env : Env)
    (is_init : Bool) (tbl : Nat) (ev : TraceEvent) (cur : Option Nat) (w : Bool) (s : Sim)
    (hev : ev.type = "END_IO") :
    process_event exec env is_init tbl ev cur w s
      = snapshot_then_tick (end_io_steps env ev s) tbl cur := by
  have h1 : ¬ ("END_IO" = "CPU") := by decide
  have h2 : ¬ ("END_IO" = "SYSCALL") := by decide
  simp only [process_event, hev, h1, h2, if_false, if_true]

/-- The eight lines of the END_IO branch and the clock after its IRET line. -/
theorem end_io_steps_eq (env : Env) (ev : TraceEvent) (s : Sim) :
    (end_io_steps env ev s).file = s.file ++
      [⟨s.current_time, 1, .check_priority⟩,
       ⟨(s.current_time + 1) % 65536, 1, .check_if_masked⟩,
       ⟨(s.current_time + 2) % 65536, 1, .switch_to_kernel_mode⟩,
       ⟨(s.current_time + 3) % 65536, 3, .context_saved⟩,
       ⟨(s.current_time + 6) % 65536, 1, .find_vector ev.vector (ev.vector * 2)⟩,
       ⟨(s.current_time + 7) % 65536, 1, .load_address (env.vector_table ev.vector)⟩,
       ⟨(s.current_time + 8) % 65536, ev.duration, .end_io_step⟩,
       ⟨(s.current_time + 8 + ev.duration) % 65536, 1, .iret⟩] ∧
    (end_io_steps env ev s).current_time = (s.current_time + 8 + ev.duration) % 65536 ∧
    (end_io_steps env ev s).status_file = s.status_file ∧
    (end_io_steps env ev s).pcbs = s.pcbs ∧
    (end_io_steps env ev s).partitions = s.partitions ∧
    (end_io_steps env ev s).rand_calls = s.rand_calls := by
  refine ⟨?_, ?_, (steps_status_file env ev false "" 0 0 ⟨0, 0, ""⟩ s).2.2.1,
    (steps_frame env ev false s).2.2.1.1, (steps_frame env ev false s).2.2.1.2,
    by simp [end_io_steps, emit, log, advance]⟩
  · simp only [end_io_steps, emit, log, advance, List.append_assoc, List.singleton_append,
      List.cons_append, List.nil_append, toU16_add_toU16]
    have t1 : toU16 ((s.current_time : Int) + 1) = (s.current_time + 1) % 65536 := by
      unfold toU16; omega
    have t2 : toU16 ((s.current_time : Int) + 1 + 1) = (s.current_time + 2) % 65536 := by
      unfold toU16; omega
    have t3 : toU16 ((s.current_time : Int) + 1 + 1 + 1) = (s.current_time + 3) % 65536 := by
      unfold toU16; omega
    have t4 : toU16 ((s.current_time : Int) + 1 + 1 + 1 + 3)
        = (s.current_time + 6) % 65536 := by
      unfold toU16; omega
    have t5 : toU16 ((s.current_time : Int) + 1 + 1 + 1 + 3 + 1)
        = (s.current_time + 7) % 65536 := by
      unfold toU16; omega
    have t6 : toU16 ((s.current_time : Int) + 1 + 1 + 1 + 3 + 1 + 1)
        = (s.current_time + 8) % 65536 := by
      unfold toU16; omega
    have t7 : toU16 ((s.current_time : Int) + 1 + 1 + 1 + 3 + 1 + 1 + (ev.duration : Int))
        = (s.current_time + 8 + ev.duration) % 65536 := by
      unfold toU16; omega
    rw [t1, t2, t3, t4, t5, t6, t7]
  · simp only [end_io_steps, emit, log, advance, toU16_add_toU16]
    unfold toU16
    omega

/-- C15 as stated fails: an END_IO event of duration 2 processed at clock 20 writes its
eight lines at 20, 21, 22, 23, 26, 27, 28 and 30, takes its snapshot at 30 and leaves
the clock at 31, which is 20 + 2 + 9 and not 20 + 2 + 10: the increment after the
snapshot is the increment of the IRET step, not one more. -/
theorem end_io_clock_after_event :
    (process_trace 1 sample_env [⟨"END_IO", 2, "", 7⟩] (some 2) sample_sim).sim.file.map
        (fun l => (l.time, l.duration))
      = [(20, 1), (21, 1), (22, 1), (23, 3), (26, 1), (27, 1), (28, 2), (30, 1)] ∧
    (process_trace 1 sample_env [⟨"END_IO", 2, "", 7⟩] (some 2) sample_sim).sim.status_file.map
        Snapshot.save_time = [30] ∧
    (process_trace 1 sample_env [⟨"END_IO", 2, "", 7⟩] (some 2) sample_sim).sim.current_time
      = 31 ∧
    ∃ s, process_trace 1 sample_env [⟨"END_IO", 2, "", 7⟩] (some 2) sample_sim
      = .done s (some 2) := by
  refine ⟨by decide, by decide, by decide, _, rfl⟩

/-- C15, amended. END_IO protocol: on a well-formed tree, an END_IO event with vector `v`
and duration `d` processed at clock `t` returns with the current context unchanged; it
appends exactly eight log lines in the order check priority, check masked, kernel-mode
switch, context saved, find vector, load PC, END_IO, IRET with durations 1, 1, 1, 3, 1,
1, `d`, 1; the clock is advanced by the duration of each of the first seven steps right
after its line; after the IRET line a snapshot of the roster is taken at the timestamp
of that line, `t + d + 8`, and then the clock advances by the 1 unit of the IRET step, so
the clock after the event is `t + d + 9` (mod 2^16). -/
theorem end_io_protocol (exec : String → Nat → Option Nat → Sim → Outcome) (env : Env)
    (is_init : Bool) (ev : TraceEvent) (cur : Option Nat) (w : Bool) (s : Sim)
    (hev : ev.type = "END_IO") (hr : rooted s.pcbs) :
    ∃ s1 : Sim, process_event exec env is_init 0 ev cur w s = .done s1 cur ∧
      s1.file = s.file ++
        [⟨s.current_time, 1, .check_priority⟩,
         ⟨(s.current_time + 1) % 65536, 1, .check_if_masked⟩,
         ⟨(s.current_time + 2) % 65536, 1, .switch_to_kernel_mode⟩,
         ⟨(s.current_time + 3) % 65536, 3, .context_saved⟩,
         ⟨(s.current_time + 6) % 65536, 1, .find_vector ev.vector (ev.vector * 2)⟩,
         ⟨(s.current_time + 7) % 65536, 1, .load_address (env.vector_table ev.vector)⟩,
         ⟨(s.current_time + 8) % 65536, ev.duration, .end_io_step⟩,
         ⟨(s.current_time + 8 + ev.duration) % 65536, 1, .iret⟩] ∧
      s1.status_file = s.status_file ++
        [⟨(s.current_time + 8 + ev.duration) % 65536, (s.pcbs.drop 1).map status_row⟩] ∧
      s1.current_time = (s.current_time + ev.duration + 9) % 65536 ∧
      s1.pcbs = s.pcbs ∧ s1.partitions = s.partitions ∧ s1.rand_calls = s.rand_calls := by
  obtain ⟨hfile, htime, hstat, hpcbs, hpart, hrand⟩ := end_io_steps_eq env ev s
  rw [process_event_end_io exec env is_init 0 ev cur w s hev,
    snapshot_then_tick_rooted _ cur (by rw [hpcbs]; exact hr)]
  generalize end_io_steps env ev s = t at hfile htime hstat hpcbs hpart hrand
  refine ⟨_, rfl, hfile, ?_, ?_, hpcbs, hpart, hrand⟩
  · show t.status_file ++ [snapshot_of t] = _
    rw [hstat, snapshot_of, htime, hpcbs]
  · show toU16 ((t.current_time : Int) + 1) = _
    rw [htime]
    unfold toU16
    omega

/-- The sample state holds a well-formed tree: two forks from a single root give it. -/
theorem sample_sim_rooted : rooted sample_sim.pcbs :=
  (reachable_rooted { initial_sim with pcbs := [init_pcb] } _
    (rooted_single init_pcb rfl rfl)
    (.fork _ (some 1) sample_sim.pcbs 2
      (.fork _ (some 0) [{ init_pcb with next := some 1 },
        { init_pcb with pid := 11, parent := some 0 }] 1 .start (by decide)) (by decide))).1

/-- An END_IO event of duration 2 under the record at address 2 of the sample state, at
clock 20: the clock ends at 31. -/
theorem end_io_protocol_witness :
    ∃ s1 : Sim, process_event (run_exec 0 sample_env) sample_env false 0
        ⟨"END_IO", 2, "", 7⟩ (some 2) false sample_sim = .done s1 (some 2) ∧
      s1.file = sample_sim.file ++
        [⟨sample_sim.current_time, 1, .check_priority⟩,
         ⟨(sample_sim.current_time + 1) % 65536, 1, .check_if_masked⟩,
         ⟨(sample_sim.current_time + 2) % 65536, 1, .switch_to_kernel_mode⟩,
         ⟨(sample_sim.current_time + 3) % 65536, 3, .context_saved⟩,
         ⟨(sample_sim.current_time + 6) % 65536, 1, .find_vector 7 (7 * 2)⟩,
         ⟨(sample_sim.current_time + 7) % 65536, 1, .load_address (sample_env.vector_table 7)⟩,
         ⟨(sample_sim.current_time + 8) % 65536, (2 : Nat), .end_io_step⟩,
         ⟨(sample_sim.current_time + 8 + 2) % 65536, 1, .iret⟩] ∧
      s1.status_file = sample_sim.status_file ++
        [⟨(sample_sim.current_time + 8 + 2) % 65536,
          (sample_sim.pcbs.drop 1).map status_row⟩] ∧
      s1.current_time = (sample_sim.current_time + 2 + 9) % 65536 ∧
      s1.pcbs = sample_sim.pcbs ∧ s1.partitions = sample_sim.partitions ∧
      s1.rand_calls = sample_sim.rand_calls :=
  end_io_protocol (run_exec 0 sample_env) sample_env false ⟨"END_IO", 2, "", 7⟩ (some 2) false
    sample_sim rfl sample_sim_rooted

/-- C18. Exec state update: for every non-initial `run_exec` call (current record stored
in a well-formed tree, pid not 11) that resolves the program name `N` to a registry size
`sz` and selects the partition `cp` at index `cand`, the nested trace is loaded and
started in a state `s4` in which the partition at `cand` holds occupant `N` with its
number and size unchanged and every other partition is unchanged, and the current
record has `partition_number` = the number of `cp`, `program_name` = `N` and
`program_size` = `sz`, with its pid, parent, list link and accounting fields unchanged
and every other record of the store unchanged. -/
theorem exec_state_update (nested : List TraceEvent → Option Nat → Sim → Outcome)
    (env : Env) (program_name : String) (duration : Nat) (cur : Nat) (pcb : PCB) (s : Sim)
    (sz cand : Nat) (cp : MemoryPartition)
    (hr : rooted s.pcbs) (hpcb : s.pcbs[cur]? = some pcb) (hpid : pcb.pid ≠ 11)
    (hsz : find_program_size env.external_files program_name = (sz : Int))
    (hszr : sz < 65536)
    (hcand : find_partition s.partitions (sz : Int) = some cand)
    (hcp : s.partitions[cand]? = some cp) :
    ∃ (s4 : Sim) (q : PCB),
      run_exec_with nested env program_name duration (some cur) s
        = load_and_run nested env program_name cur s4 ∧
      s4.partitions = s.partitions.set cand ⟨cp.partition_number, cp.size, program_name⟩ ∧
      (∀ i : Nat, i ≠ cand → s4.partitions[i]? = s.partitions[i]?) ∧
      s4.pcbs = s.pcbs.set cur q ∧
      (∀ i : Nat, i ≠ cur → s4.pcbs[i]? = s.pcbs[i]?) ∧
      s4.pcbs[cur]? = some q ∧
      q.partition_number = cp.partition_number ∧ q.program_name = program_name ∧
      q.program_size = sz ∧
      q.pid = pcb.pid ∧ q.parent = pcb.parent ∧ q.next = pcb.next ∧
      q.cpu_time = pcb.cpu_time ∧ q.io_time = pcb.io_time ∧
      q.remaining_cpu_time = pcb.remaining_cpu_time := by
  have hclt := (List.getElem?_eq_some_iff.mp hpcb).1
  have hne : ¬ ((sz : Int) = -1) := by omega
  have hu : toU16 (sz : Int) = sz := by unfold toU16; omega
  generalize hq : ({ pcb with partition_number := cp.partition_number,
                              program_name := program_name,
                              program_size := toU16 (sz : Int) } : PCB) = q
  have hr3 : rooted (s.pcbs.set cur q) :=
    rooted_after_set s.pcbs cur pcb q hr hpcb (by rw [← hq]) (by rw [← hq])
  have htbl : find_pcb_table (s.pcbs.set cur q) cur = some 0 :=
    find_pcb_table_rooted _ hr3 cur (by simpa using hclt)
  have hload := run_exec_load_later nested env program_name duration cur pcb q (sz : Int)
    cand s cp 0 hcp hq.symm htbl
  have hrun : run_exec_with nested env program_name duration (some cur) s
      = run_exec_load nested env program_name duration cur pcb false (sz : Int) cand s := by
    simp [run_exec_with, hpcb, hpid, hsz, hne, run_exec_allocate, hcand]
  rw [hrun, hload, snapshot_then_tick_rooted _ (some cur) hr3]
  refine ⟨_, q, rfl, rfl, ?_, rfl, ?_, ?_, ?_, ?_, ?_, ?_, ?_, ?_, ?_, ?_, ?_⟩
  · intro i hi
    show (s.partitions.set cand _)[i]? = _
    rw [List.getElem?_set]
    simp [Ne.symm hi]
  · intro i hi
    show (s.pcbs.set cur q)[i]? = _
    rw [List.getElem?_set]
    simp [Ne.symm hi]
  · show (s.pcbs.set cur q)[cur]? = _
    rw [List.getElem?_set]
    simp [hclt]
  all_goals subst hq
  · rfl
  · rfl
  · exact hu
  all_goals rfl

/-- The exec of "prog" (size 3) under the record of pid 12 of the sample state: the
partition of capacity 8 at index 4 is selected. -/
theorem exec_state_update_witness :
    ∃ (s4 : Sim) (q : PCB),
      run_exec_with (process_trace 1 sample_env) sample_env "prog" 7 (some 2) sample_sim
        = load_and_run (process_trace 1 sample_env) sample_env "prog" 2 s4 ∧
      s4.partitions = sample_sim.partitions.set 4 ⟨5, 8, "prog"⟩ ∧
      (∀ i : Nat, i ≠ 4 → s4.partitions[i]? = sample_sim.partitions[i]?) ∧
      s4.pcbs = sample_sim.pcbs.set 2 q ∧
      (∀ i : Nat, i ≠ 2 → s4.pcbs[i]? = sample_sim.pcbs[i]?) ∧
      s4.pcbs[2]? = some q ∧
      q.partition_number = 5 ∧ q.program_name = "prog" ∧ q.program_size = 3 ∧
      q.pid = 12 ∧ q.parent = some 1 ∧ q.next = none ∧
      q.cpu_time = 0 ∧ q.io_time = 0 ∧ q.remaining_cpu_time = 0 :=
  exec_state_update (process_trace 1 sample_env) sample_env "prog" 7 2
    { init_pcb with pid := 12, parent := some 1, next := none } sample_sim 3 4 ⟨5, 8, "free"⟩
    sample_sim_rooted rfl (by decide) (by decide) (by decide) (by decide) rfl

/-- The FORK branch of `process_event` when the fork succeeds. -/
theorem process_event_fork (exec : String → Nat → Option Nat → Sim → Outcome) (env : Env)
    (is_init : Bool) (tbl : Nat) (ev : TraceEvent) (cur : Option Nat) (w : Bool) (s : Sim)
    (pcbs : List PCB) (child : Nat) (hev : ev.type = "FORK")
    (hrun : run_fork (if is_init = true then s else fork_steps env ev s).pcbs cur
      = some (pcbs, child)) :
    process_event exec env is_init tbl ev cur w s
      = snapshot_then_tick (with_pcbs (if is_init = true then s else fork_steps env ev s) pcbs)
          tbl (some child) := by
  have h1 : ¬ ("FORK" = "CPU") := by decide
  have h2 : ¬ ("FORK" = "SYSCALL") := by decide
  have h3 : ¬ ("FORK" = "END_IO") := by decide
  simp only [process_event, hev, h1, h2, h3, if_false, if_true, hrun]

/-- One FORK event on a well-formed tree: it returns, exactly one record is appended, a
copy of the current record with the next pid and the current record as parent, and the
new record is the current context afterwards. -/
theorem fork_event (exec : String → Nat → Option Nat → Sim → Outcome) (env : Env)
    (is_init : Bool) (ev : TraceEvent) (c : Nat) (cp : PCB) (w : Bool) (s : Sim)
    (hev : ev.type = "FORK") (hr : rooted s.pcbs) (hc : s.pcbs[c]? = some cp) :
    ∃ s1 : Sim, process_event exec env is_init 0 ev (some c) w s
        = .done s1 (some s.pcbs.length) ∧
      rooted s1.pcbs ∧ s1.pcbs.length = s.pcbs.length + 1 ∧
      s1.pcbs.map unlinked = s.pcbs.map unlinked ++ [fork_child cp c s.pcbs.length 0] ∧
      s1.pcbs[s.pcbs.length]? = some (fork_child cp c s.pcbs.length 0) ∧
      s1.partitions = s.partitions := by
  have hf : (if is_init = true then s else fork_steps env ev s).pcbs = s.pcbs ∧
      (if is_init = true then s else fork_steps env ev s).partitions = s.partitions := by
    split
    · exact ⟨rfl, rfl⟩
    · exact (steps_frame env ev w s).2.2.2.1
  obtain ⟨lp, hlp, hrun⟩ := run_fork_linked s.pcbs c cp hr.1 hc
  have hr1 := rooted_after_fork s.pcbs c cp lp hr hc hlp
  have hu := unlinked_after_fork s.pcbs lp (fork_child cp c s.pcbs.length 0) hlp
  have hpid : toU16 ((cp.pid : Int) + 1) = (cp.pid + 0 + 1) % 65536 := by unfold toU16; omega
  rw [hpid] at hrun hr1
  change run_fork s.pcbs (some c) = some (_ ++ [fork_child cp c s.pcbs.length 0], _) at hrun
  change rooted (_ ++ [fork_child cp c s.pcbs.length 0]) at hr1
  generalize hP : s.pcbs.set (s.pcbs.length - 1) { lp with next := some s.pcbs.length } ++
    [fork_child cp c s.pcbs.length 0] = P at hrun hr1 hu
  have hrun1 : run_fork (if is_init = true then s else fork_steps env ev s).pcbs (some c)
      = some (P, s.pcbs.length) := by rw [hf.1]; exact hrun
  rw [process_event_fork exec env is_init 0 ev (some c) w s _ _ hev hrun1]
  generalize (if is_init = true then s else fork_steps env ev s) = t at hf
  rw [snapshot_then_tick_rooted _ _ hr1]
  refine ⟨_, rfl, hr1, ?_, hu, ?_, hf.2⟩
  · show P.length = _
    rw [← hP]
    simp
  · show P[s.pcbs.length]? = _
    rw [← hP, List.getElem?_append_right (by simp)]
    simp

/-- The record appended by a fork from an appended record. -/
theorem fork_child_succ (cp : PCB) (c len i : Nat) :
    fork_child (fork_child cp c len 0) len (len + 1) i = fork_child cp c len (i + 1) := by
  have h1 : ((cp.pid + 0 + 1) % 65536 + i + 1) % 65536 = (cp.pid + (i + 1) + 1) % 65536 := by
    omega
  have h2 : (if i = 0 then len else len + 1 + i - 1) = len + (i + 1) - 1 := by
    split <;> omega
  simp only [fork_child, h1, h2, Nat.add_eq_zero, one_ne_zero, and_false, if_false]

/-- Consecutive FORK events in the loop of `process_trace`: each appends one record, the
copy of the record current at that moment, and the events after them run under the last
record appended. -/
theorem fork_chain_loop (exec : String → Nat → Option Nat → Sim → Outcome) (env : Env)
    (is_init : Bool) (rest : List TraceEvent) (forks : List TraceEvent) :
    ∀ (c : Nat) (cp : PCB) (w : Bool) (s : Sim), rooted s.pcbs → s.pcbs[c]? = some cp →
      (∀ ev ∈ forks, ev.type = "FORK") →
      ∃ s1 : Sim, trace_loop exec env is_init 0 (forks ++ rest) (some c) w s
          = trace_loop exec env is_init 0 rest
              (some (if forks.length = 0 then c else s.pcbs.length + forks.length - 1)) w s1 ∧
        rooted s1.pcbs ∧
        s1.pcbs.map unlinked
          = s.pcbs.map unlinked ++ (List.range forks.length).map (fork_child cp c s.pcbs.length) ∧
        s1.partitions = s.partitions := by
  induction forks with
  | nil =>
    intro c cp w s hr _ _
    exact ⟨s, rfl, hr, by simp, rfl⟩
  | cons ev forks ih =>
    intro c cp w s hr hc hf
    have hev : ev.type = "FORK" := hf ev (List.mem_cons_self _ _)
    obtain ⟨s1, he, hr1, hlen, hu1, hc1, hp1⟩ := fork_event exec env is_init ev c cp w s hev hr hc
    obtain ⟨s2, hl, hr2, hu2, hp2⟩ := ih s.pcbs.length (fork_child cp c s.pcbs.length 0) w s1 hr1
      hc1 (fun e he => hf e (List.mem_cons_of_mem _ he))
    have hw : (if ev.type = "SYSCALL" then !w else w) = w := by
      rw [hev]
      exact if_neg (by decide)
    refine ⟨s2, ?_, hr2, ?_, hp2.trans hp1⟩
    · show trace_loop exec env is_init 0 (ev :: (forks ++ rest)) (some c) w s = _
      rw [trace_loop, he, hw]
      show trace_loop exec env is_init 0 (forks ++ rest) (some s.pcbs.length) w s1 = _
      rw [hl]
      have hcur : (if forks.length = 0 then s.pcbs.length else s1.pcbs.length + forks.length - 1)
          = (if (ev :: forks).length = 0 then c else s.pcbs.length + (ev :: forks).length - 1) := by
        rw [hlen, List.length_cons, if_neg (Nat.succ_ne_zero _)]
        split <;> omega
      rw [hcur]
    · rw [hu2, hu1, hlen, List.length_cons, List.range_succ_eq_map, List.map_cons, List.map_map,
        List.append_assoc]
      congr 1
      rw [List.singleton_append]
      congr 1
      apply List.map_congr_left
      intro i _
      exact fork_child_succ cp c s.pcbs.length i

/-- The pid of a record is not touched by `unlinked`. -/
theorem map_pid_unlinked (pcbs : List PCB) : (pcbs.map unlinked).map PCB.pid = pcbs.map PCB.pid := by
  rw [List.map_map]
  rfl

/-- C19 as stated fails: two consecutive FORK events processed by `process_trace` under
a root record with id 65534 return under the second child (address 2), and the records
appended have ids 65535 and 0, each the child of the previous one: the second id is 0,
not 65534 + 2. -/
theorem fork_chain_ids_wrap :
    (match process_trace 1 sample_env [⟨"FORK", 4, "", 2⟩, ⟨"FORK", 4, "", 2⟩] (some 0)
        { initial_sim with pcbs := [{ init_pcb with pid := 65534 }] } with
      | .done s cur => some (s.pcbs.map (fun p => (p.pid, p.parent)), cur)
      | .halted _ _ => none)
      = some ([(65534, none), (65535, some 0), (0, some 1)], some 2) := by
  decide

/-- C19 (amended). FORK continues in the child: for every trace of `process_trace` that
starts with `k` consecutive FORK events, run under the record `cp` stored at address `c`
of a well-formed tree, the `k` events return and the rest of the trace is processed, in
the same loop (same initial-path flag, same table head, same syscall toggle), with the
last record appended as current (with `c` itself when `k = 0`). Each FORK appends exactly
one record: the store is the old one followed by `k` records, the `i`-th (from 0) a copy
of `cp` with id `(p + i + 1) mod 2^16`, whose parent is the record appended just before
it (`c` for the first); so the ids are `p + 1, ..., p + k` as long as `p + k < 2^16`.
The memory partitions are untouched. -/
theorem fork_continues_in_child (fuel : Nat) (env : Env) (forks rest : List TraceEvent)
    (c : Nat) (cp : PCB) (s : Sim) (hr : rooted s.pcbs) (hc : s.pcbs[c]? = some cp)
    (hf : ∀ ev ∈ forks, ev.type = "FORK") :
    ∃ s1 : Sim, process_trace (fuel + 1) env (forks ++ rest) (some c) s
        = trace_loop (run_exec_with (process_trace fuel env) env) env (decide (cp.pid = 10)) 0
            rest (some (if forks.length = 0 then c else s.pcbs.length + forks.length - 1))
            false s1 ∧
      rooted s1.pcbs ∧
      s1.pcbs.map unlinked
        = s.pcbs.map unlinked ++ (List.range forks.length).map (fork_child cp c s.pcbs.length) ∧
      s1.pcbs.map PCB.pid
        = s.pcbs.map PCB.pid ++ (List.range forks.length).map (fun i => (cp.pid + i + 1) % 65536) ∧
      (cp.pid + forks.length < 65536 →
        s1.pcbs.map PCB.pid
          = s.pcbs.map PCB.pid ++ (List.range forks.length).map (fun i => cp.pid + i + 1)) ∧
      s1.partitions = s.partitions := by
  have hclt := (List.getElem?_eq_some_iff.mp hc).1
  have htbl := find_pcb_table_rooted s.pcbs hr c hclt
  obtain ⟨s1, hl, hr1, hu, hp⟩ :=
    fork_chain_loop (run_exec_with (process_trace fuel env) env) env (decide (cp.pid = 10)) rest
      forks c cp false s hr hc hf
  have hpid : s1.pcbs.map PCB.pid
      = s.pcbs.map PCB.pid ++ (List.range forks.length).map (fun i => (cp.pid + i + 1) % 65536) := by
    rw [← map_pid_unlinked s1.pcbs, hu, List.map_append, map_pid_unlinked, List.map_map]
    rfl
  refine ⟨s1, ?_, hr1, hu, hpid, ?_, hp⟩
  · rw [← hl]
    simp only [process_trace, process_trace_with, hc, htbl]
  · intro hlt
    rw [hpid]
    congr 1
    apply List.map_congr_left
    intro i hi
    have := List.mem_range.mp hi
    exact Nat.mod_eq_of_lt (by omega)

/-- Two FORK events followed by a CPU event under the record at address 2 (id 12) of the
sample state: the records appended have ids 13 and 14, and the CPU event runs under
address 4. -/
theorem fork_continues_in_child_witness :
    ∃ s1 : Sim, process_trace 1 sample_env
          [⟨"FORK", 4, "", 2⟩, ⟨"FORK", 3, "", 2⟩, ⟨"CPU", 5, "", -1⟩] (some 2) sample_sim
        = trace_loop (run_exec_with (process_trace 0 sample_env) sample_env) sample_env false 0
            [⟨"CPU", 5, "", -1⟩] (some 4) false s1 ∧
      rooted s1.pcbs ∧
      s1.pcbs.map unlinked = sample_sim.pcbs.map unlinked ++
        [{ init_pcb with pid := 13, parent := some 2 }, { init_pcb with pid := 14, parent := some 3 }] ∧
      s1.pcbs.map PCB.pid = sample_sim.pcbs.map PCB.pid ++ [13, 14] ∧
      (12 + 2 < 65536 → s1.pcbs.map PCB.pid = sample_sim.pcbs.map PCB.pid ++ [13, 14]) ∧
      s1.partitions = sample_sim.partitions :=
  fork_continues_in_child 0 sample_env [⟨"FORK", 4, "", 2⟩, ⟨"FORK", 3, "", 2⟩]
    [⟨"CPU", 5, "", -1⟩] 2 { init_pcb with pid := 12, parent := some 1 } sample_sim
    sample_sim_rooted rfl (by decide)

/-- Sequencing of outcomes is associative. -/
theorem and_then_assoc (o : Outcome) (f g : Sim → Option Nat → Outcome) :
    (o.and_then f).and_then g = o.and_then (fun s c => (f s c).and_then g) := by
  cases o <;> rfl

/-- The loop of `process_trace` over a trace in two parts: the second part starts in the
state, under the current context and with the syscall toggle the first part leaves. -/
theorem trace_loop_append (exec : String → Nat → Option Nat → Sim → Outcome) (env : Env)
    (is_init : Bool) (tbl : Nat) (a b : List TraceEvent) :
    ∀ (cur : Option Nat) (w : Bool) (s : Sim),
      trace_loop exec env is_init tbl (a ++ b) cur w s
        = (trace_loop exec env is_init tbl a cur w s).and_then (fun s1 c1 =>
            trace_loop exec env is_init tbl b c1
              (a.foldl (fun v e => if e.type = "SYSCALL" then !v else v) w) s1) := by
  induction a with
  | nil => intro cur w s; rfl
  | cons ev rest ih =>
    intro cur w s
    simp only [List.cons_append, trace_loop, and_then_assoc, List.foldl_cons]
    congr 1
    funext s1 c1
    exact ih c1 _ s1

/-- A `run_exec` call that passes the lookup and the allocation on a well-formed tree
reaches the loading of the trace, in a state whose store differs from the one at entry
only in the current record, which keeps its parent link. -/
theorem run_exec_enters (nested : List TraceEvent → Option Nat → Sim → Outcome) (env : Env)
    (program_name : String) (duration : Nat) (cur : Nat) (pcb : PCB) (s : Sim)
    (hr : rooted s.pcbs) (hpcb : s.pcbs[cur]? = some pcb)
    (hlookup : pcb.pid = 11 ∨ find_program_size env.external_files program_name ≠ -1)
    (halloc : find_partition s.partitions
      (if pcb.pid = 11 then 1 else find_program_size env.external_files program_name) ≠ none) :
    ∃ (s4 : Sim) (q : PCB),
      run_exec_with nested env program_name duration (some cur) s
        = load_and_run nested env program_name cur s4 ∧
      rooted s4.pcbs ∧ s4.pcbs = s.pcbs.set cur q ∧ identity_fields q = identity_fields pcb := by
  have hclt := (List.getElem?_eq_some_iff.mp hpcb).1
  by_cases h11 : pcb.pid = 11
  · rw [if_pos h11] at halloc
    obtain ⟨cand, hcand⟩ := Option.ne_none_iff_exists'.mp halloc
    obtain ⟨cp, hcp, _, _⟩ := find_partition_some _ _ _ hcand
    generalize hq : ({ pcb with partition_number := cp.partition_number,
                                program_name := "init",
                                program_size := toU16 1 } : PCB) = q
    have hr3 : rooted (s.pcbs.set cur q) :=
      rooted_after_set s.pcbs cur pcb q hr hpcb (by rw [← hq]) (by rw [← hq])
    have htbl : find_pcb_table (s.pcbs.set cur q) cur = some 0 :=
      find_pcb_table_rooted _ hr3 cur (by simpa using hclt)
    have hload := run_exec_load_initial nested env program_name duration cur pcb q 1
      cand s cp 0 hcp hq.symm htbl
    have hrun : run_exec_with nested env program_name duration (some cur) s
        = run_exec_load nested env program_name duration cur pcb true 1 cand s := by
      simp [run_exec_with, hpcb, h11, run_exec_allocate, hcand]
    rw [hrun, hload]
    exact ⟨_, q, rfl, hr3, rfl, by rw [← hq]; rfl⟩
  · rw [if_neg h11] at halloc
    have hne : find_program_size env.external_files program_name ≠ -1 := by
      rcases hlookup with h | h
      · exact absurd h h11
      · exact h
    obtain ⟨cand, hcand⟩ := Option.ne_none_iff_exists'.mp halloc
    obtain ⟨cp, hcp, _, _⟩ := find_partition_some _ _ _ hcand
    generalize hsz : find_program_size env.external_files program_name = sz at hne hcand
    generalize hq : ({ pcb with partition_number := cp.partition_number,
                                program_name := program_name,
                                program_size := toU16 sz } : PCB) = q
    have hr3 : rooted (s.pcbs.set cur q) :=
      rooted_after_set s.pcbs cur pcb q hr hpcb (by rw [← hq]) (by rw [← hq])
    have htbl : find_pcb_table (s.pcbs.set cur q) cur = some 0 :=
      find_pcb_table_rooted _ hr3 cur (by simpa using hclt)
    have hload := run_exec_load_later nested env program_name duration cur pcb q
      sz cand s cp 0 hcp hq.symm htbl
    have hrun : run_exec_with nested env program_name duration (some cur) s
        = run_exec_load nested env program_name duration cur pcb false sz cand s := by
      simp [run_exec_with, hpcb, h11, hsz, hne, run_exec_allocate, hcand]
    rw [hrun, hload, snapshot_then_tick_rooted _ (some cur) hr3]
    exact ⟨_, q, rfl, hr3, rfl, by rw [← hq]; rfl⟩

/-- In a well-formed tree the root has no parent and every other record has its parent
at a smaller address. -/
theorem rooted_parent (pcbs : List PCB) (hr : rooted pcbs) (cur : Nat) (pcb : PCB)
    (hpcb : pcbs[cur]? = some pcb) :
    pcb.parent ≠ some cur ∧ (cur = 0 → pcb.parent = none) := by
  by_cases h0 : cur = 0
  · subst h0
    obtain ⟨r, hr0, hrp⟩ := hr.2.1
    rw [hpcb] at hr0
    cases hr0
    exact ⟨by rw [hrp]; simp, fun _ => hrp⟩
  · obtain ⟨j, hj, hp⟩ := hr.2.2 cur pcb (Nat.pos_of_ne_zero h0) hpcb
    refine ⟨?_, fun h => absurd h h0⟩
    rw [hp]
    intro h
    cases h
    omega

/-- The record at an address keeps its identity fields in every store whose sequence of
identity fields extends the one of the given store. -/
theorem identity_of_prefix (a b : List PCB) (cur : Nat) (q : PCB) (hq : a[cur]? = some q)
    (h : a.map identity_fields <+: b.map identity_fields) :
    ∃ p : PCB, b[cur]? = some p ∧ identity_fields p = identity_fields q := by
  have hlt := (List.getElem?_eq_some_iff.mp hq).1
  obtain ⟨t, ht⟩ := h
  have h1 : (b.map identity_fields)[cur]? = some (identity_fields q) := by
    rw [← ht, List.getElem?_append_left (by simpa using hlt), List.getElem?_map, hq]
    rfl
  rw [List.getElem?_map] at h1
  cases hb : b[cur]? with
  | none => rw [hb] at h1; cases h1
  | some p =>
    rw [hb] at h1
    exact ⟨p, rfl, by simpa using h1⟩

/-- When the nested trace of a `run_exec` call that passed the lookup and the allocation
returns, the call returns with the parent link the current record had at entry. -/
theorem run_exec_returns_parent (fuel : Nat) (env : Env) (program_name : String)
    (duration : Nat) (cur : Nat) (pcb : PCB) (s : Sim)
    (hr : rooted s.pcbs) (hpcb : s.pcbs[cur]? = some pcb)
    (hlookup : pcb.pid = 11 ∨ find_program_size env.external_files program_name ≠ -1)
    (halloc : find_partition s.partitions
      (if pcb.pid = 11 then 1 else find_program_size env.external_files program_name) ≠ none) :
    ∃ s4 : Sim, rooted s4.pcbs ∧
      ∀ (trace : List TraceEvent), env.files (trace_path program_name) = some trace →
        ∀ (s5 : Sim) (c5 : Option Nat),
          process_trace fuel env trace (some cur) s4 = .done s5 c5 →
          run_exec fuel env program_name duration (some cur) s = .done s5 pcb.parent := by
  have hclt := (List.getElem?_eq_some_iff.mp hpcb).1
  obtain ⟨s4, q, hrun, hr4, hp4, hid⟩ :=
    run_exec_enters (process_trace fuel env) env program_name duration cur pcb s hr hpcb
      hlookup halloc
  refine ⟨s4, hr4, ?_⟩
  intro trace hfile s5 c5 hdone
  have hq : s4.pcbs[cur]? = some q := by
    rw [hp4, List.getElem?_set]
    simp [hclt]
  have hst := process_trace_stable rooted_stable env fuel trace (some cur) s4
  rw [hdone] at hst
  obtain ⟨p, hp, hpid⟩ := identity_of_prefix s4.pcbs s5.pcbs cur q hq (hst hr4).2
  have hpar : p.parent = pcb.parent := by
    have := hpid.trans hid
    simp only [identity_fields, Prod.mk.injEq] at this
    exact this.2.1
  unfold run_exec
  rw [hrun]
  simp only [load_and_run, load_trace, hfile, hdone, Outcome.and_then, exec_return, hp, hpar]

/-- C20. Current context after a successful exec: for every `run_exec` call on a
well-formed tree that passes the lookup and the allocation with current record `pcb` at
address `cur`, (1) that record's parent link is never `cur` itself and is none when the
record is the root; (2) whenever the call returns, the handle it leaves is that parent
link; (3) it does return, with that handle, whenever the trace file exists and the nested
trace returns, whatever the nested trace did; (4) in a trace of `process_trace` entered
under `cur`, an EXEC event of that program that is preceded by no FORK and no EXEC event
is reached under `cur`, and when its `run_exec` call returns the events after it are
processed under the parent link of `pcb`, never under `cur`. -/
theorem exec_exit_handle (fuel : Nat) (env : Env) (program_name : String)
    (duration : Nat) (cur : Nat) (pcb : PCB) (s : Sim)
    (hr : rooted s.pcbs) (hpcb : s.pcbs[cur]? = some pcb)
    (hlookup : pcb.pid = 11 ∨ find_program_size env.external_files program_name ≠ -1)
    (halloc : find_partition s.partitions
      (if pcb.pid = 11 then 1 else find_program_size env.external_files program_name) ≠ none) :
    (pcb.parent ≠ some cur ∧ (cur = 0 → pcb.parent = none)) ∧
    (∀ (s1 : Sim) (c1 : Option Nat),
      run_exec fuel env program_name duration (some cur) s = .done s1 c1 → c1 = pcb.parent) ∧
    (∃ s4 : Sim, rooted s4.pcbs ∧
      ∀ (trace : List TraceEvent), env.files (trace_path program_name) = some trace →
        ∀ (s5 : Sim) (c5 : Option Nat),
          process_trace fuel env trace (some cur) s4 = .done s5 c5 →
          run_exec fuel env program_name duration (some cur) s = .done s5 pcb.parent) ∧
    (∀ (pre rest : List TraceEvent) (ev : TraceEvent), ev.type = "EXEC" →
      ev.program_name = program_name →
      (∀ e ∈ pre, e.type ≠ "FORK" ∧ e.type ≠ "EXEC") →
      ∃ s1 : Sim, s1.pcbs = s.pcbs ∧ s1.partitions = s.partitions ∧
        ∀ (s2 : Sim) (c2 : Option Nat),
          run_exec fuel env program_name ev.duration (some cur) s1 = .done s2 c2 →
          process_trace (fuel + 1) env (pre ++ ev :: rest) (some cur) s
            = trace_loop (run_exec fuel env) env (decide (pcb.pid = 10)) 0 rest pcb.parent
                (pre.foldl (fun v e => if e.type = "SYSCALL" then !v else v) false) s2) := by
  have hclt := (List.getElem?_eq_some_iff.mp hpcb).1
  refine ⟨rooted_parent s.pcbs hr cur pcb hpcb, ?_,
    run_exec_returns_parent fuel env program_name duration cur pcb s hr hpcb hlookup halloc, ?_⟩
  · intro s1 c1 h
    rcases run_exec_done fuel env _ _ cur pcb _ s1 c1 hpcb h with
      ⟨h11, hm, _, _⟩ | ⟨hn, _, _⟩ | ⟨hc, _⟩
    · rcases hlookup with h | h
      · exact absurd h h11
      · exact absurd hm h
    · exact absurd hn halloc
    · exact hc
  · intro pre rest ev hev hname hquiet
    obtain ⟨t, hl, hpt, hqt⟩ := quiet_loop (run_exec fuel env) env (decide (pcb.pid = 10)) pre
      hquiet (some cur) false s hr
    have hf := (steps_frame env ev false t).2.2.2.2
    generalize hs1 : (if decide (pcb.pid = 10) = true then t else exec_entry_steps env ev t)
      = s1
    have hp1 : s1.pcbs = s.pcbs := by
      rw [← hs1]
      split
      · exact hpt
      · exact hf.1.trans hpt
    have hq1 : s1.partitions = s.partitions := by
      rw [← hs1]
      split
      · exact hqt
      · exact hf.2.trans hqt
    refine ⟨s1, hp1, hq1, ?_⟩
    intro s2 c2 hdone
    have hc2 : c2 = pcb.parent := by
      rcases run_exec_done fuel env _ _ cur pcb s1 s2 c2 (by rw [hp1]; exact hpcb) hdone with
        ⟨h11, hm, _, _⟩ | ⟨hn, _, _⟩ | ⟨hc, _⟩
      · rcases hlookup with h | h
        · exact absurd h h11
        · exact absurd hm h
      · rw [hq1] at hn
        exact absurd hn halloc
      · exact hc
    subst hc2
    have hw : ∀ v : Bool, (if ev.type = "SYSCALL" then !v else v) = v := by
      intro v
      rw [hev]
      exact if_neg (by decide)
    have hevent : process_event (run_exec fuel env) env (decide (pcb.pid = 10)) 0 ev (some cur)
        (pre.foldl (fun v e => if e.type = "SYSCALL" then !v else v) false) t
        = .done s2 pcb.parent := by
      rw [process_event_exec _ _ _ _ _ _ _ _ hev, hs1, hname]
      exact hdone
    have hloop : process_trace (fuel + 1) env (pre ++ ev :: rest) (some cur) s
        = trace_loop (run_exec fuel env) env (decide (pcb.pid = 10)) 0 (pre ++ ev :: rest)
            (some cur) false s := by
      simp only [process_trace, process_trace_with, hpcb, find_pcb_table_rooted s.pcbs hr cur hclt]
      rfl
    rw [hloop, trace_loop_append, hl]
    simp only [Outcome.and_then, trace_loop, hevent, hw]

/-- The exec of "prog" under the root record of the sample state passes the lookup and
the allocation and returns: the handle it leaves is none, the parent link of the root. -/
theorem exec_exit_handle_witness :
    run_exec 1 sample_env "prog" 7 (some 0) sample_sim
      = .done (run_exec 1 sample_env "prog" 7 (some 0) sample_sim).sim none ∧
    (none : Option Nat) = ({ init_pcb with next := some 1 } : PCB).parent :=
  ⟨rfl, (exec_exit_handle 1 sample_env "prog" 7 0 { init_pcb with next := some 1 } sample_sim
    sample_sim_rooted rfl (Or.inr (by decide)) (by decide)).2.1 _ none rfl⟩

/-- Lines 98-153 of `run_exec` in terms of the run that stops at line 149: either that
run reaches line 149 with a loaded trace, and the call is the nested trace followed by
the return to the parent, or the call does not depend on the nested call at all. -/
theorem run_exec_load_split (nested : List TraceEvent → Option Nat → Sim → Outcome)
    (env : Env) (program_name : String) (duration : Nat) (cur : Nat) (pcb : PCB)
    (is_init : Bool) (program_size : Int) (cand : Nat) (s : Sim) :
    run_exec_load nested env program_name duration cur pcb is_init program_size cand s
      = match run_exec_load stop_at_entry env program_name duration cur pcb is_init
            program_size cand s, load_trace env program_name with
        | .halted s4 .fuel, .ok trace_events =>
          (nested trace_events (some cur) s4).and_then (exec_return cur)
        | _, _ =>
          run_exec_load stop_at_entry env program_name duration cur pcb is_init program_size
            cand s := by
  unfold run_exec_load
  cases hc : s.partitions[cand]? with
  | none => rfl
  | some cp =>
    simp only []
    split
    · rfl
    · rename_i tbl htbl
      cases is_init with
      | true =>
        simp only [if_true, Outcome.and_then]
        cases hl : load_trace env program_name with
        | error m => rfl
        | ok tr => rfl
      | false =>
        simp only [Bool.false_eq_true, if_false]
        cases hs : snapshot_then_tick _ tbl (some cur) with
        | halted s4 why =>
          have hw : why = .fault := by
            unfold snapshot_then_tick at hs
            split at hs
            · cases hs; rfl
            · cases hs
          subst hw
          rfl
        | done s4 c4 =>
          simp only [Outcome.and_then]
          cases hl : load_trace env program_name with
          | error m => rfl
          | ok tr => rfl

/-- The body of `run_exec` in terms of the run that stops at line 149: when that run
reaches line 149, the call is the nested trace followed by the return to the parent;
otherwise the call does not depend on the nested call. -/
theorem run_exec_with_split (nested : List TraceEvent → Option Nat → Sim → Outcome)
    (env : Env) (program_name : String) (duration : Nat) (cur : Nat) (s : Sim) :
    run_exec_with nested env program_name duration (some cur) s
      = match nested_entry env program_name duration (some cur) s with
        | some (trace_events, s4) =>
          (nested trace_events (some cur) s4).and_then (exec_return cur)
        | none => run_exec_with stop_at_entry env program_name duration (some cur) s := by
  have key : ∀ (pcb : PCB) (is_init : Bool) (sz : Int),
      run_exec_allocate nested env program_name duration cur pcb is_init sz s
        = match (match run_exec_allocate stop_at_entry env program_name duration cur pcb is_init
              sz s, load_trace env program_name with
            | .halted s4 .fuel, .ok trace_events => some (trace_events, s4)
            | _, _ => none) with
          | some (trace_events, s4) =>
            (nested trace_events (some cur) s4).and_then (exec_return cur)
          | none => run_exec_allocate stop_at_entry env program_name duration cur pcb is_init
              sz s := by
    intro pcb is_init sz
    unfold run_exec_allocate
    cases hf : find_partition s.partitions sz with
    | none => rfl
    | some cand =>
      simp only []
      rw [run_exec_load_split nested]
      split <;> simp_all
  unfold nested_entry
  simp only [run_exec_with]
  cases hp : s.pcbs[cur]? with
  | none => rfl
  | some pcb =>
    simp only []
    split
    · exact key pcb _ 1
    · split
      · rfl
      · exact key pcb _ _

/-- A snapshot and its tick leave the partition table alone. -/
theorem snapshot_then_tick_partitions (s : Sim) (tbl : Nat) (cur : Option Nat) :
    (snapshot_then_tick s tbl cur).sim.partitions = s.partitions := by
  unfold snapshot_then_tick
  cases h : save_system_status s s.current_time tbl with
  | none => rfl
  | some s1 =>
    obtain ⟨snap, rfl⟩ := save_system_status_eq s s1 _ _ h
    rfl

/-- The partition table in which the run of lines 98-153 that stops at line 149 ends:
the table at entry with the candidate marked. -/
theorem run_exec_load_partitions (env : Env) (program_name : String) (duration : Nat)
    (cur : Nat) (pcb : PCB) (is_init : Bool) (program_size : Int) (cand : Nat) (s : Sim)
    (cp : MemoryPartition) (hc : s.partitions[cand]? = some cp) :
    (run_exec_load stop_at_entry env program_name duration cur pcb is_init program_size
        cand s).sim.partitions
      = s.partitions.set cand { cp with code := program_name } := by
  have hf : (if is_init = true then s
      else exec_log_steps env program_name duration program_size cp s).partitions
      = s.partitions := by
    split
    · rfl
    · exact (exec_log_steps_frame _ _ _ _ _ _).1
  unfold run_exec_load
  simp only [hc]
  generalize (if is_init = true then s
      else exec_log_steps env program_name duration program_size cp s) = s1 at hf
  generalize hs3 : with_pcbs (mark_occupied s1 cand cp program_name)
      ((mark_occupied s1 cand cp program_name).pcbs.set cur _) = s3
  have h3 : s3.partitions = s.partitions.set cand { cp with code := program_name } := by
    rw [← hs3]
    show s1.partitions.set cand _ = _
    rw [hf]
  split
  · exact h3
  · rename_i tbl htbl
    have hs := snapshot_then_tick_partitions s3 tbl (some cur)
    rw [h3] at hs
    have hk : ∀ s4 : Sim, s4.partitions = s.partitions.set cand { cp with code := program_name } →
        (match load_trace env program_name with
          | .error m => Outcome.halted (say s4 m) .exit
          | .ok trace_events =>
            (stop_at_entry trace_events (some cur) s4).and_then fun s5 _ =>
              match s5.pcbs[cur]? with
              | none => .halted s5 .fault
              | some p => .done s5 p.parent).sim.partitions
          = s.partitions.set cand { cp with code := program_name } := by
      intro s4 h4
      cases hl : load_trace env program_name with
      | error m => exact h4
      | ok tr => exact h4
    cases is_init with
    | true => exact hk s3 h3
    | false =>
      simp only [Bool.false_eq_true, if_false]
      revert hs
      cases snapshot_then_tick s3 tbl (some cur) with
      | halted s4 why => exact fun h => h
      | done s4 c4 => exact fun h => hk s4 h

/-- Marking a free partition with a name other than "free" lowers the number of free
partitions by exactly one; marking it with the name "free" leaves the number as it is. -/
theorem free_count_mark (ps : List MemoryPartition) (name : String) :
    ∀ (cand : Nat) (cp : MemoryPartition), ps[cand]? = some cp → cp.code = "free" →
      free_count (ps.set cand { cp with code := name }) + (if name = "free" then 0 else 1)
        = free_count ps := by
  induction ps with
  | nil => intro cand cp h; simp at h
  | cons p rest ih =>
    intro cand cp h hf
    cases cand with
    | zero =>
      simp only [List.getElem?_cons_zero, Option.some.injEq] at h
      subst h
      by_cases hn : name = "free"
      · simp [free_count, List.countP_cons, hn, hf]
      · simp [free_count, List.countP_cons, hn, hf]
    | succ k =>
      simp only [List.getElem?_cons_succ] at h
      have := ih k cp h hf
      simp only [free_count, List.set_cons_succ, List.countP_cons] at this ⊢
      omega

/-- Marking a free partition with the name "free" leaves the table as it is. -/
theorem mark_free_same (ps : List MemoryPartition) (cand : Nat) (cp : MemoryPartition)
    (hc : ps[cand]? = some cp) (hf : cp.code = "free") :
    ps.set cand { cp with code := "free" } = ps := by
  have hcp : ({ cp with code := "free" } : MemoryPartition) = cp := by
    cases cp
    simp only [MemoryPartition.mk.injEq, true_and] at hf ⊢
    exact hf.symm
  rw [hcp]
  apply List.ext_getElem?
  intro i
  rw [List.getElem?_set]
  split
  · rename_i h
    subst h
    split
    · exact hc.symm
    · rename_i hlt
      rw [List.getElem?_eq_none (by omega)]
  · rfl

/-- The run of `run_exec` that stops at line 149, by the tests of lines 52-96: when they
fail the partition table is left alone and line 149 is not reached; when they pass the
table ends with the selected free partition marked. -/
theorem stop_run_partitions (env : Env) (program_name : String) (duration : Nat) (cur : Nat)
    (s : Sim) :
    (exec_passes env program_name (some cur) s = false ∧
      (run_exec_with stop_at_entry env program_name duration (some cur) s).sim.partitions
        = s.partitions ∧
      nested_entry env program_name duration (some cur) s = none) ∨
    (exec_passes env program_name (some cur) s = true ∧
      ∃ (cand : Nat) (cp : MemoryPartition), s.partitions[cand]? = some cp ∧
        cp.code = "free" ∧
        (run_exec_with stop_at_entry env program_name duration (some cur) s).sim.partitions
          = s.partitions.set cand { cp with code := program_name }) := by
  have key : ∀ (pcb : PCB) (is_init : Bool) (sz : Int) (cand : Nat),
      find_partition s.partitions sz = some cand →
      ∃ (cand : Nat) (cp : MemoryPartition), s.partitions[cand]? = some cp ∧ cp.code = "free" ∧
        (run_exec_allocate stop_at_entry env program_name duration cur pcb is_init sz
          s).sim.partitions = s.partitions.set cand { cp with code := program_name } := by
    intro pcb is_init sz cand hf
    obtain ⟨cp, hcp, hfree, _⟩ := find_partition_some _ _ _ hf
    refine ⟨cand, cp, hcp, hfree, ?_⟩
    simp only [run_exec_allocate, hf]
    exact run_exec_load_partitions env program_name duration cur pcb is_init sz cand s cp hcp
  unfold nested_entry exec_passes
  cases hp : s.pcbs[cur]? with
  | none =>
    left
    simp [run_exec_with, hp, Outcome.sim]
  | some pcb =>
    simp only [run_exec_with, hp]
    by_cases h11 : pcb.pid = 11
    · simp only [h11, decide_True, if_true, true_or, true_and]
      cases hf : find_partition s.partitions 1 with
      | none =>
        left
        simp [run_exec_allocate, hf, Outcome.sim, say]
      | some cand =>
        right
        refine ⟨by simp, ?_⟩
        exact key pcb true 1 cand hf
    · simp only [h11, decide_False, Bool.false_eq_true, if_false, false_or]
      by_cases hm : find_program_size env.external_files program_name = -1
      · left
        simp [hm, Outcome.sim, say]
      · simp only [hm, if_false]
        cases hf : find_partition s.partitions
            (find_program_size env.external_files program_name) with
        | none =>
          left
          simp [run_exec_allocate, hf, Outcome.sim, say]
        | some cand =>
          right
          refine ⟨by simp [hm], ?_⟩
          exact key pcb false _ cand hf

/-- An event other than EXEC leaves the partition table alone, whether it returns or
stops. -/
theorem process_event_partitions (exec : String → Nat → Option Nat → Sim → Outcome)
    (env : Env) (is_init : Bool) (tbl : Nat) (ev : TraceEvent) (cur : Option Nat) (w : Bool)
    (s : Sim) (h : ev.type ≠ "EXEC") :
    (process_event exec env is_init tbl ev cur w s).sim.partitions = s.partitions := by
  have hf := steps_frame env ev w s
  unfold process_event
  split
  · exact hf.1.2
  · split
    · exact (snapshot_then_tick_partitions _ _ _).trans hf.2.1.2
    · split
      · exact (snapshot_then_tick_partitions _ _ _).trans hf.2.2.1.2
      · split
        · have h1 : (if is_init = true then s else fork_steps env ev s).partitions
              = s.partitions := by
            split
            · rfl
            · exact hf.2.2.2.1.2
          simp only []
          generalize (if is_init = true then s else fork_steps env ev s) = s1 at h1
          split
          · exact h1
          · exact (snapshot_then_tick_partitions _ _ _).trans h1
        · rfl

/-- The return to the parent after the nested trace does not change the state. -/
theorem and_then_exec_return_sim (o : Outcome) (cur : Nat) :
    (o.and_then (exec_return cur)).sim = o.sim := by
  cases o with
  | halted s why => rfl
  | done s c =>
    simp only [Outcome.and_then, exec_return]
    split <;> rfl

/-- When a call enters the nested trace, the run that stops at line 149 stops there, and
the trace is the one `load_trace` returns. -/
theorem nested_entry_some (env : Env) (program_name : String) (duration : Nat)
    (cur : Option Nat) (s s4 : Sim) (tr : List TraceEvent)
    (h : nested_entry env program_name duration cur s = some (tr, s4)) :
    run_exec_with stop_at_entry env program_name duration cur s = .halted s4 .fuel ∧
    load_trace env program_name = .ok tr := by
  unfold nested_entry at h
  split at h
  · rename_i s5 tr5 h1 h2
    cases h
    exact ⟨h1, h2⟩
  · cases h

/-- The calls that consume a partition: those that passed with a name other than
"free". -/
theorem consuming_cons (c : ExecCall) (rest : List ExecCall) :
    ((c :: rest).filter consumes).length
      = (if c.passed = true ∧ c.program_name ≠ "free" then 1 else 0) +
        (rest.filter consumes).length := by
  by_cases h : c.passed = true ∧ c.program_name ≠ "free"
  · rw [List.filter_cons_of_pos (by simpa [consumes] using h), if_pos h, List.length_cons]
    omega
  · rw [List.filter_cons_of_neg (by simpa [consumes] using h), if_neg h]
    omega

/-- One call of `run_exec`: the free partitions at the end and the consuming calls among
the calls it gives rise to add up to the free partitions at the call, provided this holds
for the nested trace. -/
theorem exec_call_count (nested : List TraceEvent → Option Nat → Sim → Outcome)
    (deeper : List TraceEvent → Option Nat → Sim → List ExecCall)
    (hn : ∀ tr c s, free_count (nested tr c s).sim.partitions +
      ((deeper tr c s).filter consumes).length
        = free_count s.partitions)
    (env : Env) (program_name : String) (duration : Nat) (cur : Option Nat) (s : Sim) :
    free_count (run_exec_with nested env program_name duration cur s).sim.partitions +
      ((exec_calls_at deeper env program_name duration cur s).filter
        consumes).length
      = free_count s.partitions := by
  cases cur with
  | none =>
    simp [exec_calls_at, nested_entry, run_exec_with, exec_passes, Outcome.sim, consumes]
  | some c =>
    rw [run_exec_with_split nested, exec_calls_at, consuming_cons]
    simp only []
    rcases stop_run_partitions env program_name duration c s with
      ⟨hpass, hpart, hnone⟩ | ⟨hpass, cand, cp, hcp, hfree, hpart⟩
    · rw [hnone, hpass, hpart]
      simp
    · have hm := free_count_mark s.partitions program_name cand cp hcp hfree
      rw [← hpart] at hm
      rw [hpass]
      cases he : nested_entry env program_name duration (some c) s with
      | none =>
        simp only [List.filter_nil, List.length_nil, true_and]
        by_cases hname : program_name = "free"
        · simp only [hname, if_true, ne_eq, not_true_eq_false, if_false] at hm ⊢
          omega
        · simp only [hname, if_false, ne_eq, not_false_eq_true, if_true] at hm ⊢
          omega
      | some p =>
        obtain ⟨tr, s4⟩ := p
        have hstop := (nested_entry_some _ _ _ _ _ _ _ he).1
        rw [hstop] at hm
        have hnest := hn tr (some c) s4
        simp only [and_then_exec_return_sim, true_and]
        by_cases hname : program_name = "free"
        · simp only [hname, if_true, ne_eq, not_true_eq_false, if_false] at hm ⊢
          simp only [Outcome.sim] at hm
          omega
        · simp only [hname, if_false, ne_eq, not_false_eq_true, if_true] at hm ⊢
          simp only [Outcome.sim] at hm
          omega

/-- The loop of `process_trace`: the free partitions at the end and the consuming calls
made add up to the free partitions at the start, provided this holds for `run_exec`. -/
theorem trace_loop_count (exec : String → Nat → Option Nat → Sim → Outcome)
    (calls : String → Nat → Option Nat → Sim → List ExecCall)
    (he : ∀ n d c s, free_count (exec n d c s).sim.partitions +
      ((calls n d c s).filter consumes).length = free_count s.partitions)
    (env : Env) (is_init : Bool) (tbl : Nat) (trace : List TraceEvent) :
    ∀ (cur : Option Nat) (w : Bool) (s : Sim),
      free_count (trace_loop exec env is_init tbl trace cur w s).sim.partitions +
        ((loop_exec_calls exec calls env is_init tbl trace cur w s).filter consumes).length
        = free_count s.partitions := by
  induction trace with
  | nil => intro cur w s; rfl
  | cons ev rest ih =>
    intro cur w s
    have hev : free_count (process_event exec env is_init tbl ev cur w s).sim.partitions +
        ((if ev.type = "EXEC" then
            calls ev.program_name ev.duration cur
              (if is_init = true then s else exec_entry_steps env ev s)
          else []).filter consumes).length = free_count s.partitions := by
      by_cases hx : ev.type = "EXEC"
      · rw [process_event_exec exec env is_init tbl ev cur w s hx, if_pos hx, he]
        congr 1
        split
        · rfl
        · exact (steps_frame env ev w s).2.2.2.2.2
      · rw [process_event_partitions exec env is_init tbl ev cur w s hx, if_neg hx]
        rfl
    simp only [trace_loop, loop_exec_calls, List.filter_append, List.length_append]
    revert hev
    cases process_event exec env is_init tbl ev cur w s with
    | halted s1 why =>
      intro hev
      simp only [Outcome.and_then, List.filter_nil, List.length_nil]
      exact hev
    | done s1 c1 =>
      intro hev
      have := ih c1 (if ev.type = "SYSCALL" then !w else w) s1
      simp only [Outcome.and_then]
      change free_count s1.partitions + _ = _ at hev
      omega

/-- Free partitions and consuming calls of a whole run of `process_trace`: the number of
free partitions at the end plus the number of calls that passed with a name other than
"free" is the number of free partitions at the start. -/
theorem process_trace_count (env : Env) (fuel : Nat) :
    ∀ (trace : List TraceEvent) (cur : Option Nat) (s : Sim),
      free_count (process_trace fuel env trace cur s).sim.partitions +
        ((trace_exec_calls fuel env trace cur s).filter consumes).length
        = free_count s.partitions := by
  induction fuel with
  | zero => intro trace cur s; rfl
  | succ n ih =>
    intro trace cur s
    simp only [process_trace, process_trace_with, trace_exec_calls]
    cases cur with
    | none => rfl
    | some c =>
      simp only []
      cases s.pcbs[c]? with
      | none => rfl
      | some pcb =>
        simp only []
        cases find_pcb_table s.pcbs c with
        | none => rfl
        | some tbl =>
          exact trace_loop_count _ _
            (fun nm d c1 s1 => exec_call_count _ _ ih env nm d c1 s1) env _ tbl trace _ _ s

/-- Free partitions and consuming calls of one call of `run_exec`. -/
theorem run_exec_count (env : Env) (fuel : Nat) (program_name : String) (duration : Nat)
    (cur : Option Nat) (s : Sim) :
    free_count (run_exec fuel env program_name duration cur s).sim.partitions +
      ((exec_calls_at (trace_exec_calls fuel env) env program_name duration cur s).filter
        consumes).length = free_count s.partitions :=
  exec_call_count _ _ (process_trace_count env fuel) env program_name duration cur s

/-- Free partitions and consuming calls of a run of `main`: they add up to 6. -/
theorem main_count (fuel : Nat) (env : Env) (trace_file : String) :
    free_count (main fuel env trace_file).sim.partitions +
      ((main_exec_calls fuel env trace_file).filter consumes).length = 6 := by
  have h := run_exec_count env fuel trace_file 0 (some 1) main_exec_entry
  rw [← main_eq] at h
  have hc : main_exec_calls fuel env trace_file
      = exec_calls_at (trace_exec_calls fuel env) env trace_file 0 (some 1) main_exec_entry := by
    have hs : save_system_status (with_pcbs initial_sim [{ init_pcb with next := some 1 },
          { init_pcb with pid := 11, parent := some 0 }])
        (with_pcbs initial_sim [{ init_pcb with next := some 1 },
          { init_pcb with pid := 11, parent := some 0 }]).current_time 0
        = some main_exec_entry := by decide
    unfold main_exec_calls
    rw [main_fork]
    simp only [hs]
  rw [hc, h]
  decide

/-- C21. Free-partition count. (1) The marking step of line 123, applied to a free
partition with a program name other than "free", lowers the number of partitions whose
occupant is "free" by exactly one, and so does every `run_exec` call that passes the
lookup and the allocation with such a name, in the state in which it reaches line 149 or
stops before. (2) No operation increases that number: it is never larger after
`process_trace`, `run_exec` or `main`, whether they return or stop, than before; more
precisely it has dropped by the number of calls that passed with a name other than
"free". (3) Consequently, in a run of `main` in which no call that passes is for a
program named "free", the number of `run_exec` calls that pass, the one issued by `main`
included, is at most 6: together with the partitions still free it is exactly 6. (4) The
marking step with the name "free" leaves the table as it is, and so does a `run_exec` call
for a program named "free": the selected partition is still free. -/
theorem free_partition_count (fuel : Nat) (env : Env) (trace_file : String)
    (hnames : ∀ call ∈ main_exec_calls fuel env trace_file,
      call.passed = true → call.program_name ≠ "free") :
    (∀ (s : Sim) (cand : Nat) (cp : MemoryPartition) (name : String),
      s.partitions[cand]? = some cp → cp.code = "free" → name ≠ "free" →
      free_count (mark_occupied s cand cp name).partitions + 1 = free_count s.partitions) ∧
    (∀ (env1 : Env) (name : String) (d cur : Nat) (s : Sim),
      exec_passes env1 name (some cur) s = true → name ≠ "free" →
      free_count (run_exec_with stop_at_entry env1 name d (some cur) s).sim.partitions + 1
        = free_count s.partitions) ∧
    (∀ (f : Nat) (env1 : Env) (tr : List TraceEvent) (cur : Option Nat) (s : Sim),
      free_count (process_trace f env1 tr cur s).sim.partitions +
          ((trace_exec_calls f env1 tr cur s).filter consumes).length
        = free_count s.partitions ∧
      free_count (process_trace f env1 tr cur s).sim.partitions ≤ free_count s.partitions) ∧
    (∀ (f : Nat) (env1 : Env) (name : String) (d : Nat) (cur : Option Nat) (s : Sim),
      free_count (run_exec f env1 name d cur s).sim.partitions +
          ((exec_calls_at (trace_exec_calls f env1) env1 name d cur s).filter consumes).length
        = free_count s.partitions ∧
      free_count (run_exec f env1 name d cur s).sim.partitions ≤ free_count s.partitions) ∧
    free_count (main fuel env trace_file).sim.partitions ≤ free_count initial_partitions ∧
    free_count initial_partitions = 6 ∧
    free_count (main fuel env trace_file).sim.partitions +
        ((main_exec_calls fuel env trace_file).filter ExecCall.passed).length = 6 ∧
    ((main_exec_calls fuel env trace_file).filter ExecCall.passed).length ≤ 6 ∧
    (∀ (s : Sim) (cand : Nat) (cp : MemoryPartition),
      s.partitions[cand]? = some cp → cp.code = "free" →
      (mark_occupied s cand cp "free").partitions = s.partitions) ∧
    (∀ (env1 : Env) (d cur : Nat) (s : Sim),
      (run_exec_with stop_at_entry env1 "free" d (some cur) s).sim.partitions
        = s.partitions) := by
  have hmain := main_count fuel env trace_file
  have hfilter : (main_exec_calls fuel env trace_file).filter ExecCall.passed
      = (main_exec_calls fuel env trace_file).filter consumes := by
    apply List.filter_congr
    intro c hc
    cases hp : c.passed with
    | false => simp [consumes, hp]
    | true => simp [consumes, hp, hnames c hc hp]
  refine ⟨?_, ?_, ?_, ?_, ?_, by decide, ?_, ?_, ?_, ?_⟩
  · intro s cand cp name hc hf hn
    have := free_count_mark s.partitions name cand cp hc hf
    rw [if_neg hn] at this
    exact this
  · intro env1 name d cur s hpass hn
    rcases stop_run_partitions env1 name d cur s with
      ⟨hno, _, _⟩ | ⟨_, cand, cp, hcp, hfree, hpart⟩
    · rw [hpass] at hno
      cases hno
    · have := free_count_mark s.partitions name cand cp hcp hfree
      rw [if_neg hn, ← hpart] at this
      exact this
  · intro f env1 tr cur s
    have := process_trace_count env1 f tr cur s
    exact ⟨this, by omega⟩
  · intro f env1 name d cur s
    have := run_exec_count env1 f name d cur s
    exact ⟨this, by omega⟩
  · have h6 : free_count initial_partitions = 6 := by decide
    omega
  · rw [hfilter]
    exact hmain
  · rw [hfilter]
    omega
  · intro s cand cp hc hf
    exact mark_free_same s.partitions cand cp hc hf
  · intro env1 d cur s
    rcases stop_run_partitions env1 "free" d cur s with
      ⟨_, hpart, _⟩ | ⟨_, cand, cp, hcp, hfree, hpart⟩
    · exact hpart
    · rw [hpart]
      exact mark_free_same s.partitions cand cp hcp hfree

/-- The run of `main` on "root.txt" in the sample environment makes two calls of
`run_exec`, for "root.txt" under pid 11 and for "prog" under pid 12; both pass, and four
partitions are free at the end. -/
theorem free_partition_count_witness :
    main_exec_calls 3 sample_env "root.txt"
      = [⟨"root.txt", some 11, true, true⟩, ⟨"prog", some 12, true, true⟩] ∧
    free_count (main 3 sample_env "root.txt").sim.partitions = 4 ∧
    free_count (main 3 sample_env "root.txt").sim.partitions +
        ((main_exec_calls 3 sample_env "root.txt").filter ExecCall.passed).length = 6 ∧
    ((main_exec_calls 3 sample_env "root.txt").filter ExecCall.passed).length ≤ 6 :=
  ⟨by decide, by decide,
    (free_partition_count 3 sample_env "root.txt" (by decide)).2.2.2.2.2.2.1,
    (free_partition_count 3 sample_env "root.txt" (by decide)).2.2.2.2.2.2.2.1⟩

/-- Lines 98-153 of `run_exec` stop with `Halt.fuel` only through the nested call, hence
only after the trace has been loaded. -/
theorem run_exec_load_fuel (nested : List TraceEvent → Option Nat → Sim → Outcome)
    (env : Env) (program_name : String) (duration : Nat) (cur : Nat) (pcb : PCB)
    (is_init : Bool) (program_size : Int) (cand : Nat) (s s1 : Sim)
    (h : run_exec_load nested env program_name duration cur pcb is_init program_size cand s
      = .halted s1 .fuel) :
    ∃ tr, load_trace env program_name = .ok tr := by
  unfold run_exec_load at h
  split at h
  · cases h
  · simp only [] at h
    split at h
    · cases h
    · rename_i tbl htbl
      cases hl : load_trace env program_name with
      | ok tr => exact ⟨tr, rfl⟩
      | error m =>
        exfalso
        simp only [hl] at h
        cases is_init with
        | true =>
          simp only [if_true, Outcome.and_then] at h
          cases h
        | false =>
          simp only [Bool.false_eq_true, if_false] at h
          revert h
          cases hs : snapshot_then_tick _ tbl (some cur) with
          | halted s4 why =>
            unfold snapshot_then_tick at hs
            split at hs
            · cases hs
              intro h
              cases h
            · cases hs
          | done s4 c4 =>
            intro h
            cases h

/-- The run of `run_exec` that stops at line 149 stops with `Halt.fuel` only when it
enters the nested trace. -/
theorem stop_run_fuel (env : Env) (program_name : String) (duration : Nat)
    (cur : Option Nat) (s s1 : Sim)
    (h : run_exec_with stop_at_entry env program_name duration cur s = .halted s1 .fuel) :
    ∃ tr, nested_entry env program_name duration cur s = some (tr, s1) := by
  have hl : ∃ tr, load_trace env program_name = .ok tr := by
    have key : ∀ (c : Nat) (pcb : PCB) (ii : Bool) (sz : Int),
        run_exec_allocate stop_at_entry env program_name duration c pcb ii sz s
          = .halted s1 .fuel → ∃ tr, load_trace env program_name = .ok tr := by
      intro c pcb ii sz hk
      unfold run_exec_allocate at hk
      split at hk
      · cases hk
      · exact run_exec_load_fuel _ _ _ _ _ _ _ _ _ _ _ hk
    have h0 := h
    unfold run_exec_with at h0
    split at h0
    · cases h0
    · split at h0
      · cases h0
      · simp only [] at h0
        split at h0
        · exact key _ _ _ _ h0
        · split at h0
          · cases h0
          · exact key _ _ _ _ h0
  obtain ⟨tr, htr⟩ := hl
  exact ⟨tr, by simp only [nested_entry, h, htr]⟩

/-- A call that enters the nested trace passed the lookup and the allocation, and the
nested trace starts with the selected partition marked. -/
theorem nested_entry_free_count (env : Env) (program_name : String) (duration : Nat)
    (cur : Nat) (s s4 : Sim) (tr : List TraceEvent)
    (h : nested_entry env program_name duration (some cur) s = some (tr, s4)) :
    exec_passes env program_name (some cur) s = true ∧
    free_count s4.partitions + (if program_name = "free" then 0 else 1)
      = free_count s.partitions := by
  have hstop := (nested_entry_some _ _ _ _ _ _ _ h).1
  rcases stop_run_partitions env program_name duration cur s with
    ⟨_, _, hnone⟩ | ⟨hpass, cand, cp, hcp, hfree, hpart⟩
  · rw [hnone] at h
    cases h
  · refine ⟨hpass, ?_⟩
    have hm := free_count_mark s.partitions program_name cand cp hcp hfree
    rw [← hpart, hstop] at hm
    exact hm

/-- An event other than EXEC is processed without any call of `run_exec`. -/
theorem process_event_congr (exec1 exec2 : String → Nat → Option Nat → Sim → Outcome)
    (env : Env) (is_init : Bool) (tbl : Nat) (ev : TraceEvent) (cur : Option Nat) (w : Bool)
    (s : Sim) (h : ev.type ≠ "EXEC") :
    process_event exec1 env is_init tbl ev cur w s
      = process_event exec2 env is_init tbl ev cur w s := by
  unfold process_event
  simp only [h, if_false]

/-- An event other than EXEC never stops with `Halt.fuel`. -/
theorem process_event_fuel (exec : String → Nat → Option Nat → Sim → Outcome)
    (env : Env) (is_init : Bool) (tbl : Nat) (ev : TraceEvent) (cur : Option Nat) (w : Bool)
    (s s1 : Sim) (h : ev.type ≠ "EXEC") :
    process_event exec env is_init tbl ev cur w s ≠ .halted s1 .fuel := by
  have hs : ∀ (t : Sim) (c : Option Nat), snapshot_then_tick t tbl c ≠ .halted s1 .fuel := by
    intro t c hk
    unfold snapshot_then_tick at hk
    split at hk <;> cases hk
  unfold process_event
  simp only [h, if_false]
  split
  · intro hk; cases hk
  · split
    · exact hs _ _
    · split
      · exact hs _ _
      · split
        · split
          · intro hk; cases hk
          · exact hs _ _
        · intro hk; cases hk

/-- One call of `run_exec` for a program not named "free", from a state with at most `n`
free partitions: the nested trace starts with fewer than `n` free partitions, so if
depth `n` is enough for such traces, depth `n` is enough for the call. -/
theorem run_exec_fuel_step (env : Env) (hloader : loader_without_free env) (n : Nat)
    (hnest : ∀ tr, no_free_exec tr → ∀ (c : Option Nat) (s4 : Sim),
      free_count s4.partitions + 1 ≤ n →
      process_trace (n + 1) env tr c s4 = process_trace n env tr c s4 ∧
      ∀ s1, process_trace n env tr c s4 ≠ .halted s1 .fuel)
    (program_name : String) (hname : program_name ≠ "free") (duration : Nat)
    (cur : Option Nat) (s : Sim) (hfree : free_count s.partitions ≤ n) :
    run_exec (n + 1) env program_name duration cur s
      = run_exec n env program_name duration cur s ∧
    ∀ s1, run_exec n env program_name duration cur s ≠ .halted s1 .fuel := by
  cases cur with
  | none =>
    refine ⟨rfl, ?_⟩
    intro s1 h
    cases h
  | some c =>
    unfold run_exec
    rw [run_exec_with_split (process_trace (n + 1) env),
      run_exec_with_split (process_trace n env)]
    cases he : nested_entry env program_name duration (some c) s with
    | none =>
      refine ⟨rfl, ?_⟩
      intro s1 h
      obtain ⟨tr, htr⟩ := stop_run_fuel _ _ _ _ _ _ h
      rw [he] at htr
      cases htr
    | some p =>
      obtain ⟨tr, s4⟩ := p
      have hcount := (nested_entry_free_count _ _ _ _ _ _ _ he).2
      rw [if_neg hname] at hcount
      have hload := (nested_entry_some _ _ _ _ _ _ _ he).2
      have htr : no_free_exec tr := by
        apply hloader (trace_path program_name)
        unfold load_trace at hload
        split at hload
        · rename_i events hev
          cases hload
          exact hev
        · cases hload
      obtain ⟨heq, hnf⟩ := hnest tr htr (some c) s4 (by omega)
      simp only []
      rw [heq]
      refine ⟨rfl, ?_⟩
      intro s1 h
      revert h hnf
      cases process_trace n env tr (some c) s4 with
      | halted s5 why =>
        intro hnf h
        simp only [Outcome.and_then] at h
        exact hnf s1 h
      | done s5 c5 =>
        intro _ h
        simp only [Outcome.and_then, exec_return] at h
        split at h <;> cases h

/-- The loop of `process_trace` over a trace without EXEC of "free", from a state with at
most `n` free partitions: if depth `n` is enough for the calls of `run_exec`, then the
loop does the same with calls of depth `n + 1` and never runs out of depth. -/
theorem trace_loop_fuel_step (env : Env) (n : Nat)
    (hexec : ∀ (program_name : String), program_name ≠ "free" → ∀ (duration : Nat)
      (cur : Option Nat) (s : Sim), free_count s.partitions ≤ n →
      run_exec (n + 1) env program_name duration cur s
        = run_exec n env program_name duration cur s ∧
      ∀ s1, run_exec n env program_name duration cur s ≠ .halted s1 .fuel)
    (is_init : Bool) (tbl : Nat) (trace : List TraceEvent) :
    no_free_exec trace → ∀ (cur : Option Nat) (w : Bool) (s : Sim),
      free_count s.partitions ≤ n →
      trace_loop (run_exec (n + 1) env) env is_init tbl trace cur w s
        = trace_loop (run_exec n env) env is_init tbl trace cur w s ∧
      ∀ s1, trace_loop (run_exec n env) env is_init tbl trace cur w s ≠ .halted s1 .fuel := by
  induction trace with
  | nil =>
    intro _ cur w s _
    refine ⟨rfl, ?_⟩
    intro s1 h
    cases h
  | cons ev rest ih =>
    intro htr cur w s hfree
    have hrest : no_free_exec rest := fun e he => htr e (List.mem_cons_of_mem _ he)
    have hev : process_event (run_exec (n + 1) env) env is_init tbl ev cur w s
          = process_event (run_exec n env) env is_init tbl ev cur w s ∧
        (∀ s1, process_event (run_exec n env) env is_init tbl ev cur w s ≠ .halted s1 .fuel) ∧
        free_count (process_event (run_exec n env) env is_init tbl ev cur w s).sim.partitions
          ≤ n := by
      by_cases hx : ev.type = "EXEC"
      · have hname := htr ev (List.mem_cons_self _ _) hx
        have hp : free_count (if is_init = true then s
            else exec_entry_steps env ev s).partitions ≤ n := by
          split
          · exact hfree
          · rw [(steps_frame env ev w s).2.2.2.2.2]
            exact hfree
        rw [process_event_exec _ env is_init tbl ev cur w s hx,
          process_event_exec _ env is_init tbl ev cur w s hx]
        obtain ⟨h1, h2⟩ := hexec ev.program_name hname ev.duration cur _ hp
        refine ⟨h1, h2, ?_⟩
        have := run_exec_count env n ev.program_name ev.duration cur
          (if is_init = true then s else exec_entry_steps env ev s)
        omega
      · refine ⟨process_event_congr _ _ env is_init tbl ev cur w s hx,
          fun s1 => process_event_fuel _ env is_init tbl ev cur w s s1 hx, ?_⟩
        rw [process_event_partitions _ env is_init tbl ev cur w s hx]
        exact hfree
    obtain ⟨h1, h2, h3⟩ := hev
    simp only [trace_loop]
    rw [h1]
    revert h2 h3
    cases process_event (run_exec n env) env is_init tbl ev cur w s with
    | halted s2 why =>
      intro h2 _
      refine ⟨rfl, ?_⟩
      intro s1 h
      exact h2 s1 h
    | done s2 c2 =>
      intro _ h3
      exact ih hrest c2 _ s2 h3

/-- Depth `n + 1` is enough for `process_trace` from a state with at most `n` free
partitions, when no exec'd program is named "free": one more level of depth changes
nothing, and the run does not stop for lack of depth. -/
theorem process_trace_fuel_step (env : Env) (hloader : loader_without_free env) (n : Nat) :
    ∀ tr, no_free_exec tr → ∀ (cur : Option Nat) (s : Sim), free_count s.partitions ≤ n →
      process_trace (n + 2) env tr cur s = process_trace (n + 1) env tr cur s ∧
      ∀ s1, process_trace (n + 1) env tr cur s ≠ .halted s1 .fuel := by
  induction n with
  | zero =>
    intro tr htr cur s hfree
    have hexec := run_exec_fuel_step env hloader 0 (fun _ _ _ _ h => absurd h (by omega))
    have hloop := fun ii tbl => trace_loop_fuel_step env 0
      (fun nm hn d c s1 h => hexec nm hn d c s1 h) ii tbl tr htr cur false s hfree
    show process_trace_with (run_exec 1 env) env tr cur s
        = process_trace_with (run_exec 0 env) env tr cur s ∧
      ∀ s1, process_trace_with (run_exec 0 env) env tr cur s ≠ .halted s1 .fuel
    unfold process_trace_with
    cases cur with
    | none => exact ⟨rfl, fun s1 h => by cases h⟩
    | some c =>
      simp only []
      cases s.pcbs[c]? with
      | none => exact ⟨rfl, fun s1 h => by cases h⟩
      | some pcb =>
        simp only []
        cases find_pcb_table s.pcbs c with
        | none => exact ⟨rfl, fun s1 h => by cases h⟩
        | some tbl => exact hloop _ tbl
  | succ m ih =>
    intro tr htr cur s hfree
    have hexec := run_exec_fuel_step env hloader (m + 1)
      (fun tr1 h1 c s4 h => ih tr1 h1 c s4 (by omega))
    have hloop := fun ii tbl => trace_loop_fuel_step env (m + 1)
      (fun nm hn d c s1 h => hexec nm hn d c s1 h) ii tbl tr htr cur false s hfree
    show process_trace_with (run_exec (m + 1 + 1) env) env tr cur s
        = process_trace_with (run_exec (m + 1) env) env tr cur s ∧
      ∀ s1, process_trace_with (run_exec (m + 1) env) env tr cur s ≠ .halted s1 .fuel
    unfold process_trace_with
    cases cur with
    | none => exact ⟨rfl, fun s1 h => by cases h⟩
    | some c =>
      simp only []
      cases s.pcbs[c]? with
      | none => exact ⟨rfl, fun s1 h => by cases h⟩
      | some pcb =>
        simp only []
        cases find_pcb_table s.pcbs c with
        | none => exact ⟨rfl, fun s1 h => by cases h⟩
        | some tbl => exact hloop _ tbl

/-- Depth `n` is enough for a call of `run_exec` for a program not named "free" from a
state with at most `n` free partitions. -/
theorem run_exec_enough (env : Env) (hloader : loader_without_free env)
    (program_name : String) (hname : program_name ≠ "free") (duration : Nat)
    (cur : Option Nat) (s : Sim) (n : Nat) (hfree : free_count s.partitions ≤ n) :
    run_exec (n + 1) env program_name duration cur s
      = run_exec n env program_name duration cur s ∧
    ∀ s1, run_exec n env program_name duration cur s ≠ .halted s1 .fuel := by
  cases n with
  | zero =>
    exact run_exec_fuel_step env hloader 0 (fun _ _ _ _ h => absurd h (by omega))
      program_name hname duration cur s hfree
  | succ m =>
    exact run_exec_fuel_step env hloader (m + 1)
      (fun tr1 h1 c s4 h => process_trace_fuel_step env hloader m tr1 h1 c s4 (by omega))
      program_name hname duration cur s hfree

/-- The list of files of the sample environment holds no EXEC of a program named
"free". -/
theorem sample_env_without_free : loader_without_free sample_env := by
  have h1 : ¬ ("FORK" = "EXEC") := by decide
  have h2 : ¬ ("CPU" = "EXEC") := by decide
  intro path tr h ev hev hx
  simp only [sample_env] at h
  split at h
  · cases h
    simp only [List.mem_cons, List.mem_singleton, List.not_mem_nil, or_false] at hev
    rcases hev with rfl | rfl | rfl
    · exact absurd hx h1
    · decide
    · exact absurd hx h2
  · split at h
    · cases h
      simp only [List.mem_singleton] at hev
      subst hev
      exact absurd hx h2
    · split at h
      · cases h
        simp only [List.mem_cons, List.mem_singleton, List.not_mem_nil, or_false] at hev
        rcases hev with rfl | rfl | rfl <;> exact absurd hx h2
      · cases h

/-- C22. Termination of the exec recursion: for every trace loader none of whose traces
holds an EXEC of a program named "free", the recursion `run_exec` → `process_trace` →
`run_exec` ends, and the depth of nested exec contexts is bounded by the number `F` of
partitions free at the start. In the model the depth is the fuel: (1) `process_trace` on
a trace without EXEC of "free" gives, for every depth above `F`, the result it gives at
depth `F + 1`, and that result is never the out-of-depth stop; (2) a `run_exec` call for
a program not named "free" gives, for every depth from `F` on, the result it gives at
depth `F`, never the out-of-depth stop; (3) a run of `main` on a trace file not named
"free" gives at every depth from 6 on the result of depth 6, never the out-of-depth
stop; (4) the reason: a call that enters the nested trace enters it with exactly one free
partition less than it was called with, on a trace that again holds no EXEC of "free". -/
theorem exec_recursion_terminates (env : Env) (hloader : loader_without_free env) :
    (∀ (tr : List TraceEvent) (cur : Option Nat) (s : Sim) (fuel : Nat), no_free_exec tr →
      free_count s.partitions < fuel →
      process_trace fuel env tr cur s
        = process_trace (free_count s.partitions + 1) env tr cur s ∧
      ∀ s1, process_trace fuel env tr cur s ≠ .halted s1 .fuel) ∧
    (∀ (name : String) (d : Nat) (cur : Option Nat) (s : Sim) (fuel : Nat), name ≠ "free" →
      free_count s.partitions ≤ fuel →
      run_exec fuel env name d cur s = run_exec (free_count s.partitions) env name d cur s ∧
      ∀ s1, run_exec fuel env name d cur s ≠ .halted s1 .fuel) ∧
    (∀ (trace_file : String) (fuel : Nat), trace_file ≠ "free" → 6 ≤ fuel →
      main fuel env trace_file = main 6 env trace_file ∧
      ∀ s1, main fuel env trace_file ≠ .halted s1 .fuel) ∧
    (∀ (name : String) (d cur : Nat) (s s4 : Sim) (tr : List TraceEvent), name ≠ "free" →
      nested_entry env name d (some cur) s = some (tr, s4) →
      free_count s4.partitions + 1 = free_count s.partitions ∧ no_free_exec tr) := by
  have hexec : ∀ (name : String) (d : Nat) (cur : Option Nat) (s : Sim) (fuel : Nat),
      name ≠ "free" → free_count s.partitions ≤ fuel →
      run_exec fuel env name d cur s = run_exec (free_count s.partitions) env name d cur s ∧
      ∀ s1, run_exec fuel env name d cur s ≠ .halted s1 .fuel := by
    intro name d cur s fuel hname hfuel
    have hall : ∀ k, run_exec (free_count s.partitions + k) env name d cur s
        = run_exec (free_count s.partitions) env name d cur s := by
      intro k
      induction k with
      | zero => rfl
      | succ k ih =>
        have hs := (run_exec_enough env hloader name hname d cur s
          (free_count s.partitions + k) (by omega)).1
        rw [← ih, ← hs]
        rfl
    have hk : fuel = free_count s.partitions + (fuel - free_count s.partitions) := by omega
    refine ⟨by rw [hk]; exact hall _, ?_⟩
    exact (run_exec_enough env hloader name hname d cur s fuel hfuel).2
  refine ⟨?_, hexec, ?_, ?_⟩
  · intro tr cur s fuel htr hfuel
    have hall : ∀ k, process_trace (free_count s.partitions + k + 1) env tr cur s
        = process_trace (free_count s.partitions + 1) env tr cur s := by
      intro k
      induction k with
      | zero => rfl
      | succ k ih =>
        have hs := (process_trace_fuel_step env hloader (free_count s.partitions + k) tr htr
          cur s (by omega)).1
        rw [← ih, ← hs]
        rfl
    have hk : fuel = free_count s.partitions + (fuel - free_count s.partitions - 1) + 1 := by
      omega
    refine ⟨by rw [hk]; exact hall _, ?_⟩
    have hs := (process_trace_fuel_step env hloader (fuel - 1) tr htr cur s (by omega)).2
    have hf : fuel - 1 + 1 = fuel := by omega
    rw [hf] at hs
    exact hs
  · intro trace_file fuel hname hfuel
    have h6 : free_count main_exec_entry.partitions = 6 := by decide
    have := hexec trace_file 0 (some 1) main_exec_entry fuel hname (by omega)
    rw [h6] at this
    rw [main_eq, main_eq]
    exact this
  · intro name d cur s s4 tr hname he
    have hcount := (nested_entry_free_count _ _ _ _ _ _ _ he).2
    rw [if_neg hname] at hcount
    refine ⟨hcount, ?_⟩
    have hload := (nested_entry_some _ _ _ _ _ _ _ he).2
    apply hloader (trace_path name)
    unfold load_trace at hload
    split at hload
    · rename_i events hev
      cases hload
      exact hev
    · cases hload

/-- In the sample environment the run of `main` on "root.txt" at depth 9 is the run at
depth 6, and it returns. -/
theorem exec_recursion_terminates_witness :
    main 9 sample_env "root.txt" = main 6 sample_env "root.txt" ∧
    (∃ s c, main 6 sample_env "root.txt" = .done s c) :=
  ⟨((exec_recursion_terminates sample_env sample_env_without_free).2.2.1 "root.txt" 9
      (by decide) (by decide)).1, _, _, rfl⟩

/-- A log in step stays in step when a line is logged and the clock advanced by the
duration of that line. -/
theorem emit_in_step (s : Sim) (d : Int) (step : Step) (h : log_in_step s) :
    log_in_step (emit s d step) := by
  obtain ⟨hc, hl⟩ := h
  refine ⟨?_, ?_⟩
  · show List.Chain' follows (s.file ++ [⟨s.current_time, d, step⟩])
    rw [List.chain'_append]
    refine ⟨hc, List.chain'_singleton _, ?_⟩
    intro x hx y hy
    simp only [List.head?_cons, Option.mem_def, Option.some.injEq] at hy
    subst hy
    exact hl x hx
  · intro l hm
    have hlast : (emit s d step).file.getLast? = some ⟨s.current_time, d, step⟩ :=
      List.getLast?_concat _
    rw [hlast] at hm
    simp only [Option.mem_def, Option.some.injEq] at hm
    subst hm
    rfl

/-- A line of duration 1 logged on a log in step leaves its increment pending. -/
theorem log_iret_pending (s : Sim) (step : Step) (h : log_in_step s) :
    iret_pending (log s 1 step) := by
  obtain ⟨hc, hl⟩ := h
  refine ⟨?_, ⟨s.current_time, 1, step⟩, List.getLast?_concat _, rfl, rfl⟩
  show List.Chain' follows (s.file ++ [⟨s.current_time, 1, step⟩])
  rw [List.chain'_append]
  refine ⟨hc, List.chain'_singleton _, ?_⟩
  intro x hx y hy
  simp only [List.head?_cons, Option.mem_def, Option.some.injEq] at hy
  subst hy
  exact hl x hx

/-- The pending increment of 1 puts the log in step. -/
theorem tick_in_step (s : Sim) (h : iret_pending s) : log_in_step (advance s 1) := by
  obtain ⟨hc, l, hlast, ht, hd⟩ := h
  refine ⟨hc, ?_⟩
  intro l1 hm
  have hm1 : s.file.getLast? = some l1 := hm
  rw [hlast] at hm1
  cases hm1
  show toU16 ((s.current_time : Int) + 1) = _
  rw [ht, hd]

/-- A call of `rand()` does not touch the log or the clock. -/
theorem rand_next_in_step (s : Sim) (h : log_in_step s) : log_in_step (rand_next s) := h

/-- A log in step is contiguous. -/
theorem in_step_contiguous (o : Outcome) (h : in_step o) : contiguous o.sim.file := by
  cases o with
  | done t c => exact h.1
  | halted t why =>
    cases why with
    | fault => exact h
    | exit => exact h
    | fuel => exact h.1

/-- The CPU branch keeps the log in step. -/
theorem cpu_event_in_step (ev : TraceEvent) (s : Sim) (h : log_in_step s) :
    log_in_step (cpu_event ev s) :=
  emit_in_step s _ _ h

/-- The SYSCALL branch up to its IRET line. -/
theorem syscall_steps_pending (env : Env) (ev : TraceEvent) (w : Bool) (s : Sim)
    (h : log_in_step s) : iret_pending (syscall_steps env ev w s) := by
  unfold syscall_steps
  simp only []
  apply log_iret_pending
  repeat (first | exact h | apply emit_in_step | apply rand_next_in_step)

/-- The END_IO branch up to its IRET line. -/
theorem end_io_steps_pending (env : Env) (ev : TraceEvent) (s : Sim)
    (h : log_in_step s) : iret_pending (end_io_steps env ev s) := by
  unfold end_io_steps
  simp only []
  apply log_iret_pending
  repeat (first | exact h | apply emit_in_step | apply rand_next_in_step)

/-- The logging part of the FORK branch up to its IRET line. -/
theorem fork_steps_pending (env : Env) (ev : TraceEvent) (s : Sim)
    (h : log_in_step s) : iret_pending (fork_steps env ev s) := by
  unfold fork_steps
  simp only []
  apply log_iret_pending
  repeat (first | exact h | apply emit_in_step | apply rand_next_in_step)

/-- The four entry lines of the EXEC branch keep the log in step. -/
theorem exec_entry_steps_in_step (env : Env) (ev : TraceEvent) (s : Sim)
    (h : log_in_step s) : log_in_step (exec_entry_steps env ev s) := by
  unfold exec_entry_steps
  simp only []
  repeat (first | exact h | apply emit_in_step | apply rand_next_in_step)

/-- The six lines of a non-initial exec up to the IRET line. -/
theorem exec_log_steps_pending (env : Env) (program_name : String) (duration : Nat)
    (program_size : Int) (cp : MemoryPartition) (s : Sim) (h : log_in_step s) :
    iret_pending (exec_log_steps env program_name duration program_size cp s) := by
  unfold exec_log_steps
  simp only []
  apply log_iret_pending
  repeat (first | exact h | apply emit_in_step | apply rand_next_in_step)

/-- The snapshot and the tick after an IRET line put the log in step; when the snapshot
cannot be taken the log is still contiguous. -/
theorem snapshot_then_tick_in_step (s : Sim) (tbl : Nat) (cur : Option Nat)
    (h : iret_pending s) : in_step (snapshot_then_tick s tbl cur) := by
  unfold snapshot_then_tick
  cases hs : save_system_status s s.current_time tbl with
  | none => exact h.1
  | some s1 =>
    obtain ⟨snap, rfl⟩ := save_system_status_eq s s1 _ _ hs
    exact tick_in_step (write_snapshot s snap) h

/-- Sequencing keeps the log in order. -/
theorem and_then_in_step (o : Outcome) (k : Sim → Option Nat → Outcome) (h1 : in_step o)
    (h2 : ∀ s1 c, o = .done s1 c → log_in_step s1 → in_step (k s1 c)) :
    in_step (o.and_then k) := by
  cases o with
  | done s1 c => exact h2 s1 c rfl h1
  | halted s1 why => exact h1

/-- The return to the parent keeps the log in order. -/
theorem exec_return_in_step (cur : Nat) (s : Sim) (c : Option Nat) (h : log_in_step s) :
    in_step (exec_return cur s c) := by
  unfold exec_return
  split
  · exact h.1
  · exact h

/-- An event other than EXEC, processed by a `process_trace` that was not entered as
init, keeps the log in order. -/
theorem process_event_in_step (exec : String → Nat → Option Nat → Sim → Outcome)
    (env : Env) (tbl : Nat) (ev : TraceEvent) (cur : Option Nat) (w : Bool) (s : Sim)
    (hx : ev.type ≠ "EXEC") (h : log_in_step s) :
    in_step (process_event exec env false tbl ev cur w s) := by
  unfold process_event
  simp only [hx, if_false, Bool.false_eq_true]
  split
  · exact cpu_event_in_step ev s h
  · split
    · exact snapshot_then_tick_in_step _ _ _ (syscall_steps_pending env ev w s h)
    · split
      · exact snapshot_then_tick_in_step _ _ _ (end_io_steps_pending env ev s h)
      · split
        · have hp := fork_steps_pending env ev s h
          split
          · exact hp.1
          · exact snapshot_then_tick_in_step _ _ _ hp
        · exact h

/-- Lines 98-153 of `run_exec` keep the log in order when the nested call does. -/
theorem run_exec_load_in_step (nested : List TraceEvent → Option Nat → Sim → Outcome)
    (hn : ∀ tr c s4, log_in_step s4 → in_step (nested tr c s4))
    (env : Env) (program_name : String) (duration : Nat) (cur : Nat) (pcb : PCB)
    (is_init : Bool) (program_size : Int) (cand : Nat) (s : Sim) (h : log_in_step s) :
    in_step (run_exec_load nested env program_name duration cur pcb is_init program_size
      cand s) := by
  have hk : ∀ s4 : Sim, log_in_step s4 →
      in_step (match load_trace env program_name with
        | .error m => Outcome.halted (say s4 m) .exit
        | .ok trace_events =>
          (nested trace_events (some cur) s4).and_then fun s5 _ =>
            match s5.pcbs[cur]? with
            | none => .halted s5 .fault
            | some p => .done s5 p.parent) := by
    intro s4 h4
    cases hl : load_trace env program_name with
    | error m => exact h4.1
    | ok tr =>
      exact and_then_in_step _ _ (hn tr (some cur) s4 h4)
        (fun s5 c _ h5 => exec_return_in_step cur s5 c h5)
  unfold run_exec_load
  cases hc : s.partitions[cand]? with
  | none => exact h.1
  | some cp =>
    simp only []
    cases is_init with
    | true =>
      simp only [if_true]
      split
      · exact h.1
      · exact hk _ h
    | false =>
      simp only [Bool.false_eq_true, if_false]
      have hp := exec_log_steps_pending env program_name duration program_size cp s h
      generalize exec_log_steps env program_name duration program_size cp s = s1 at hp
      split
      · exact hp.1
      · rename_i tbl htbl
        refine and_then_in_step _ _ (snapshot_then_tick_in_step _ tbl (some cur) hp) ?_
        intro s4 c4 _ h4
        exact hk s4 h4

/-- The body of `run_exec` keeps the log in order when the nested call does. -/
theorem run_exec_with_in_step (nested : List TraceEvent → Option Nat → Sim → Outcome)
    (hn : ∀ tr c s4, log_in_step s4 → in_step (nested tr c s4))
    (env : Env) (program_name : String) (duration : Nat) (cur : Option Nat) (s : Sim)
    (h : log_in_step s) :
    in_step (run_exec_with nested env program_name duration cur s) := by
  have key : ∀ (c : Nat) (pcb : PCB) (ii : Bool) (sz : Int),
      in_step (run_exec_allocate nested env program_name duration c pcb ii sz s) := by
    intro c pcb ii sz
    unfold run_exec_allocate
    split
    · exact h
    · exact run_exec_load_in_step nested hn env program_name duration c pcb ii sz _ s h
  unfold run_exec_with
  split
  · exact h.1
  · split
    · exact h.1
    · simp only []
      split
      · exact key _ _ _ _
      · split
        · exact h
        · exact key _ _ _ _

/-- When a call enters the nested trace, the record that is current there has the pid
it had at the call. -/
theorem nested_entry_pid (env : Env) (program_name : String) (duration : Nat)
    (cur : Option Nat) (s s4 : Sim) (tr : List TraceEvent)
    (h : nested_entry env program_name duration cur s = some (tr, s4)) :
    current_pid s4 cur = current_pid s cur := by
  have hstop := (nested_entry_some _ _ _ _ _ _ _ h).1
  have hk := run_exec_with_stable pcbs_kept_stable stop_at_entry
    (fun _ _ s1 => pcbs_kept_refl s1.pcbs) env program_name duration cur s
  rw [hstop] at hk
  cases cur with
  | none => rfl
  | some c =>
    cases hp : s.pcbs[c]? with
    | none =>
      simp only [run_exec_with, hp] at hstop
      cases hstop
    | some pcb =>
      obtain ⟨q, hq, hpid, _⟩ := hk c pcb hp
      have hq4 : s4.pcbs[c]? = some q := hq
      simp only [current_pid, hp, hq4, Option.map_some', hpid]

/-- One call of `run_exec` keeps the log in order, provided the nested trace does
whenever it is entered under a record whose pid is not 10 and makes no call that enters
a nested trace under a record of pid 10. -/
theorem exec_call_in_step (nested : List TraceEvent → Option Nat → Sim → Outcome)
    (deeper : List TraceEvent → Option Nat → Sim → List ExecCall)
    (hn : ∀ tr c s4, log_in_step s4 → current_pid s4 c ≠ some 10 →
      (∀ call ∈ deeper tr c s4, call.entered = true → call.pid ≠ some 10) →
      in_step (nested tr c s4))
    (env : Env) (program_name : String) (duration : Nat) (cur : Option Nat) (s : Sim)
    (h : log_in_step s)
    (hcalls : ∀ call ∈ exec_calls_at deeper env program_name duration cur s,
      call.entered = true → call.pid ≠ some 10) :
    in_step (run_exec_with nested env program_name duration cur s) := by
  have hstop := run_exec_with_in_step stop_at_entry (fun _ _ s4 h4 => h4) env program_name
    duration cur s h
  cases cur with
  | none => exact h.1
  | some c =>
    rw [run_exec_with_split nested]
    cases he : nested_entry env program_name duration (some c) s with
    | none => exact hstop
    | some p =>
      obtain ⟨tr, s4⟩ := p
      have hs4 := (nested_entry_some _ _ _ _ _ _ _ he).1
      rw [hs4] at hstop
      have hpid := nested_entry_pid _ _ _ _ _ _ _ he
      have hinfo := hcalls _ (List.mem_cons_self _ _) (by simp [he])
      have hdeep : ∀ call ∈ deeper tr (some c) s4, call.entered = true → call.pid ≠ some 10 := by
        intro call hm
        apply hcalls call
        unfold exec_calls_at
        rw [he]
        exact List.mem_cons_of_mem _ hm
      simp only []
      exact and_then_in_step _ _ (hn tr (some c) s4 hstop (by rw [hpid]; exact hinfo) hdeep)
        (fun s5 c5 _ h5 => exec_return_in_step c s5 c5 h5)

/-- The loop of a `process_trace` that was not entered as init keeps the log in order,
provided the calls of `run_exec` it makes do. -/
theorem trace_loop_in_step (exec : String → Nat → Option Nat → Sim → Outcome)
    (calls : String → Nat → Option Nat → Sim → List ExecCall)
    (he : ∀ n d c s, log_in_step s →
      (∀ call ∈ calls n d c s, call.entered = true → call.pid ≠ some 10) →
      in_step (exec n d c s))
    (env : Env) (tbl : Nat) (trace : List TraceEvent) :
    ∀ (cur : Option Nat) (w : Bool) (s : Sim), log_in_step s →
      (∀ call ∈ loop_exec_calls exec calls env false tbl trace cur w s,
        call.entered = true → call.pid ≠ some 10) →
      in_step (trace_loop exec env false tbl trace cur w s) := by
  induction trace with
  | nil => intro cur w s h _; exact h
  | cons ev rest ih =>
    intro cur w s h hcalls
    simp only [loop_exec_calls, Bool.false_eq_true, if_false, List.mem_append] at hcalls
    have hev : in_step (process_event exec env false tbl ev cur w s) := by
      by_cases hx : ev.type = "EXEC"
      · rw [process_event_exec exec env false tbl ev cur w s hx]
        simp only [Bool.false_eq_true, if_false]
        apply he _ _ _ _ (exec_entry_steps_in_step env ev s h)
        intro call hm
        exact hcalls call (Or.inl (by rw [if_pos hx]; exact hm))
      · exact process_event_in_step exec env tbl ev cur w s hx h
    simp only [trace_loop]
    refine and_then_in_step _ _ hev ?_
    intro s1 c1 hdone h1
    apply ih c1 _ s1 h1
    intro call hm
    apply hcalls call
    right
    rw [hdone]
    exact hm

/-- A run of `process_trace` keeps the log in order when it is entered, and every nested
trace of it is entered, under a record whose pid is not 10. -/
theorem process_trace_in_step (env : Env) (fuel : Nat) :
    ∀ (trace : List TraceEvent) (cur : Option Nat) (s : Sim), log_in_step s →
      current_pid s cur ≠ some 10 →
      (∀ call ∈ trace_exec_calls fuel env trace cur s,
        call.entered = true → call.pid ≠ some 10) →
      in_step (process_trace fuel env trace cur s) := by
  induction fuel with
  | zero => intro trace cur s h _ _; exact h
  | succ n ih =>
    intro trace cur s h hpid hcalls
    simp only [process_trace, process_trace_with]
    unfold trace_exec_calls at hcalls
    cases cur with
    | none => exact h.1
    | some c =>
      simp only [] at hcalls ⊢
      cases hp : s.pcbs[c]? with
      | none => exact h.1
      | some pcb =>
        have h10 : pcb.pid ≠ 10 := by
          intro h10
          apply hpid
          simp only [current_pid, hp, Option.map_some', h10]
        rw [hp] at hcalls
        simp only [] at hcalls ⊢
        cases ht : find_pcb_table s.pcbs c with
        | none => exact h.1
        | some tbl =>
          rw [ht] at hcalls
          simp only [] at hcalls ⊢
          have hi : decide (pcb.pid = 11 - 1) = false := by
            simp only [decide_eq_false_iff_not]
            exact h10
          rw [hi] at hcalls ⊢
          exact trace_loop_in_step _ _
            (fun nm d c1 s1 h1 hc1 => exec_call_in_step _ _ ih env nm d c1 s1 h1 hc1)
            env tbl trace (some c) false s h hcalls

/-- The calls of a run of `main` are those of its call of `run_exec` in the state
`main_exec_entry`. -/
theorem main_exec_calls_eq (fuel : Nat) (env : Env) (trace_file : String) :
    main_exec_calls fuel env trace_file
      = exec_calls_at (trace_exec_calls fuel env) env trace_file 0 (some 1) main_exec_entry := by
  have hs : save_system_status (with_pcbs initial_sim [{ init_pcb with next := some 1 },
        { init_pcb with pid := 11, parent := some 0 }])
      (with_pcbs initial_sim [{ init_pcb with next := some 1 },
        { init_pcb with pid := 11, parent := some 0 }]).current_time 0
      = some main_exec_entry := by decide
  unfold main_exec_calls
  rw [main_fork]
  simp only [hs]

/-- C23. Log contiguity: in every run of `main` in which no call of `run_exec` enters its
nested `process_trace` under a record whose pid is 10 (every entry of `process_trace` in
a run of `main` is made by such a call), every line of the execution log carries the
timestamp of the line before it plus that line's duration, modulo `2^16`; this holds
whether the run returns or stops, across event boundaries, aborted execs and nested exec
contexts, and when the run returns the clock stands at the last line's timestamp plus
its duration. The same holds for every run of `process_trace` that starts with the log
in step, is entered under a record whose pid is not 10 and makes no call that enters a
nested trace under pid 10, and the snapshot and the single tick that follow an IRET line
of duration 1 leave the log in step: the tick is that line's own duration. The pid
recorded for a call is the pid of the record under which the nested trace is entered. -/
theorem log_contiguity (fuel : Nat) (env : Env) (trace_file : String)
    (hentry : ∀ call ∈ main_exec_calls fuel env trace_file,
      call.entered = true → call.pid ≠ some 10) :
    contiguous (main fuel env trace_file).sim.file ∧
    (∀ (s : Sim) (c : Option Nat), main fuel env trace_file = .done s c → log_in_step s) ∧
    (∀ (f : Nat) (env1 : Env) (tr : List TraceEvent) (cur : Option Nat) (s : Sim),
      log_in_step s → current_pid s cur ≠ some 10 →
      (∀ call ∈ trace_exec_calls f env1 tr cur s, call.entered = true → call.pid ≠ some 10) →
      contiguous (process_trace f env1 tr cur s).sim.file ∧
      ∀ (s1 : Sim) (c1 : Option Nat), process_trace f env1 tr cur s = .done s1 c1 →
        log_in_step s1) ∧
    (∀ (s : Sim) (tbl : Nat) (cur : Option Nat), iret_pending s →
      contiguous (snapshot_then_tick s tbl cur).sim.file ∧
      ∀ (s1 : Sim) (c1 : Option Nat), snapshot_then_tick s tbl cur = .done s1 c1 →
        log_in_step s1 ∧ s1.file = s.file ∧
        s1.current_time = toU16 ((s.current_time : Int) + 1)) ∧
    (∀ (env1 : Env) (name : String) (d : Nat) (cur : Option Nat) (s s4 : Sim)
      (tr : List TraceEvent), nested_entry env1 name d cur s = some (tr, s4) →
      current_pid s4 cur = current_pid s cur) := by
  have hmain : in_step (main fuel env trace_file) := by
    rw [main_eq]
    rw [main_exec_calls_eq] at hentry
    refine exec_call_in_step _ _ (process_trace_in_step env fuel) env trace_file 0 (some 1)
      main_exec_entry ?_ hentry
    exact ⟨List.chain'_nil, fun l hl => by cases hl⟩
  refine ⟨in_step_contiguous _ hmain, ?_, ?_, ?_,
    fun env1 name d cur s s4 tr h => nested_entry_pid env1 name d cur s s4 tr h⟩
  · intro s c hd
    rw [hd] at hmain
    exact hmain
  · intro f env1 tr cur s h hpid hcalls
    have hp := process_trace_in_step env1 f tr cur s h hpid hcalls
    refine ⟨in_step_contiguous _ hp, ?_⟩
    intro s1 c1 hd
    rw [hd] at hp
    exact hp
  · intro s tbl cur hp
    have hs := snapshot_then_tick_in_step s tbl cur hp
    refine ⟨in_step_contiguous _ hs, ?_⟩
    intro s1 c1 hd
    obtain ⟨snap, h1, _⟩ := snapshot_then_tick_done s s1 tbl cur c1 hd
    rw [hd] at hs
    subst h1
    exact ⟨hs, rfl, rfl⟩

/-- The run of `main` on "root.txt" in the sample environment enters `process_trace`
under pid 11 and under pid 12; its 19 log lines are contiguous. For comparison, the trace
CPU 1, FORK, CPU 1 processed under the root record (pid 10) of the sample state logs two
lines, at 20 and at 22: the tick after the snapshot of the FORK has no line. -/
theorem log_contiguity_witness :
    (process_trace 1 sample_env [⟨"CPU", 1, "", -1⟩, ⟨"FORK", 4, "", 2⟩, ⟨"CPU", 1, "", -1⟩]
        (some 0) sample_sim).sim.file.map (fun l => (l.time, l.duration))
      = [(20, 1), (22, 1)] ∧
    (main_exec_calls 3 sample_env "root.txt").map (fun c => (c.pid, c.entered))
      = [(some 11, true), (some 12, true)] ∧
    (main 3 sample_env "root.txt").sim.file.map (fun l => (l.time, l.duration))
      = [(0, 1), (1, 3), (4, 1), (5, 1), (6, 3), (9, 1), (10, 1), (11, 1), (12, 2), (14, 1),
         (15, 1), (16, 1), (17, 3), (20, 3), (23, 0), (23, 1), (24, 1), (25, 2), (27, 5)] ∧
    contiguous (main 3 sample_env "root.txt").sim.file :=
  ⟨by decide, by decide, by decide, (log_contiguity 3 sample_env "root.txt" (by decide)).1⟩

/-- The execution log only grows: a stable relation. -/
theorem log_grows_stable : Stable (fun s t => s.file <+: t.file) where
  refl := fun _ => List.prefix_refl _
  trans := fun _ _ _ h1 h2 => h1.trans h2
  log := fun _ _ _ => List.prefix_append _ _
  advance := fun _ _ _ => List.prefix_refl _
  say := fun _ _ => List.prefix_refl _
  rand_next := fun _ => List.prefix_refl _
  snapshot := fun _ _ => List.prefix_refl _
  fork := fun _ _ _ _ _ => List.prefix_refl _
  mark := fun _ _ _ _ _ _ => List.prefix_refl _
  update := fun _ _ _ _ _ _ _ => List.prefix_refl _

/-- A change without a call of `save_system_status` that leaves the status file alone. -/
theorem snapshots_from_nil (s t : Sim) (hf : s.file <+: t.file)
    (hs : t.status_file = s.status_file) : snapshots_from s [] t :=
  ⟨hf, by rw [hs]; simp, fun k c h => by simp at h⟩

/-- The calls of two changes made one after the other. -/
theorem snapshots_from_trans (a b t : Sim) (c1 c2 : List SnapshotCall)
    (h1 : snapshots_from a c1 b) (h2 : snapshots_from b c2 t) :
    snapshots_from a (c1 ++ c2) t := by
  obtain ⟨f1, e1, p1⟩ := h1
  obtain ⟨f2, e2, p2⟩ := h2
  refine ⟨f1.trans f2, by rw [e2, e1, List.map_append, List.append_assoc], ?_⟩
  intro k c hk
  by_cases hlt : k < c1.length
  · rw [List.getElem?_append_left hlt] at hk
    obtain ⟨h0, hr, hu, hf⟩ := p1 k c hk
    refine ⟨h0, hr, ?_, hf.trans f2⟩
    rw [hu, List.take_append_of_le_length (by omega)]
  · rw [List.getElem?_append_right (by omega)] at hk
    obtain ⟨h0, hr, hu, hf⟩ := p2 (k - c1.length) c hk
    refine ⟨h0, hr, ?_, hf⟩
    have t1 : (c1 ++ c2).take k = c1 ++ c2.take (k - c1.length) := by
      rw [List.take_append_eq_append_take, List.take_of_length_le (by omega)]
    rw [hu, e1, t1, List.map_append, List.append_assoc]

/-- One call of `save_system_status` with the root as head on a well-formed tree, and
the tick that follows it. -/
theorem snapshots_from_tick (s u : Sim) (hr : rooted u.pcbs)
    (hs : u.status_file = s.status_file) (hf : s.file <+: u.file) :
    snapshots_from s [⟨u, 0⟩] (advance (write_snapshot u (snapshot_of u)) 1) := by
  refine ⟨hf, ?_, ?_⟩
  · show u.status_file ++ [snapshot_of u] = _
    rw [hs]
    rfl
  · intro k c hk
    have hk1 : k < 1 := (List.getElem?_eq_some_iff.mp hk).1
    have hk0 : k = 0 := by omega
    subst hk0
    simp only [List.getElem?_cons_zero, Option.some.injEq] at hk
    subst hk
    exact ⟨rfl, hr, by simp [hs], List.prefix_refl _⟩

/-- A snapshot and its tick, taken with the root as head on a well-formed tree in a state
`u` reached from `s` without any snapshot. -/
theorem snapshot_then_tick_from (s u : Sim) (cur : Option Nat) (hr : rooted u.pcbs)
    (hs : u.status_file = s.status_file) (hf : s.file <+: u.file) :
    snapshots_from s [⟨u, 0⟩] (snapshot_then_tick u 0 cur).sim := by
  rw [snapshot_then_tick_rooted u cur hr]
  exact snapshots_from_tick s u hr hs hf

/-- The calls of `save_system_status` made while one event is processed on a well-formed
tree with the root as head, provided the calls of `run_exec` are listed rightly. -/
theorem event_snapshots (exec : String → Nat → Option Nat → Sim → Outcome)
    (calls : String → Nat → Option Nat → Sim → List SnapshotCall)
    (he : ∀ n d c s1, rooted s1.pcbs → snapshots_from s1 (calls n d c s1) (exec n d c s1).sim)
    (env : Env) (is_init : Bool) (ev : TraceEvent) (cur : Option Nat) (w : Bool) (s : Sim)
    (hr : rooted s.pcbs) :
    snapshots_from s (event_snapshot_calls calls env is_init 0 ev cur w s)
      (process_event exec env is_init 0 ev cur w s).sim := by
  have hst := steps_status_file env ev w "" 0 0 ⟨0, 0, ""⟩ s
  have hfr := steps_frame env ev w s
  unfold process_event event_snapshot_calls
  split
  · exact snapshots_from_nil _ _ (cpu_event_stable log_grows_stable ev s) hst.1
  · split
    · exact snapshot_then_tick_from s _ cur (by rw [hfr.2.1.1]; exact hr) hst.2.1
        (syscall_steps_stable log_grows_stable env ev w s)
    · split
      · exact snapshot_then_tick_from s _ cur (by rw [hfr.2.2.1.1]; exact hr) hst.2.2.1
          (end_io_steps_stable log_grows_stable env ev s)
      · split
        · have h1 : (if is_init = true then s else fork_steps env ev s).pcbs = s.pcbs ∧
              (if is_init = true then s else fork_steps env ev s).status_file = s.status_file ∧
              s.file <+: (if is_init = true then s else fork_steps env ev s).file := by
            split
            · exact ⟨rfl, rfl, List.prefix_refl _⟩
            · exact ⟨hfr.2.2.2.1.1, hst.2.2.2.1, fork_steps_stable log_grows_stable env ev s⟩
          simp only []
          generalize (if is_init = true then s else fork_steps env ev s) = s1 at h1
          cases hf : run_fork s1.pcbs cur with
          | none => exact snapshots_from_nil _ _ h1.2.2 h1.2.1
          | some r =>
            obtain ⟨pcbs, child⟩ := r
            have hr1 : rooted (with_pcbs s1 pcbs).pcbs :=
              (rooted_stable.fork s1 cur pcbs child hf (by rw [h1.1]; exact hr)).1
            exact snapshot_then_tick_from s _ (some child) hr1 h1.2.1 h1.2.2
        · split
          · have h1 : (if is_init = true then s else exec_entry_steps env ev s).pcbs = s.pcbs ∧
                (if is_init = true then s else exec_entry_steps env ev s).status_file
                  = s.status_file ∧
                s.file <+: (if is_init = true then s else exec_entry_steps env ev s).file := by
              split
              · exact ⟨rfl, rfl, List.prefix_refl _⟩
              · exact ⟨hfr.2.2.2.2.1, hst.2.2.2.2.1,
                  exec_entry_steps_stable log_grows_stable env ev s⟩
            simp only []
            generalize (if is_init = true then s else exec_entry_steps env ev s) = s1 at h1
            have h2 := he ev.program_name ev.duration cur s1 (by rw [h1.1]; exact hr)
            have h0 : snapshots_from s [] s1 := snapshots_from_nil _ _ h1.2.2 h1.2.1
            exact snapshots_from_trans s s1 _ [] _ h0 h2
          · exact snapshots_from_nil _ _ (List.prefix_refl _) rfl

/-- The calls of `save_system_status` made by the loop of `process_trace` on a well-formed
tree with the root as head. -/
theorem loop_snapshots (exec : String → Nat → Option Nat → Sim → Outcome)
    (calls : String → Nat → Option Nat → Sim → List SnapshotCall)
    (hst : ∀ (R : Sim → Sim → Prop), Stable R → ∀ n d c s1, R s1 (exec n d c s1).sim)
    (he : ∀ n d c s1, rooted s1.pcbs → snapshots_from s1 (calls n d c s1) (exec n d c s1).sim)
    (env : Env) (is_init : Bool) (trace : List TraceEvent) :
    ∀ (cur : Option Nat) (w : Bool) (s : Sim), rooted s.pcbs →
      snapshots_from s (loop_snapshot_calls exec calls env is_init 0 trace cur w s)
        (trace_loop exec env is_init 0 trace cur w s).sim := by
  induction trace with
  | nil => intro cur w s _; exact snapshots_from_nil _ _ (List.prefix_refl _) rfl
  | cons ev rest ih =>
    intro cur w s hr
    have hev := event_snapshots exec calls he env is_init ev cur w s hr
    have hroot := (process_event_stable rooted_stable exec (hst _ rooted_stable) env is_init 0
      ev cur w s hr).1
    simp only [trace_loop, loop_snapshot_calls]
    revert hev hroot
    cases process_event exec env is_init 0 ev cur w s with
    | halted s1 why =>
      intro hev _
      rw [List.append_nil]
      exact hev
    | done s1 c1 =>
      intro hev hroot
      exact snapshots_from_trans s s1 _ _ _ hev (ih c1 _ s1 hroot)

/-- The calls listed for a change stay right for an end state with the same status file
and the same log. -/
theorem snapshots_from_same (s t t1 : Sim) (calls : List SnapshotCall)
    (h : snapshots_from s calls t) (hs : t1.status_file = t.status_file)
    (hf : t1.file = t.file) : snapshots_from s calls t1 := by
  obtain ⟨f, e, p⟩ := h
  refine ⟨by rw [hf]; exact f, by rw [hs]; exact e, ?_⟩
  intro k c hk
  obtain ⟨h0, hr, hu, hc⟩ := p k c hk
  exact ⟨h0, hr, hu, by rw [hf]; exact hc⟩

/-- The loading of the trace, in the run that stops at line 149, leaves the status file
and the log alone. -/
theorem load_and_stop_same (env : Env) (program_name : String) (cur : Nat) (s4 : Sim) :
    (load_and_run stop_at_entry env program_name cur s4).sim.status_file = s4.status_file ∧
    (load_and_run stop_at_entry env program_name cur s4).sim.file = s4.file := by
  unfold load_and_run
  cases load_trace env program_name with
  | error m => exact ⟨rfl, rfl⟩
  | ok tr => exact ⟨rfl, rfl⟩

/-- The call of `save_system_status` that a call of `run_exec` on a well-formed tree makes
itself, up to line 149: `exec_own_snapshot` lists it rightly. -/
theorem stop_run_snapshots (env : Env) (program_name : String) (duration : Nat)
    (cur : Option Nat) (s : Sim) (hr : rooted s.pcbs) :
    snapshots_from s (exec_own_snapshot env program_name duration cur s)
      (run_exec_with stop_at_entry env program_name duration cur s).sim := by
  cases cur with
  | none => exact snapshots_from_nil _ _ (List.prefix_refl _) rfl
  | some c =>
    cases hpcb : s.pcbs[c]? with
    | none =>
      simp only [run_exec_with, exec_own_snapshot, hpcb]
      exact snapshots_from_nil _ _ (List.prefix_refl _) rfl
    | some pcb =>
      have hclt := (List.getElem?_eq_some_iff.mp hpcb).1
      by_cases h11 : pcb.pid = 11
      · have hown : exec_own_snapshot env program_name duration (some c) s = [] := by
          simp only [exec_own_snapshot, hpcb, h11, if_true]
        rw [hown]
        cases hcand : find_partition s.partitions 1 with
        | none =>
          have hrun : run_exec_with stop_at_entry env program_name duration (some c) s
              = .done (say s (.no_suitable_partition program_name)) (some c) := by
            simp [run_exec_with, hpcb, h11, run_exec_allocate, hcand]
          rw [hrun]
          exact snapshots_from_nil _ _ (List.prefix_refl _) rfl
        | some cand =>
          obtain ⟨cp, hcp, _, _⟩ := find_partition_some _ _ _ hcand
          generalize hq : ({ pcb with partition_number := cp.partition_number,
                                      program_name := "init",
                                      program_size := toU16 1 } : PCB) = q
          have hr3 : rooted (s.pcbs.set c q) :=
            rooted_after_set s.pcbs c pcb q hr hpcb (by rw [← hq]) (by rw [← hq])
          have htbl : find_pcb_table (s.pcbs.set c q) c = some 0 :=
            find_pcb_table_rooted _ hr3 c (by simpa using hclt)
          have hload := run_exec_load_initial stop_at_entry env program_name duration c pcb q 1
            cand s cp 0 hcp hq.symm htbl
          have hrun : run_exec_with stop_at_entry env program_name duration (some c) s
              = run_exec_load stop_at_entry env program_name duration c pcb true 1 cand s := by
            simp [run_exec_with, hpcb, h11, run_exec_allocate, hcand]
          rw [hrun, hload]
          have hsame := load_and_stop_same env program_name c
            (with_pcbs (mark_occupied s cand cp program_name) (s.pcbs.set c q))
          exact snapshots_from_nil _ _ (by rw [hsame.2]; exact List.prefix_refl _) hsame.1
      · by_cases hm : find_program_size env.external_files program_name = -1
        · have hown : exec_own_snapshot env program_name duration (some c) s = [] := by
            simp only [exec_own_snapshot, hpcb, h11, if_false, hm, if_true]
          have hrun : run_exec_with stop_at_entry env program_name duration (some c) s
              = .done (say s (.program_not_found program_name)) (some c) := by
            simp [run_exec_with, hpcb, h11, hm]
          rw [hown, hrun]
          exact snapshots_from_nil _ _ (List.prefix_refl _) rfl
        · generalize hsz : find_program_size env.external_files program_name = sz at hm
          cases hcand : find_partition s.partitions sz with
          | none =>
            have hown : exec_own_snapshot env program_name duration (some c) s = [] := by
              simp only [exec_own_snapshot, hpcb, h11, if_false, hsz, hm, hcand]
            have hrun : run_exec_with stop_at_entry env program_name duration (some c) s
                = .done (say s (.no_suitable_partition program_name)) (some c) := by
              simp [run_exec_with, hpcb, h11, hsz, hm, run_exec_allocate, hcand]
            rw [hown, hrun]
            exact snapshots_from_nil _ _ (List.prefix_refl _) rfl
          | some cand =>
            obtain ⟨cp, hcp, _, _⟩ := find_partition_some _ _ _ hcand
            generalize hq : ({ pcb with partition_number := cp.partition_number,
                                        program_name := program_name,
                                        program_size := toU16 sz } : PCB) = q
            have hr3 : rooted (s.pcbs.set c q) :=
              rooted_after_set s.pcbs c pcb q hr hpcb (by rw [← hq]) (by rw [← hq])
            have htbl : find_pcb_table (s.pcbs.set c q) c = some 0 :=
              find_pcb_table_rooted _ hr3 c (by simpa using hclt)
            have hload := run_exec_load_later stop_at_entry env program_name duration c pcb q
              sz cand s cp 0 hcp hq.symm htbl
            have hrun : run_exec_with stop_at_entry env program_name duration (some c) s
                = run_exec_load stop_at_entry env program_name duration c pcb false sz cand s := by
              simp [run_exec_with, hpcb, h11, hsz, hm, run_exec_allocate, hcand]
            have hfr := exec_log_steps_frame env program_name duration sz cp s
            have hown : exec_own_snapshot env program_name duration (some c) s
                = [⟨with_pcbs (mark_occupied (exec_log_steps env program_name duration sz cp s)
                    cand cp program_name) (s.pcbs.set c q), 0⟩] := by
              simp only [exec_own_snapshot, hpcb, h11, if_false, hsz, hm, hcand, hcp,
                mark_occupied, with_pcbs, hfr.2.1, hq, htbl]
            rw [hown, hrun, hload]
            generalize hs3 : with_pcbs (mark_occupied
              (exec_log_steps env program_name duration sz cp s) cand cp program_name)
              (s.pcbs.set c q) = s3
            have hr3s : rooted s3.pcbs := by rw [← hs3]; exact hr3
            have hst3 : s3.status_file = s.status_file := by rw [← hs3]; exact hfr.2.2.2
            have hf3 : s.file <+: s3.file := by
              rw [← hs3]
              exact exec_log_steps_stable log_grows_stable env program_name duration sz cp s
            rw [snapshot_then_tick_rooted s3 (some c) hr3s]
            have hsame := load_and_stop_same env program_name c
              (advance (write_snapshot s3 (snapshot_of s3)) 1)
            exact snapshots_from_same s _ _ _ (snapshots_from_tick s s3 hr3s hst3 hf3)
              hsame.1 hsame.2

/-- The calls of `save_system_status` that one call of `run_exec` on a well-formed tree
gives rise to, provided those of the nested trace are listed rightly. -/
theorem exec_snapshots (nested : List TraceEvent → Option Nat → Sim → Outcome)
    (deeper : List TraceEvent → Option Nat → Sim → List SnapshotCall)
    (hn : ∀ tr c s4, rooted s4.pcbs → snapshots_from s4 (deeper tr c s4) (nested tr c s4).sim)
    (env : Env) (program_name : String) (duration : Nat) (cur : Option Nat) (s : Sim)
    (hr : rooted s.pcbs) :
    snapshots_from s (exec_snapshot_calls deeper env program_name duration cur s)
      (run_exec_with nested env program_name duration cur s).sim := by
  have hstop := stop_run_snapshots env program_name duration cur s hr
  have hroot := (run_exec_with_stable rooted_stable stop_at_entry
    (fun _ _ s1 h => ⟨h, List.prefix_refl _⟩) env program_name duration cur s hr).1
  cases cur with
  | none =>
    have hne : nested_entry env program_name duration none s = none := by
      simp [nested_entry, run_exec_with]
    simp only [exec_snapshot_calls, hne, List.append_nil]
    exact hstop
  | some c =>
    rw [run_exec_with_split nested]
    unfold exec_snapshot_calls
    cases he : nested_entry env program_name duration (some c) s with
    | none =>
      simp only [List.append_nil]
      exact hstop
    | some p =>
      obtain ⟨tr, s4⟩ := p
      have hs4 := (nested_entry_some _ _ _ _ _ _ _ he).1
      rw [hs4] at hstop hroot
      simp only [and_then_exec_return_sim]
      exact snapshots_from_trans s s4 _ _ _ hstop (hn tr (some c) s4 hroot)

/-- The calls of `save_system_status` of a whole run of `process_trace` from a well-formed
tree: `trace_snapshot_calls` lists them rightly. -/
theorem process_trace_snapshots (env : Env) (fuel : Nat) :
    ∀ (trace : List TraceEvent) (cur : Option Nat) (s : Sim), rooted s.pcbs →
      snapshots_from s (trace_snapshot_calls fuel env trace cur s)
        (process_trace fuel env trace cur s).sim := by
  induction fuel with
  | zero => intro trace cur s _; exact snapshots_from_nil _ _ (List.prefix_refl _) rfl
  | succ n ih =>
    intro trace cur s hr
    simp only [process_trace, process_trace_with, trace_snapshot_calls]
    cases cur with
    | none => exact snapshots_from_nil _ _ (List.prefix_refl _) rfl
    | some c =>
      simp only []
      cases hp : s.pcbs[c]? with
      | none => exact snapshots_from_nil _ _ (List.prefix_refl _) rfl
      | some pcb =>
        have hclt := (List.getElem?_eq_some_iff.mp hp).1
        simp only [find_pcb_table_rooted s.pcbs hr c hclt]
        exact loop_snapshots (run_exec n env) _
          (fun R hR nm d c1 s1 => run_exec_stable hR env n nm d c1 s1)
          (fun nm d c1 s1 h1 => exec_snapshots _ _ ih env nm d c1 s1 h1)
          env _ trace (some c) false s hr

/-- The calls of `save_system_status` of a run of `main`: `main_snapshot_calls` lists
them rightly. -/
theorem main_snapshots (fuel : Nat) (env : Env) (trace_file : String) :
    snapshots_from initial_sim (main_snapshot_calls fuel env trace_file)
      (main fuel env trace_file).sim := by
  have hr1 : rooted (with_pcbs initial_sim [{ init_pcb with next := some 1 },
      { init_pcb with pid := 11, parent := some 0 }]).pcbs :=
    (rooted_stable.fork initial_sim (some 0) _ 1 main_fork (rooted_single init_pcb rfl rfl)).1
  have hs : save_system_status (with_pcbs initial_sim [{ init_pcb with next := some 1 },
        { init_pcb with pid := 11, parent := some 0 }])
      (with_pcbs initial_sim [{ init_pcb with next := some 1 },
        { init_pcb with pid := 11, parent := some 0 }]).current_time 0
      = some main_exec_entry := by decide
  have h1 : snapshots_from initial_sim
      [⟨with_pcbs initial_sim [{ init_pcb with next := some 1 },
        { init_pcb with pid := 11, parent := some 0 }], 0⟩] main_exec_entry := by
    refine ⟨List.prefix_refl _, rfl, ?_⟩
    intro k c hk
    have hk1 : k < 1 := (List.getElem?_eq_some_iff.mp hk).1
    have hk0 : k = 0 := by omega
    subst hk0
    simp only [List.getElem?_cons_zero, Option.some.injEq] at hk
    subst hk
    exact ⟨rfl, hr1, rfl, List.prefix_refl _⟩
  have h2 := exec_snapshots _ _ (process_trace_snapshots env fuel) env trace_file 0 (some 1)
    main_exec_entry hr1
  have hc : main_snapshot_calls fuel env trace_file
      = [⟨with_pcbs initial_sim [{ init_pcb with next := some 1 },
          { init_pcb with pid := 11, parent := some 0 }], 0⟩] ++
        exec_snapshot_calls (trace_snapshot_calls fuel env) env trace_file 0 (some 1)
          main_exec_entry := by
    unfold main_snapshot_calls
    rw [main_fork]
    simp only [hs]
    rfl
  rw [hc, main_eq]
  exact snapshots_from_trans _ _ _ _ _ h1 h2

/-- C12. Snapshot content: `main_snapshot_calls` lists the calls of `save_system_status`
that a run of `main` makes, each with the state in which it is made and the head passed.
For every run, the status file at the end is exactly the sequence of the snapshots of
those states, one per call and in the order of the calls; for the `k`-th call, made in
state `u` with head `tbl`: `tbl` is address 0, the root record, which has no parent; `u`
holds a well-formed tree whose roster is the store in creation order; `save_system_status`
called there writes, and the `k`-th entry of the status file is, the clock value of `u`
followed by exactly one row (pid, program name, partition number, program size) for each
record of `u` after the root, in creation order, and no row for the root; the status
file of `u` is exactly the first `k` snapshots and the log of `u` is an initial part of
the final log. The same holds for every run of `process_trace` and of `run_exec` from a
state with a well-formed tree (`snapshots_from`), and in every such state the head found
by the parent walk from any stored record is the root. -/
theorem snapshot_content (fuel : Nat) (env : Env) (trace_file : String) :
    (main fuel env trace_file).sim.status_file
      = (main_snapshot_calls fuel env trace_file).map (fun c => snapshot_of c.state) ∧
    (∀ (k : Nat) (c : SnapshotCall), (main_snapshot_calls fuel env trace_file)[k]? = some c →
      c.pcb_table = 0 ∧ rooted c.state.pcbs ∧
      (∃ r : PCB, c.state.pcbs[0]? = some r ∧ r.parent = none) ∧
      roster c.state.pcbs = some (c.state.pcbs.map unlinked) ∧
      save_system_status c.state c.state.current_time c.pcb_table
        = some (write_snapshot c.state
            ⟨c.state.current_time, (c.state.pcbs.drop 1).map status_row⟩) ∧
      (main fuel env trace_file).sim.status_file[k]?
        = some ⟨c.state.current_time, (c.state.pcbs.drop 1).map status_row⟩ ∧
      c.state.status_file = (main fuel env trace_file).sim.status_file.take k ∧
      c.state.file <+: (main fuel env trace_file).sim.file) ∧
    (∀ (f : Nat) (env1 : Env) (tr : List TraceEvent) (cur : Option Nat) (s : Sim),
      rooted s.pcbs →
      snapshots_from s (trace_snapshot_calls f env1 tr cur s)
        (process_trace f env1 tr cur s).sim) ∧
    (∀ (f : Nat) (env1 : Env) (name : String) (d : Nat) (cur : Option Nat) (s : Sim),
      rooted s.pcbs →
      snapshots_from s (exec_snapshot_calls (trace_snapshot_calls f env1) env1 name d cur s)
        (run_exec f env1 name d cur s).sim) ∧
    (∀ u : Sim, rooted u.pcbs →
      (∀ c : Nat, c < u.pcbs.length → find_pcb_table u.pcbs c = some 0) ∧
      save_system_status u u.current_time 0 = some (write_snapshot u (snapshot_of u))) := by
  obtain ⟨_, hfile, hcalls⟩ := main_snapshots fuel env trace_file
  have hfile1 : (main fuel env trace_file).sim.status_file
      = (main_snapshot_calls fuel env trace_file).map (fun c => snapshot_of c.state) := by
    rw [hfile]
    rfl
  refine ⟨hfile1, ?_, ?_, ?_, ?_⟩
  · intro k c hk
    obtain ⟨h0, hr, hu, hf⟩ := hcalls k c hk
    obtain ⟨r, hr0, hrp⟩ := hr.2.1
    have hpos : 0 < c.state.pcbs.length := (List.getElem?_eq_some_iff.mp hr0).1
    refine ⟨h0, hr, ⟨r, hr0, hrp⟩, roster_linked c.state.pcbs hr.1 hpos, ?_, ?_, ?_, hf⟩
    · rw [h0]
      exact save_system_status_rooted c.state c.state.current_time hr
    · rw [hfile1, List.getElem?_map, hk]
      rfl
    · rw [hu, hfile1, List.map_take]
      rfl
  · intro f env1 tr cur s hr
    exact process_trace_snapshots env1 f tr cur s hr
  · intro f env1 name d cur s hr
    exact exec_snapshots _ _ (process_trace_snapshots env1 f) env1 name d cur s hr
  · intro u hr
    exact ⟨fun c hc => find_pcb_table_rooted u.pcbs hr c hc,
      save_system_status_rooted u u.current_time hr⟩

/-- The run of `main` on "root.txt" in the sample environment calls `save_system_status`
three times, always with head 0: at clock 0 with records of pid 10, 11, at clock 10 (after
the FORK) and at clock 24 (in the exec of "prog") with records of pid 10, 11, 12; the
status file holds the three snapshots, with rows for the pids 11 and 12 only. -/
theorem snapshot_content_witness :
    (main_snapshot_calls 3 sample_env "root.txt").map
        (fun c => (c.state.current_time, c.pcb_table, c.state.pcbs.map PCB.pid))
      = [(0, 0, [10, 11]), (10, 0, [10, 11, 12]), (24, 0, [10, 11, 12])] ∧
    (main 3 sample_env "root.txt").sim.status_file
      = [⟨0, [⟨11, "init", 6, 1⟩]⟩,
         ⟨10, [⟨11, "init", 6, 1⟩, ⟨12, "init", 6, 1⟩]⟩,
         ⟨24, [⟨11, "init", 6, 1⟩, ⟨12, "prog", 5, 3⟩]⟩] ∧
    (main 3 sample_env "root.txt").sim.status_file
      = (main_snapshot_calls 3 sample_env "root.txt").map (fun c => snapshot_of c.state) :=
  ⟨by decide, by decide, (snapshot_content 3 sample_env "root.txt").1⟩

end ProcessSimulator
